import Mathlib

/-!
Verification of the DNA data-storage codec (encoder/decoder core).

The definitions below are a shallow embedding of the Python source:
  * `src/utils/functions/converts.py`    — bit/byte and trit/DNA packers
  * `src/utils/functions/crc.py`         — CRC-8 and CRC-16-CCITT
  * `src/utils/functions/constraints.py` — GC-content / run-length predicate
  * `src/utils/functions/consensus.py`   — per-column majority vote
  * `src/utils/dna_storage.py`           — the `DNAStorage` class

Modelling conventions:
  * Python `bytes` are `List Nat` with side conditions `x < 256` where needed.
  * Python bit-strings of `'0'`/`'1'` are `List Bool` (`true` = `'1'`).
  * DNA strings are `List Char`.
  * Code that can raise is modelled with `Option` (`none` = exception).
-/

namespace DNACodec

/-- Embeds Python `//` (floor division), which raises `ZeroDivisionError`
on a zero divisor. -/
def pydiv (a b : Nat) : Option Nat :=
  if b = 0 then none else some (a / b)

/-- Recursion core of `pychunks`: the fuel argument (instantiated with the
list's length, which bounds the number of slices) makes the recursion
structural, so that the kernel can evaluate it on concrete inputs. -/
def pychunksGo {α : Type} : Nat → Nat → List α → List (List α)
  | _, _, [] => []
  | 0, _, _ :: _ => []
  | _ + 1, 0, _ :: _ => []
  | k + 1, fuel + 1, x :: xs =>
    ((x :: xs).take (k + 1)) :: pychunksGo (k + 1) fuel ((x :: xs).drop (k + 1))

/-- Embeds the Python slicing loop `[l[i:i+k] for i in range(0, len(l), k)]`.
A step of `0` makes `range` raise in Python; every call site guards `k = 0`
before reaching this function, so that branch is unreachable and returns `[]`. -/
def pychunks {α : Type} (k : Nat) (l : List α) : List (List α) :=
  pychunksGo k l.length l

/-- `converts.bytes_to_bits`: `format(x, '0{nbits}b')` — the MSB-first `nbits`-bit
binary string of `x`.  Python would emit more than `nbits` digits if
`x ≥ 2 ^ nbits`; every call site bounds `x` first (explicit range checks in
`_create_prefix`, and `crc8 < 256`), where this definition agrees. -/
def bytes_to_bits (x nbits : Nat) : List Bool :=
  (List.range nbits).map (fun i => x.testBit (nbits - 1 - i))

/-- `int(bits, 2)` on a `'0'/'1'` string: MSB-first binary value. -/
def bitsToNat (bits : List Bool) : Nat :=
  bits.foldl (fun a b => 2 * a + b.toNat) 0

/-- `converts.bits_to_bytes`: pack a bit string into bytes, padding with `0`
bits to a byte boundary (`pad = (-len) % 8`). -/
def bits_to_bytes (bits : List Bool) : List Nat :=
  if bits = [] then []
  else
    let pad := (8 - bits.length % 8) % 8
    (pychunks 8 (bits ++ List.replicate pad false)).map bitsToNat

/-- One shift-xor round of `crc.crc8` (poly `0x07`). -/
def crc8_round (c : Nat) : Nat :=
  if c &&& 0x80 ≠ 0 then ((c <<< 1) &&& 0xFF) ^^^ 0x07 else (c <<< 1) &&& 0xFF

/-- `crc.crc8` with the default poly `0x07` and init `0x00`. -/
def crc8 (data : List Nat) : Nat :=
  data.foldl (fun c b => (List.range 8).foldl (fun c _ => crc8_round c) (c ^^^ b)) 0

/-- One shift-xor round of `crc16_ccitt` (poly `0x1021`). -/
def crc16_round (crc : Nat) : Nat :=
  if crc &&& 0x8000 ≠ 0 then ((crc <<< 1) ^^^ 0x1021) &&& 0xFFFF else (crc <<< 1) &&& 0xFFFF

/-- `DNAStorage._crc16_ccitt` (identical to `crc.crc16_ccitt`): poly `0x1021`,
init `0xFFFF`. -/
def crc16_ccitt (data : List Nat) : Nat :=
  data.foldl (fun crc b => (List.range 8).foldl (fun c _ => crc16_round c) (crc ^^^ ((b <<< 8) &&& 0xFFFF))) 0xFFFF

/-- One reflected shift-xor round of `zlib.crc32` (poly `0xEDB88320`). -/
def crc32_round (c : Nat) : Nat :=
  if c &&& 1 ≠ 0 then (c >>> 1) ^^^ 0xEDB88320 else c >>> 1

/-- `zlib.crc32(data) & 0xFFFFFFFF`: the standard reflected CRC-32,
init `0xFFFFFFFF`, xor-out `0xFFFFFFFF`. -/
def crc32 (data : List Nat) : Nat :=
  (data.foldl (fun c b => (List.range 8).foldl (fun c _ => crc32_round c) (c ^^^ b)) 0xFFFFFFFF) ^^^ 0xFFFFFFFF

/-- `converts.GOLDMAN_ENCODE`: dict-of-dict lookup `GOLDMAN_ENCODE[last][t]`;
`none` embeds Python's `KeyError` on an invalid base or trit. -/
def GOLDMAN_ENCODE (last : Char) (t : Nat) : Option Char :=
  match last, t with
  | 'A', 0 => some 'C' | 'A', 1 => some 'G' | 'A', 2 => some 'T'
  | 'C', 0 => some 'G' | 'C', 1 => some 'T' | 'C', 2 => some 'A'
  | 'G', 0 => some 'T' | 'G', 1 => some 'A' | 'G', 2 => some 'C'
  | 'T', 0 => some 'A' | 'T', 1 => some 'C' | 'T', 2 => some 'G'
  | _, _ => none

/-- `converts.GOLDMAN_DECODE`: the inverted table,
`GOLDMAN_DECODE[last][nuc]`. -/
def GOLDMAN_DECODE (last nuc : Char) : Option Nat :=
  match last, nuc with
  | 'A', 'C' => some 0 | 'A', 'G' => some 1 | 'A', 'T' => some 2
  | 'C', 'G' => some 0 | 'C', 'T' => some 1 | 'C', 'A' => some 2
  | 'G', 'T' => some 0 | 'G', 'A' => some 1 | 'G', 'C' => some 2
  | 'T', 'A' => some 0 | 'T', 'C' => some 1 | 'T', 'G' => some 2
  | _, _ => none

/-- The inner loop of `converts.bytes_to_trits`: `for _ in range(6): v, r =
divmod(v, 3); trits.append(r)` — least-significant trit first. -/
def tritsOfByte (v : Nat) : Nat → List Nat
  | 0 => []
  | n + 1 => (v % 3) :: tritsOfByte (v / 3) n

/-- `converts.bytes_to_trits`: each byte yields six base-3 digits, LSB first. -/
def bytes_to_trits (data : List Nat) : List Nat :=
  (data.map (fun b => tritsOfByte b 6)).flatten

/-- One 6-trit group of `converts.trits_to_bytes`: `val = Σ t_j * 3^j`, raising
on a trit outside `{0,1,2}` or a packed value above `255`. -/
def packTrits (g : List Nat) : Option Nat := do
  let val ← g.enum.foldlM (fun acc jt =>
    if jt.2 = 0 ∨ jt.2 = 1 ∨ jt.2 = 2 then some (acc + jt.2 * 3 ^ jt.1) else none) 0
  if val ≤ 255 then some val else none

/-- The accumulation loop of `converts.trits_to_bytes` over the 6-trit groups,
propagating the first raised error. -/
def packAll : List (List Nat) → Option (List Nat)
  | [] => some []
  | g :: gs => do
    let v ← packTrits g
    let vs ← packAll gs
    return v :: vs

/-- `converts.trits_to_bytes`: strict inverse of `bytes_to_trits`; groups of six
trits (incomplete tail ignored), optional truncation to `byte_length`. -/
def trits_to_bytes (trits : List Nat) (byte_length : Option Nat) : Option (List Nat) :=
  if trits = [] then some []
  else
    match packAll (pychunks 6 (trits.take (trits.length / 6 * 6))) with
    | none => none
    | some vals =>
      match byte_length with
      | some L => some (vals.take L)
      | none => some vals

/-- The loop of `converts.trits_to_dna`, carrying `last`. -/
def trits_to_dna_go (last : Char) : List Nat → Option (List Char)
  | [] => some []
  | t :: ts => do
    let nxt ← GOLDMAN_ENCODE last t
    let rest ← trits_to_dna_go nxt ts
    return nxt :: rest

/-- `converts.trits_to_dna`. -/
def trits_to_dna (trits : List Nat) (start : Char) : Option (List Char) :=
  trits_to_dna_go start trits

/-- The loop of `converts.dna_to_trits`, carrying `last`; `none` embeds the
`ValueError` on an invalid transition. -/
def dna_to_trits_go (last : Char) : List Char → Option (List Nat)
  | [] => some []
  | b :: rest => do
    let t ← GOLDMAN_DECODE last b
    let ts ← dna_to_trits_go b rest
    return t :: ts

/-- `converts.dna_to_trits`. -/
def dna_to_trits (dna : List Char) (start : Char) : Option (List Nat) :=
  dna_to_trits_go start dna

/-- `converts.bytes_to_dna_goldman`. -/
def bytes_to_dna_goldman (data : List Nat) (start : Char) : Option (List Char) :=
  trits_to_dna (bytes_to_trits data) start

/-- `converts.dna_to_bytes_goldman`. -/
def dna_to_bytes_goldman (dna : List Char) (start : Char) : Option (List Nat) := do
  let ts ← dna_to_trits dna start
  trits_to_bytes ts none

/-- `constraints.gc_content` numerator: `sum(1 for c in seq if c in "GC")`. -/
def gc_count (seq : List Char) : Nat :=
  (seq.filter (fun c => c = 'G' ∨ c = 'C')).length

/-- The loop of `constraints.max_run_length`, carrying `(m, cur, prev)`. -/
def max_run_go (m cur : Nat) (prev : Char) : List Char → Nat
  | [] => m
  | c :: rest =>
    if c = prev then max_run_go (max m (cur + 1)) (cur + 1) prev rest
    else max_run_go m 1 c rest

/-- `constraints.max_run_length`. -/
def max_run_length (seq : List Char) : Nat :=
  match seq with
  | [] => 0
  | c :: rest => max_run_go 1 1 c rest

/-- `constraints.passes_constraints` with the default arguments
`max_run = 3`, `gc_min = 0.40`, `gc_max = 0.60`.  Python compares the IEEE-754
double `gc/len` against the doubles `0.4` and `0.6`; since both comparands are
correctly rounded from the exact rationals `gc/len` and `2/5` (resp. `3/5`),
and `|gc/len - 2/5| ≥ 1/(5*len)` is far above one ulp whenever they differ,
the float comparison coincides exactly with the rational comparison used here
(`2*len ≤ 5*gc` and `5*gc ≤ 3*len`). -/
def passes_constraints (seq : List Char) : Bool :=
  if seq = [] then false
  else if 3 < max_run_length seq then false
  else decide (2 * seq.length ≤ 5 * gc_count seq) && decide (5 * gc_count seq ≤ 3 * seq.length)

/-- Distinct elements of a list in order of first occurrence — the key order of
a Python `collections.Counter` built from the list. -/
def firstSeenGo : Nat → List Char → List Char
  | _, [] => []
  | 0, _ :: _ => []
  | fuel + 1, c :: rest => c :: firstSeenGo fuel (rest.filter (fun x => x ≠ c))

def firstSeen (l : List Char) : List Char := firstSeenGo l.length l

/-- `Counter(col).most_common(1)[0][0]`: the element with the largest count;
`most_common` sorts stably by descending count over the insertion-ordered
counter, so ties break in favour of the first-seen element.  The `[]` case is
unreachable (callers guard `col` nonempty, as the source does with
`if not col: continue`). -/
def mostCommon (col : List Char) : Char :=
  match firstSeen col with
  | [] => 'A'
  | d :: ds => ds.foldl (fun best c => if col.count best < col.count c then c else best) d

/-- `max(len(s) for s in reads)`; for nonempty `reads` the fold from `0`
equals Python's `max` of the nonempty generator. -/
def maxLen (reads : List (List Char)) : Nat :=
  reads.foldl (fun m s => max m s.length) 0

/-- `consensus.consensus` (and the identical `DNAStorage._consensus`):
per-column majority vote; `col = [s[i] for s in reads if i < len(s)]` is
`reads.filterMap (·[i]?)`. -/
def consensus (reads : List (List Char)) : List Char :=
  match reads with
  | [] => []
  | [r] => r
  | _ =>
    (List.range (maxLen reads)).filterMap (fun i =>
      let col := reads.filterMap (fun s => s[i]?)
      if col = [] then none else some (mostCommon col))

/-! ### Goldman-codec lemmas -/

/-- The DNA alphabet. -/
def isBase (c : Char) : Prop := c = 'A' ∨ c = 'C' ∨ c = 'G' ∨ c = 'T'

instance (c : Char) : Decidable (isBase c) := by unfold isBase; infer_instance

/-! ### Prefix framer (`DNAStorage._create_prefix` / `DNAStorage._parse_prefix`) -/

/-- `DNAStorage._bin_to_ct`: bit `1` → base `C`, bit `0` → base `T`. -/
def bin_to_ct (bits : List Bool) : List Char :=
  bits.map (fun b => if b then 'C' else 'T')

/-- `DNAStorage._ct_to_bin`: `'1' if b == 'C' else '0'`. -/
def ct_to_bin (ct : List Char) : List Bool :=
  ct.map (fun c => decide (c = 'C'))

/-- `DNAStorage.TYPE_CODE` dict lookup; `none` embeds the raised `ValueError`
for an invalid `seq_type`. -/
def TYPE_CODE (t : Char) : Option (List Char) :=
  match t with
  | 'H' => some ['A', 'A']
  | 'D' => some ['C', 'C']
  | 'P' => some ['G', 'G']
  | _ => none

/-- `DNAStorage.TYPE_DECODE` dict lookup (`.get`, `None` when absent). -/
def TYPE_DECODE (s : List Char) : Option Char :=
  match s with
  | ['A', 'A'] => some 'H'
  | ['C', 'C'] => some 'D'
  | ['G', 'G'] => some 'P'
  | _ => none

/-- Result of `DNAStorage._parse_prefix`. -/
structure PrefixInfo where
  seq_type : Char
  chunk_idx : Nat
  total_chunks : Nat
  seq_idx : Nat
  total_seqs : Nat
  payload : List Char
deriving DecidableEq, Repr

/-- `DNAStorage._create_prefix`: SYNC + TYPE + CT(fields) + CT(CRC-8);
`none` embeds the `ValueError`s for a bad type or out-of-range field. -/
def createPfx (chunk_idx total_chunks : Nat) (seq_type : Char)
    (seq_idx total_seqs : Nat) : Option (List Char) := do
  let tcode ← TYPE_CODE seq_type
  if chunk_idx < 2 ^ 24 ∧ total_chunks < 2 ^ 24 then
    if seq_idx < 2 ^ 10 ∧ total_seqs < 2 ^ 10 then
      let fields_bits := bytes_to_bits chunk_idx 24 ++ bytes_to_bits total_chunks 24 ++
        bytes_to_bits seq_idx 10 ++ bytes_to_bits total_seqs 10
      let crc := crc8 (bits_to_bytes fields_bits)
      let crc_bits := bytes_to_bits crc 8
      return ['A', 'G'] ++ tcode ++ bin_to_ct fields_bits ++ bin_to_ct crc_bits
    else none
  else none

/-- `DNAStorage._parse_prefix`: `none` on short input, bad SYNC, bad TYPE or
CRC-8 mismatch; otherwise the five fields plus `payload = sequence[80:]`. -/
def parsePfx (s : List Char) : Option PrefixInfo :=
  if s.length < 80 then none
  else if s.take 2 ≠ ['A', 'G'] then none
  else
    match TYPE_DECODE ((s.drop 2).take 2) with
    | none => none
    | some ty =>
      let fields_bits := ct_to_bin ((s.drop 4).take 68)
      let crc_bits := ct_to_bin ((s.drop 72).take 8)
      if bytes_to_bits (crc8 (bits_to_bytes fields_bits)) 8 ≠ crc_bits then none
      else
        some {
          seq_type := ty
          chunk_idx := bitsToNat (fields_bits.take 24)
          total_chunks := bitsToNat ((fields_bits.drop 24).take 24)
          seq_idx := bitsToNat ((fields_bits.drop 48).take 10)
          total_seqs := bitsToNat ((fields_bits.drop 58).take 10)
          payload := s.drop 80 }

/-- The 68 field bits of a prefix. -/
def fieldBits (chunk_idx total_chunks seq_idx total_seqs : Nat) : List Bool :=
  bytes_to_bits chunk_idx 24 ++ bytes_to_bits total_chunks 24 ++
    bytes_to_bits seq_idx 10 ++ bytes_to_bits total_seqs 10

/-- The maximal per-value count over a column (spec side: "the most-frequent
character"). -/
def maxCount (col : List Char) : Nat :=
  col.foldl (fun m c => max m (col.count c)) 0

/-- The spec's description of `consensus` (§4.9): empty → `""`; single read →
that read; otherwise, for each column `i < L = max |r|`, the most frequent
`i`-th character over the reads with `|r| > i`, ties broken by first
occurrence in column order. -/
def consensusSpec (reads : List (List Char)) : List Char :=
  match reads with
  | [] => []
  | [r] => r
  | _ =>
    (List.range (maxLen reads)).filterMap (fun i =>
      let col := reads.filterMap (fun s => s[i]?)
      col.find? (fun c => col.count c = maxCount col))

/-! ### File header codec (`_create_header` / `_parse_header`) and constructor -/

/-- `x.to_bytes(n, 'little')`: `none` embeds the `OverflowError` when `x` does
not fit in `n` bytes. -/
def to_bytes_le (x n : Nat) : Option (List Nat) :=
  if x < 256 ^ n then some ((List.range n).map (fun i => x / 256 ^ i % 256)) else none

/-- `int.from_bytes(l, 'little')`. -/
def from_bytes_le (l : List Nat) : Nat :=
  l.foldr (fun b acc => acc * 256 + b) 0

/-- `DNAStorage._create_header`: 22 bytes
`file_size(8,LE) ‖ chunk_size(2,LE) ‖ nsym(1) ‖ 0 ‖ checksum8(8) ‖ crc16(2,LE)`
with CRC-16-CCITT over the first 20 bytes.  The bytearray slice assignments are
modelled as concatenation; the encoder always passes an 8-byte `checksum8`.
`nsym > 255` would make the byte assignment `hdr[10] = nsym` raise. -/
def create_header (chunk_size nsym file_size : Nat) (checksum8 : List Nat) : Option (List Nat) := do
  let fs ← to_bytes_le file_size 8
  let cs ← to_bytes_le chunk_size 2
  if nsym ≤ 255 then
    let first20 := fs ++ cs ++ [nsym, 0] ++ checksum8
    let crc ← to_bytes_le (crc16_ccitt first20) 2
    return first20 ++ crc
  else none

/-- Result of `DNAStorage._parse_header`. -/
structure Header where
  file_size : Nat
  chunk_size : Nat
  nsym : Nat
  checksum8 : List Nat
  num_chunks : Nat
deriving DecidableEq, Repr

/-- `DNAStorage._parse_header`: `none` embeds every raised `ValueError` (short
header, CRC-16 mismatch, RS parameters over 255) and the `ZeroDivisionError`
when the parsed `chunk_size` is `0` (the `num_chunks` ceiling division runs
before the RS check, as in the source). -/
def parse_header (hdr : List Nat) : Option Header :=
  if hdr.length < 22 then none
  else if crc16_ccitt (hdr.take 20) ≠ from_bytes_le ((hdr.drop 20).take 2) then none
  else
    let file_size := from_bytes_le (hdr.take 8)
    let chunk_size := from_bytes_le ((hdr.drop 8).take 2)
    let nsym := hdr.getD 10 0
    let checksum8 := (hdr.drop 12).take 8
    match pydiv (file_size + chunk_size - 1) chunk_size with
    | none => none
    | some num_chunks =>
      if chunk_size + 4 + nsym > 255 then none
      else some ⟨file_size, chunk_size, nsym, checksum8, num_chunks⟩

/-- The parameters held by a `DNAStorage` instance (the unused `prefix_len`
and `reseed_attempts` fields are omitted: the code uses the literal `80` and
the fixed start order `('A','C','G','T')`). -/
structure DNAStorage where
  chunk_size : Nat
  redundancy : Nat
  error_correction : Nat
  segment_nt : Nat
deriving Repr

/-- `DNAStorage.__init__`: `none` embeds the `ValueError` raised exactly when
`chunk_size + 4 (CRC32) + nsym > 255`. -/
def DNAStorage.init (chunk_size redundancy error_correction segment_nt : Nat) :
    Option DNAStorage :=
  if chunk_size + 4 + error_correction > 255 then none
  else some ⟨chunk_size, redundancy, error_correction, segment_nt⟩

/-! ### SHA-256 (`hashlib.sha256`), FIPS 180-4, bytes in, 32 bytes out -/

/-- Truncation to a 32-bit word. -/
def w32 (x : Nat) : Nat := x % 4294967296

/-- 32-bit right rotation. -/
def rotr32 (n x : Nat) : Nat := w32 ((x >>> n) ||| (x <<< (32 - n)))

def shaCh (x y z : Nat) : Nat := (x &&& y) ^^^ ((x ^^^ 0xFFFFFFFF) &&& z)

def shaMaj (x y z : Nat) : Nat := (x &&& y) ^^^ (x &&& z) ^^^ (y &&& z)

def shaS0 (x : Nat) : Nat := rotr32 2 x ^^^ rotr32 13 x ^^^ rotr32 22 x

def shaS1 (x : Nat) : Nat := rotr32 6 x ^^^ rotr32 11 x ^^^ rotr32 25 x

def shas0 (x : Nat) : Nat := rotr32 7 x ^^^ rotr32 18 x ^^^ (x >>> 3)

def shas1 (x : Nat) : Nat := rotr32 17 x ^^^ rotr32 19 x ^^^ (x >>> 10)

/-- The 64 SHA-256 round constants (FIPS 180-4 §4.2.2, in decimal). -/
def shaK : List Nat :=
  [1116352408, 1899447441, 3049323471, 3921009573, 961987163, 1508970993,
   2453635748, 2870763221, 3624381080, 310598401, 607225278, 1426881987,
   1925078388, 2162078206, 2614888103, 3248222580, 3835390401, 4022224774,
   264347078, 604807628, 770255983, 1249150122, 1555081692, 1996064986,
   2554220882, 2821834349, 2952996808, 3210313671, 3336571891, 3584528711,
   113926993, 338241895, 666307205, 773529912, 1294757372, 1396182291,
   1695183700, 1986661051, 2177026350, 2456956037, 2730485921, 2820302411,
   3259730800, 3345764771, 3516065817, 3600352804, 4094571909, 275423344,
   430227734, 506948616, 659060556, 883997877, 958139571, 1322822218,
   1537002063, 1747873779, 1955562222, 2024104815, 2227730452, 2361852424,
   2428436474, 2756734187, 3204031479, 3329325298]

/-- The initial SHA-256 state (FIPS 180-4 §5.3.3, in decimal). -/
def shaH0 : List Nat :=
  [1779033703, 3144134277, 1013904242, 2773480762,
   1359893119, 2600822924, 528734635, 1541459225]

/-- 8-byte big-endian encoding. -/
def be64 (x : Nat) : List Nat := (List.range 8).map (fun i => x / 256 ^ (7 - i) % 256)

/-- SHA-256 padding: `0x80`, zeros to 56 mod 64, then the bit length. -/
def sha256Pad (msg : List Nat) : List Nat :=
  msg ++ [0x80] ++ List.replicate ((119 - (msg.length + 1) % 64) % 64) 0 ++ be64 (8 * msg.length)

/-- Big-endian word from 4 bytes. -/
def beWord (b : List Nat) : Nat := b.foldl (fun a x => a * 256 + x) 0

/-- Message-schedule extension from 16 to 64 words. -/
def shaSchedule (ws : List Nat) : List Nat :=
  (List.range 48).foldl (fun w _ =>
    let i := w.length
    w ++ [w32 (shas1 (w.getD (i - 2) 0) + w.getD (i - 7) 0 + shas0 (w.getD (i - 15) 0) +
      w.getD (i - 16) 0)]) ws

/-- One SHA-256 round on the state `(a,b,c,d,e,f,g,h)`. -/
def shaCompressStep (st : Nat × Nat × Nat × Nat × Nat × Nat × Nat × Nat) (kw : Nat × Nat) :
    Nat × Nat × Nat × Nat × Nat × Nat × Nat × Nat :=
  let (a, b, c, d, e, f, g, h) := st
  let t1 := w32 (h + shaS1 e + shaCh e f g + kw.1 + kw.2)
  let t2 := w32 (shaS0 a + shaMaj a b c)
  (w32 (t1 + t2), a, b, c, w32 (d + t1), e, f, g)

/-- Compression of one 64-byte block into the running state. -/
def shaCompressBlock (H : List Nat) (block : List Nat) : List Nat :=
  let ws := shaSchedule ((pychunks 4 block).map beWord)
  let st0 := (H.getD 0 0, H.getD 1 0, H.getD 2 0, H.getD 3 0,
    H.getD 4 0, H.getD 5 0, H.getD 6 0, H.getD 7 0)
  let st := (shaK.zip ws).foldl shaCompressStep st0
  List.zipWith (fun x y => w32 (x + y)) H
    [st.1, st.2.1, st.2.2.1, st.2.2.2.1, st.2.2.2.2.1, st.2.2.2.2.2.1,
     st.2.2.2.2.2.2.1, st.2.2.2.2.2.2.2]

/-- `hashlib.sha256(msg).digest()` as a list of 32 bytes. -/
def sha256 (msg : List Nat) : List Nat :=
  (((pychunks 64 (sha256Pad msg)).foldl shaCompressBlock shaH0).map
    (fun wrd => [wrd / 16777216 % 256, wrd / 65536 % 256, wrd / 256 % 256, wrd % 256])).flatten

/-! ### Encoder pipeline (`DNAStorage.encode_file`)

Reed–Solomon is the external `reedsolo` library.  Per spec §4.5 it is a
systematic code: `rs.encode(payload) = payload ++ parity`, so the encoder is
parameterised by the parity computation `rsParity` and the decoder by
`rsDecode` (which returns the message part, `none` embedding `ReedSolomonError`
when correction capacity is exceeded). -/

/-- `DNAStorage._encode_with_constraints`: try `start ∈ (A, C, G, T)` in order,
return the first Goldman encoding passing the constraints, else the `'A'`
encoding.  All four conversions succeed for valid starts; the `do`-prefetch of
the four candidates is equivalent to the source's loop because the conversions
are pure. -/
def encode_with_constraints (b : List Nat) : Option (List Char) := do
  let dA ← bytes_to_dna_goldman b 'A'
  let dC ← bytes_to_dna_goldman b 'C'
  let dG ← bytes_to_dna_goldman b 'G'
  let dT ← bytes_to_dna_goldman b 'T'
  if passes_constraints dA then some dA
  else if passes_constraints dC then some dC
  else if passes_constraints dG then some dG
  else if passes_constraints dT then some dT
  else some dA

/-- The two per-segment loops of `encode_file` (types `'D'` and `'P'`): prefix
each segment, starting at `seq_idx = si`, and append each oligo `r` times. -/
def buildSegSeqs (ty : Char) (chunk_idx total_chunks total_seqs r : Nat) :
    Nat → List (List Char) → Option (List (List Char))
  | _, [] => some []
  | si, seg :: rest => do
    let pfx ← createPfx chunk_idx total_chunks ty si total_seqs
    let tail ← buildSegSeqs ty chunk_idx total_chunks total_seqs r (si + 1) rest
    return List.replicate r (pfx ++ seg) ++ tail

/-- The body of `encode_file`'s per-chunk loop: CRC-32 append, RS encode
(systematic split into data and parity), constrained Goldman encoding,
segmentation (`segment_nt = 0` embeds the `range` step-0 `ValueError`), the
`total_seqs < 256` check, and prefixing/replication of every segment. -/
def encodeChunk (P : DNAStorage) (rsParity : List Nat → List Nat)
    (total_chunks chunk_idx : Nat) (chunk : List Nat) : Option (List (List Char)) := do
  let crc ← to_bytes_le (crc32 chunk) 4
  let payload := chunk ++ crc
  let codeword := payload ++ rsParity payload
  let data_rs := codeword.take payload.length
  let parity_rs := codeword.drop payload.length
  let data_dna ← encode_with_constraints data_rs
  let parity_dna ← encode_with_constraints parity_rs
  if P.segment_nt = 0 then none
  else
    let data_segments := pychunks P.segment_nt data_dna
    let parity_segments := pychunks P.segment_nt parity_dna
    let total_seqs := data_segments.length + parity_segments.length
    if 256 ≤ total_seqs then none
    else do
      let dataSeqs ← buildSegSeqs 'D' chunk_idx total_chunks total_seqs P.redundancy 0 data_segments
      let paritySeqs ← buildSegSeqs 'P' chunk_idx total_chunks total_seqs P.redundancy
        data_segments.length parity_segments
      return dataSeqs ++ paritySeqs

/-- The chunk loop of `encode_file` (`enumerate(chunks, start=1)`). -/
def encodeChunks (P : DNAStorage) (rsParity : List Nat → List Nat) (total_chunks : Nat) :
    Nat → List (List Nat) → Option (List (List Char))
  | _, [] => some []
  | ci, chunk :: rest => do
    let block ← encodeChunk P rsParity total_chunks ci chunk
    let restBlocks ← encodeChunks P rsParity total_chunks (ci + 1) rest
    return block ++ restBlocks

/-- `DNAStorage.encode_file`, applied to the file's bytes (the `open`/`read`
I/O is outside the embedding): header construction and Goldman encoding with
`start='A'`, `2*redundancy` header replicates, then the per-chunk pipeline. -/
def encode_file (P : DNAStorage) (rsParity : List Nat → List Nat) (data : List Nat) :
    Option (List (List Char)) := do
  let file_size := data.length
  let checksum8 := (sha256 data).take 8
  let header_bytes ← create_header P.chunk_size P.error_correction file_size checksum8
  let header_dna ← bytes_to_dna_goldman header_bytes 'A'
  let nc ← pydiv (file_size + P.chunk_size - 1) P.chunk_size
  let hpfx ← createPfx 0 nc 'H' 0 1
  let header_seq := hpfx ++ header_dna
  let chunks := pychunks P.chunk_size data
  let blocks ← encodeChunks P rsParity chunks.length 1 chunks
  return List.replicate (P.redundancy * 2) header_seq ++ blocks

/-! ### Decoder pipeline (`DNAStorage.decode_sequences`) -/

/-- Stage A: parse every candidate oligo, silently dropping invalid ones. -/
def parse_all (seqs : List (List Char)) : List PrefixInfo :=
  seqs.filterMap parsePfx

/-- Stage B of `decode_sequences`: the header reconstruction.  `none` embeds
each of the source's `return False, b""` early exits: no parsed prefix at all,
no H-type read with `chunk_idx = 0`, a Goldman decoding error on the header
consensus, or `_parse_header` raising. -/
def header_stage (seqs : List (List Char)) : Option Header :=
  let parsed := parse_all seqs
  if parsed = [] then none
  else
    let header_reads := (parsed.filter
      (fun p => p.seq_type == 'H' && p.chunk_idx == 0)).map (fun p => p.payload)
    if header_reads = [] then none
    else
      match dna_to_bytes_goldman (consensus header_reads) 'A' with
      | none => none
      | some header_bytes => parse_header header_bytes

/-- One chunk's grouped reads: `{'total_seqs': …, 'data': {…}, 'parity': {…}}`.
The Python dicts are insertion-ordered; they are modelled as association lists
with the same insertion discipline. -/
structure ChunkEntry where
  total_seqs : Nat
  data : List (Nat × List (List Char))
  parity : List (Nat × List (List Char))
deriving Repr

/-- `entry[kind].setdefault(si, []).append(payload)`: append `v` to the list at
key `k`, inserting the key at the end on first use. -/
def assocAppend (m : List (Nat × List (List Char))) (k : Nat) (v : List Char) :
    List (Nat × List (List Char)) :=
  match m with
  | [] => [(k, [v])]
  | (k', vs) :: rest =>
    if k' = k then (k', vs ++ [v]) :: rest else (k', vs) :: assocAppend rest k v

/-- The per-record update of a chunk entry: take the max `total_seqs` and file
the payload under `data` (type `'D'`) or `parity` (type `'P'`). -/
def stepEntry (p : PrefixInfo) (e : ChunkEntry) : ChunkEntry :=
  let e2 : ChunkEntry := { e with total_seqs := max e.total_seqs p.total_seqs }
  if p.seq_type = 'D' then { e2 with data := assocAppend e2.data p.seq_idx p.payload }
  else { e2 with parity := assocAppend e2.parity p.seq_idx p.payload }

/-- `chunks_map.setdefault(ci, fresh)` followed by the entry update; a fresh
entry starts as `{'total_seqs': p.total_seqs, 'data': {}, 'parity': {}}`. -/
def updateMap : List (Nat × ChunkEntry) → PrefixInfo → List (Nat × ChunkEntry)
  | [], p => [(p.chunk_idx, stepEntry p ⟨p.total_seqs, [], []⟩)]
  | (ci, e) :: rest, p =>
    if ci = p.chunk_idx then (ci, stepEntry p e) :: rest
    else (ci, e) :: updateMap rest p

/-- The grouping loop of `decode_sequences`: fold every parsed record (headers
skipped) into the chunk map. -/
def buildChunksMap (parsed : List PrefixInfo) : List (Nat × ChunkEntry) :=
  parsed.foldl (fun m p => if p.seq_type = 'H' then m else updateMap m p) []

/-- `chunks_map.get(ci)`. -/
def lookupMap : List (Nat × ChunkEntry) → Nat → Option ChunkEntry
  | [], _ => none
  | (ci, e) :: rest, k => if ci = k then some e else lookupMap rest k

/-- `entry[kind][i]` (the key is always present at the call sites, which
iterate over the dict's own keys; `[]` is returned for an absent key). -/
def assocLookup : List (Nat × List (List Char)) → Nat → List (List Char)
  | [], _ => []
  | (k', vs) :: rest, k => if k' = k then vs else assocLookup rest k

/-- Insertion into a sorted list, for `sorted(entry[kind].keys())`. -/
def insertSorted (x : Nat) : List Nat → List Nat
  | [] => [x]
  | y :: ys => if x ≤ y then x :: y :: ys else y :: insertSorted x ys

/-- Python's `sorted` on the (distinct) integer keys. -/
def sortNats (l : List Nat) : List Nat := l.foldr insertSorted []

/-- The per-chunk reconstruction of `decode_sequences`: consensus per
`seq_idx` in ascending order, Goldman decode (`none` skips the chunk), RS
decode with raw-data fallback, and the trailing CRC-32 check. -/
def processChunk (rsDecode : Nat → List Nat → Option (List Nat)) (nsym : Nat)
    (e : ChunkEntry) : Option (List Nat) :=
  let data_seq := ((sortNats (e.data.map Prod.fst)).map
    (fun i => consensus (assocLookup e.data i))).flatten
  let parity_seq := ((sortNats (e.parity.map Prod.fst)).map
    (fun i => consensus (assocLookup e.parity i))).flatten
  let dataOpt := if data_seq = [] then some [] else dna_to_bytes_goldman data_seq 'A'
  let parityOpt := if parity_seq = [] then some [] else dna_to_bytes_goldman parity_seq 'A'
  match dataOpt, parityOpt with
  | some db, some pb =>
    let decoded := (rsDecode nsym (db ++ pb)).getD db
    if decoded.length < 4 then none
    else
      let payload := decoded.take (decoded.length - 4)
      let crc_read := from_bytes_le (decoded.drop (decoded.length - 4))
      if crc32 payload = crc_read then some payload else none
  | _, _ => none

/-- The body of the decoder's reconstruction loop for one chunk index: a chunk
index absent from the map contributes nothing, otherwise its entry is
reconstructed. -/
def chunkStep (rsDecode : Nat → List Nat → Option (List Nat)) (nsym : Nat)
    (m : List (Nat × ChunkEntry)) (ci : Nat) : Option (List Nat) :=
  match lookupMap m ci with
  | none => none
  | some e => processChunk rsDecode nsym e

/-- `DNAStorage.decode_sequences`: stages A and B, then chunk reconstruction
over `ci ∈ 1..num_chunks` (missing or rejected chunks contribute nothing),
truncation to `file_size`, and the final SHA-256 gate. -/
def decode_sequences (rsDecode : Nat → List Nat → Option (List Nat))
    (seqs : List (List Char)) : Bool × List Nat :=
  match header_stage seqs with
  | none => (false, [])
  | some hdr =>
    let parsed := parse_all seqs
    let m := buildChunksMap parsed
    let reconstructed := ((List.range hdr.num_chunks).map (fun k => k + 1)).filterMap
      (chunkStep rsDecode hdr.nsym m)
    let file_bytes := reconstructed.flatten.take hdr.file_size
    let ok := decide ((sha256 file_bytes).take 8 = hdr.checksum8)
    (ok, if ok then file_bytes else [])

/-! ### Concrete instances for witnesses and counterexamples -/

/-- The constructor's default parameters: `chunk_size=100, redundancy=3,
error_correction=10, segment_nt=120`. -/
def defaultParams : DNAStorage := ⟨100, 3, 10, 120⟩

/-- A systematic Reed–Solomon encoder instance for concrete runs: `nsym` zero
parity symbols (any function with `|parity| = nsym` fits the interface). -/
def rsParityZero (nsym : Nat) : List Nat → List Nat := fun _ => List.replicate nsym 0

/-- The matching decoder instance: on a clean codeword it strips the `nsym`
parity symbols and returns the message. -/
def rsDecodeTrunc : Nat → List Nat → Option (List Nat) :=
  fun nsym l => some (l.take (l.length - nsym))

/-- The canonical 80-base prefix (total function; callers establish the
bounds). -/
def thePfx (ci tc : Nat) (ty : Char) (si ts : Nat) : List Char :=
  (createPfx ci tc ty si ts).getD []

/-- `chunk ‖ LE32(CRC32(chunk))` — the RS message for one chunk. -/
def chunkPayload (c : List Nat) : List Nat := c ++ (to_bytes_le (crc32 c) 4).getD []

/-- The explicit oligo block emitted for one chunk: prefixed data segments
(each replicated), then prefixed parity segments (each replicated). -/
def chunkBlock (P : DNAStorage) (rsParity : List Nat → List Nat) (tc ci : Nat)
    (c : List Nat) : List (List Char) :=
  let ddna := (encode_with_constraints (chunkPayload c)).getD []
  let pdna := (encode_with_constraints (rsParity (chunkPayload c))).getD []
  let dsegs := pychunks P.segment_nt ddna
  let psegs := pychunks P.segment_nt pdna
  let ts := dsegs.length + psegs.length
  ((List.enumFrom 0 dsegs).map
    (fun is => List.replicate P.redundancy (thePfx ci tc 'D' is.1 ts ++ is.2))).flatten ++
  ((List.enumFrom dsegs.length psegs).map
    (fun is => List.replicate P.redundancy (thePfx ci tc 'P' is.1 ts ++ is.2))).flatten

/-- The header oligo: H-prefix plus the Goldman-A encoding of the 22-byte
header. -/
def headerSeq (P : DNAStorage) (data : List Nat) : List Char :=
  thePfx 0 ((data.length + P.chunk_size - 1) / P.chunk_size) 'H' 0 1 ++
    (bytes_to_dna_goldman ((create_header P.chunk_size P.error_correction data.length
      ((sha256 data).take 8)).getD []) 'A').getD []

/-- The full output shape of `encode_file`. -/
def encodedOligos (P : DNAStorage) (rsParity : List Nat → List Nat) (data : List Nat) :
    List (List Char) :=
  List.replicate (P.redundancy * 2) (headerSeq P data) ++
    ((List.enumFrom 1 (pychunks P.chunk_size data)).map
      (fun p => chunkBlock P rsParity (pychunks P.chunk_size data).length p.1 p.2)).flatten

/-! ### Decoder on the encoder's output: parsing the shape -/

/-- The parsed form of one chunk's oligo block. -/
def chunkInfos (P : DNAStorage) (rsParity : List Nat → List Nat) (tc ci : Nat)
    (c : List Nat) : List PrefixInfo :=
  let ddna := (encode_with_constraints (chunkPayload c)).getD []
  let pdna := (encode_with_constraints (rsParity (chunkPayload c))).getD []
  let dsegs := pychunks P.segment_nt ddna
  let psegs := pychunks P.segment_nt pdna
  let ts := dsegs.length + psegs.length
  ((List.enumFrom 0 dsegs).map
    (fun is => List.replicate P.redundancy (⟨'D', ci, tc, is.1, ts, is.2⟩ : PrefixInfo))).flatten ++
  ((List.enumFrom dsegs.length psegs).map
    (fun is => List.replicate P.redundancy (⟨'P', ci, tc, is.1, ts, is.2⟩ : PrefixInfo))).flatten

/-! ### Decoder grouping: characterising `buildChunksMap` -/

/-- The non-header records of one chunk index, in parse order. -/
def selChunk (ci : Nat) (parsed : List PrefixInfo) : List PrefixInfo :=
  parsed.filter (fun p => !(p.seq_type == 'H') && p.chunk_idx == ci)

/-- Sequential application of `stepEntry`, seeding a fresh entry on the first
record, mirroring `setdefault`. -/
def applyAll : Option ChunkEntry → List PrefixInfo → Option ChunkEntry
  | acc, [] => acc
  | none, p :: rest => applyAll (some (stepEntry p ⟨p.total_seqs, [], []⟩)) rest
  | some e, p :: rest => applyAll (some (stepEntry p e)) rest

/-- One chunk's distinct oligos, one per segment (before replication). -/
def chunkGroups (P : DNAStorage) (rsParity : List Nat → List Nat) (tc ci : Nat)
    (c : List Nat) : List (List Char) :=
  let ddna := (encode_with_constraints (chunkPayload c)).getD []
  let pdna := (encode_with_constraints (rsParity (chunkPayload c))).getD []
  let dsegs := pychunks P.segment_nt ddna
  let psegs := pychunks P.segment_nt pdna
  let ts := dsegs.length + psegs.length
  (List.enumFrom 0 dsegs).map (fun is => thePfx ci tc 'D' is.1 ts ++ is.2) ++
  (List.enumFrom dsegs.length psegs).map (fun is => thePfx ci tc 'P' is.1 ts ++ is.2)

/-- The parsed records of one chunk's distinct oligos (no replication). -/
def chunkInfos1 (P : DNAStorage) (rsParity : List Nat → List Nat) (tc ci : Nat)
    (c : List Nat) : List PrefixInfo :=
  let ddna := (encode_with_constraints (chunkPayload c)).getD []
  let pdna := (encode_with_constraints (rsParity (chunkPayload c))).getD []
  let dsegs := pychunks P.segment_nt ddna
  let psegs := pychunks P.segment_nt pdna
  let ts := dsegs.length + psegs.length
  (List.enumFrom 0 dsegs).map (fun is => (⟨'D', ci, tc, is.1, ts, is.2⟩ : PrefixInfo)) ++
  (List.enumFrom dsegs.length psegs).map (fun is => (⟨'P', ci, tc, is.1, ts, is.2⟩ : PrefixInfo))

theorem goldman_encode_spec (last : Char) (t : Nat) (hb : isBase last) (ht : t < 3) :
    ∃ c, GOLDMAN_ENCODE last t = some c ∧ isBase c ∧ c ≠ last ∧
      GOLDMAN_DECODE last c = some t := by
  rcases hb with h | h | h | h <;> subst h <;> interval_cases t <;>
    first
      | exact ⟨'A', by decide, by decide, by decide, by decide⟩
      | exact ⟨'C', by decide, by decide, by decide, by decide⟩
      | exact ⟨'G', by decide, by decide, by decide, by decide⟩
      | exact ⟨'T', by decide, by decide, by decide, by decide⟩

/-- Combined induction for the Goldman transition code: on valid trits and a
valid start, encoding succeeds, decoding inverts it, the output has one base
per trit, no two adjacent bases (including the start state) coincide, and all
bases are in the alphabet. -/
theorem trits_to_dna_go_spec (ts : List Nat) : ∀ last, isBase last → (∀ t ∈ ts, t < 3) →
    ∃ dna, trits_to_dna_go last ts = some dna ∧ dna_to_trits_go last dna = some ts ∧
      dna.length = ts.length ∧ List.Chain' (· ≠ ·) (last :: dna) ∧ ∀ c ∈ dna, isBase c := by
  induction ts with
  | nil =>
    intro last _ _
    exact ⟨[], rfl, rfl, rfl, by simp, by simp⟩
  | cons t ts ih =>
    intro last hb hlt
    obtain ⟨c, hc, hcb, hne, hdec⟩ := goldman_encode_spec last t hb (hlt t (by simp))
    obtain ⟨dna, h1, h2, h3, h4, h5⟩ := ih c hcb (fun x hx => hlt x (by simp [hx]))
    refine ⟨c :: dna, ?_, ?_, by simp [h3], ?_, ?_⟩
    · simp [trits_to_dna_go, hc, h1]
    · simp [dna_to_trits_go, hdec, h2]
    · exact List.chain'_cons.mpr ⟨Ne.symm hne, h4⟩
    · intro x hx
      rcases List.mem_cons.mp hx with h | h
      · exact h ▸ hcb
      · exact h5 x h

theorem tritsOfByte_length (v n : Nat) : (tritsOfByte v n).length = n := by
  induction n generalizing v with
  | zero => rfl
  | succ n ih => simp [tritsOfByte, ih]

theorem tritsOfByte_lt (n : Nat) : ∀ v, ∀ t ∈ tritsOfByte v n, t < 3 := by
  induction n with
  | zero => intro v t ht; simp [tritsOfByte] at ht
  | succ n ih =>
    intro v t ht
    simp only [tritsOfByte] at ht
    rcases List.mem_cons.mp ht with h | h
    · subst h; exact Nat.mod_lt v (by omega)
    · exact ih (v / 3) t h

theorem bytes_to_trits_lt (b : List Nat) : ∀ t ∈ bytes_to_trits b, t < 3 := by
  intro t ht
  simp only [bytes_to_trits, List.mem_flatten, List.mem_map] at ht
  obtain ⟨l, ⟨v, _, hv⟩, htl⟩ := ht
  exact tritsOfByte_lt 6 v t (hv ▸ htl)

theorem bytes_to_trits_length (b : List Nat) : (bytes_to_trits b).length = 6 * b.length := by
  induction b with
  | nil => rfl
  | cons x xs ih =>
    rw [show bytes_to_trits (x :: xs) = tritsOfByte x 6 ++ bytes_to_trits xs from rfl,
      List.length_append, tritsOfByte_length, ih, List.length_cons]
    ring

set_option maxRecDepth 4096 in
theorem packTrits_tritsOfByte : ∀ v < 256, packTrits (tritsOfByte v 6) = some v := by decide

theorem pychunksGo_fuel {α : Type} : ∀ (f1 : Nat) (k f2 : Nat) (l : List α),
    l.length ≤ f1 → l.length ≤ f2 → pychunksGo k f1 l = pychunksGo k f2 l := by
  intro f1
  induction f1 with
  | zero =>
    intro k f2 l h1 _
    have h0 : l = [] := List.length_eq_zero.mp (Nat.le_zero.mp h1)
    subst h0
    cases k <;> cases f2 <;> rfl
  | succ f ih =>
    intro k f2 l h1 h2
    cases l with
    | nil => cases k <;> cases f2 <;> rfl
    | cons x xs =>
      cases k with
      | zero => cases f2 <;> rfl
      | succ k =>
        cases f2 with
        | zero => simp only [List.length_cons] at h2; omega
        | succ f2 =>
          show ((x :: xs).take (k + 1)) :: pychunksGo (k + 1) f ((x :: xs).drop (k + 1)) =
            ((x :: xs).take (k + 1)) :: pychunksGo (k + 1) f2 ((x :: xs).drop (k + 1))
          congr 1
          apply ih
          · simp only [List.length_drop, List.length_cons] at h1 ⊢
            omega
          · simp only [List.length_drop, List.length_cons] at h2 ⊢
            omega

theorem pychunks_nil {α : Type} (k : Nat) : pychunks k ([] : List α) = [] := by
  cases k <;> rfl

theorem pychunks_cons {α : Type} (k : Nat) (x : α) (xs : List α) :
    pychunks (k + 1) (x :: xs) =
      ((x :: xs).take (k + 1)) :: pychunks (k + 1) ((x :: xs).drop (k + 1)) := by
  show ((x :: xs).take (k + 1)) :: pychunksGo (k + 1) xs.length ((x :: xs).drop (k + 1)) =
    ((x :: xs).take (k + 1)) :: pychunksGo (k + 1) ((x :: xs).drop (k + 1)).length
      ((x :: xs).drop (k + 1))
  congr 1
  apply pychunksGo_fuel
  · simp only [List.length_drop, List.length_cons]
    omega
  · exact le_refl _

theorem pychunks_cons_of_length {α : Type} (k : Nat) (g rest : List α)
    (hg : g.length = k) (hk : k ≠ 0) :
    pychunks k (g ++ rest) = g :: pychunks k rest := by
  cases k with
  | zero => exact absurd rfl hk
  | succ k =>
    cases g with
    | nil => simp at hg
    | cons x xs =>
      rw [show (x :: xs) ++ rest = x :: (xs ++ rest) from rfl, pychunks_cons]
      have h1 : List.take (k + 1) (x :: (xs ++ rest)) = x :: xs := by
        rw [show x :: (xs ++ rest) = (x :: xs) ++ rest from rfl, ← hg, List.take_left]
      have h2 : List.drop (k + 1) (x :: (xs ++ rest)) = rest := by
        rw [show x :: (xs ++ rest) = (x :: xs) ++ rest from rfl, ← hg, List.drop_left]
      rw [h1, h2]

theorem trits_to_bytes_bytes_to_trits (b : List Nat) (hb : ∀ x ∈ b, x < 256) :
    trits_to_bytes (bytes_to_trits b) none = some b := by
  cases hb0 : b with
  | nil => rfl
  | cons y ys =>
    subst hb0
    have hne : bytes_to_trits (y :: ys) ≠ [] := by
      intro h
      have := bytes_to_trits_length (y :: ys)
      rw [h] at this
      simp at this
    rw [trits_to_bytes, if_neg hne]
    have hlen : (bytes_to_trits (y :: ys)).length / 6 * 6 = (bytes_to_trits (y :: ys)).length := by
      rw [bytes_to_trits_length]
      omega
    rw [hlen, List.take_length]
    have hchunks : ∀ l : List Nat,
        pychunks 6 (bytes_to_trits l) = l.map (fun v => tritsOfByte v 6) := by
      intro l
      induction l with
      | nil => rw [show bytes_to_trits [] = [] from rfl, pychunks]; rfl
      | cons z zs ih =>
        rw [show bytes_to_trits (z :: zs) = tritsOfByte z 6 ++ bytes_to_trits zs from rfl]
        rw [pychunks_cons_of_length 6 _ _ (tritsOfByte_length z 6) (by omega), ih]
        rfl
    rw [hchunks (y :: ys)]
    have hmap : ∀ l : List Nat, (∀ x ∈ l, x < 256) →
        packAll (l.map (fun v => tritsOfByte v 6)) = some l := by
      intro l
      induction l with
      | nil => intro _; rfl
      | cons z zs ih =>
        intro hzs
        rw [List.map_cons, packAll,
          packTrits_tritsOfByte z (hzs z (List.mem_cons_self z zs)),
          ih (fun x hx => hzs x (List.mem_cons_of_mem z hx))]
        rfl
    rw [hmap (y :: ys) hb]

/-- Success, inversion, length and alphabet facts for `bytes_to_dna_goldman`,
assembled from the pieces above. -/
theorem bytes_to_dna_goldman_spec (b : List Nat) (start : Char) (hs : isBase start) :
    ∃ dna, bytes_to_dna_goldman b start = some dna ∧
      dna_to_trits dna start = some (bytes_to_trits b) ∧
      dna.length = 6 * b.length ∧ List.Chain' (· ≠ ·) (start :: dna) ∧ ∀ c ∈ dna, isBase c := by
  obtain ⟨dna, h1, h2, h3, h4, h5⟩ :=
    trits_to_dna_go_spec (bytes_to_trits b) start hs (bytes_to_trits_lt b)
  exact ⟨dna, h1, h2, by rw [h3, bytes_to_trits_length], h4, h5⟩

theorem dna_to_bytes_goldman_of_encode (b : List Nat) (start : Char) (dna : List Char)
    (hs : isBase start) (hb : ∀ x ∈ b, x < 256)
    (henc : bytes_to_dna_goldman b start = some dna) :
    dna_to_bytes_goldman dna start = some b := by
  obtain ⟨dna', h1, h2, _, _, _⟩ := bytes_to_dna_goldman_spec b start hs
  rw [henc] at h1
  cases h1
  rw [dna_to_bytes_goldman, h2]
  simpa using trits_to_bytes_bytes_to_trits b hb

/-- Claim C4 — Goldman bijection: for every byte string `b` and every start
base in `{A,C,G,T}`, encoding succeeds and
`dna_to_bytes_goldman (bytes_to_dna_goldman b start) start = b`. -/
theorem claim_c4_goldman_bijection (b : List Nat) (start : Char)
    (hs : isBase start) (hb : ∀ x ∈ b, x < 256) :
    ∃ dna, bytes_to_dna_goldman b start = some dna ∧
      dna_to_bytes_goldman dna start = some b := by
  obtain ⟨dna, h1, _, _, _, _⟩ := bytes_to_dna_goldman_spec b start hs
  exact ⟨dna, h1, dna_to_bytes_goldman_of_encode b start dna hs hb h1⟩

/-- Witness for C4 at `b = [0, 255, 7]`, `start = 'C'`. -/
theorem claim_c4_witness :
    ∃ dna, bytes_to_dna_goldman [0, 255, 7] 'C' = some dna ∧
      dna_to_bytes_goldman dna 'C' = some [0, 255, 7] :=
  claim_c4_goldman_bijection [0, 255, 7] 'C' (by decide) (by decide)

/-- Claim C5 — no Goldman homopolymer: for every byte string and every valid
start base the encoder's output has no two consecutive identical bases. -/
theorem claim_c5_no_homopolymer (b : List Nat) (start : Char) (dna : List Char)
    (hs : isBase start) (henc : bytes_to_dna_goldman b start = some dna) :
    List.Chain' (· ≠ ·) dna := by
  obtain ⟨dna', h1, _, _, h4, _⟩ := bytes_to_dna_goldman_spec b start hs
  rw [henc] at h1
  cases h1
  exact h4.tail

/-- Witness for C5 at `b = [200, 17]`, `start = 'T'`. -/
theorem claim_c5_witness :
    List.Chain' (· ≠ ·) ['G', 'T', 'C', 'T', 'G', 'T', 'G', 'C', 'T', 'A', 'C', 'G'] :=
  claim_c5_no_homopolymer [200, 17] 'T' _ (by decide) (by decide)

/-- Claim C10 — Goldman output length: for every byte string and valid start
base the DNA string has length exactly `6 * |b|`; in particular a 22-byte
buffer (the file header) encodes to a 132-base payload. -/
theorem claim_c10_goldman_length (b : List Nat) (start : Char) (hs : isBase start) :
    ∃ dna, bytes_to_dna_goldman b start = some dna ∧ dna.length = 6 * b.length ∧
      (b.length = 22 → dna.length = 132) := by
  obtain ⟨dna, h1, _, h3, _, _⟩ := bytes_to_dna_goldman_spec b start hs
  exact ⟨dna, h1, h3, fun h22 => by rw [h3, h22]⟩

/-- Witness for C10 at a 22-byte buffer, `start = 'A'`. -/
theorem claim_c10_witness :
    ∃ dna, bytes_to_dna_goldman (List.replicate 22 9) 'A' = some dna ∧
      dna.length = 6 * (List.replicate 22 9).length ∧
      ((List.replicate 22 9).length = 22 → dna.length = 132) :=
  claim_c10_goldman_length (List.replicate 22 9) 'A' (by decide)

theorem bytes_to_bits_length (x n : Nat) : (bytes_to_bits x n).length = n := by
  simp [bytes_to_bits]

theorem bin_to_ct_length (bits : List Bool) : (bin_to_ct bits).length = bits.length := by
  simp [bin_to_ct]

theorem ct_to_bin_bin_to_ct (bits : List Bool) : ct_to_bin (bin_to_ct bits) = bits := by
  simp only [ct_to_bin, bin_to_ct, List.map_map]
  have : (fun c => decide (c = 'C')) ∘ (fun b : Bool => if b then 'C' else 'T') = id := by
    funext b
    cases b <;> rfl
  rw [this, List.map_id]

theorem bitsToNat_foldl (l : List Bool) : ∀ a : Nat,
    l.foldl (fun a b => 2 * a + b.toNat) a = a * 2 ^ l.length + bitsToNat l := by
  induction l with
  | nil => intro a; simp [bitsToNat]
  | cons b l ih =>
    intro a
    simp only [List.foldl_cons, List.length_cons]
    rw [ih (2 * a + b.toNat), show bitsToNat (b :: l) = (2 * 0 + b.toNat) * 2 ^ l.length + bitsToNat l
      from ih (2 * 0 + b.toNat)]
    ring

theorem bitsToNat_append (l1 l2 : List Bool) :
    bitsToNat (l1 ++ l2) = bitsToNat l1 * 2 ^ l2.length + bitsToNat l2 := by
  rw [show bitsToNat (l1 ++ l2) = (l1 ++ l2).foldl (fun a b => 2 * a + b.toNat) 0 from rfl,
    List.foldl_append]
  exact bitsToNat_foldl l2 _

theorem bytes_to_bits_succ (x n : Nat) :
    bytes_to_bits x (n + 1) = bytes_to_bits (x / 2) n ++ [x.testBit 0] := by
  rw [bytes_to_bits, List.range_succ, List.map_append]
  have h1 : (List.range n).map (fun i => x.testBit (n + 1 - 1 - i)) = bytes_to_bits (x / 2) n := by
    rw [bytes_to_bits]
    apply List.map_congr_left
    intro i hi
    have hin : i < n := List.mem_range.mp hi
    have h2 : n + 1 - 1 - i = (n - 1 - i) + 1 := by omega
    rw [h2, Nat.testBit_add_one]
  have h3 : ([n]).map (fun i => x.testBit (n + 1 - 1 - i)) = [x.testBit 0] := by simp
  rw [h1, h3]

theorem bitsToNat_bytes_to_bits (n : Nat) : ∀ x, x < 2 ^ n →
    bitsToNat (bytes_to_bits x n) = x := by
  induction n with
  | zero =>
    intro x hx
    interval_cases x
    rfl
  | succ n ih =>
    intro x hx
    rw [bytes_to_bits_succ, bitsToNat_append,
      ih (x / 2) (by rw [pow_succ] at hx; omega)]
    have hbit : (Nat.testBit x 0).toNat = x % 2 := by
      rcases Nat.mod_two_eq_zero_or_one x with h | h <;> simp [Nat.testBit_zero, h]
    have hb2 : bitsToNat [x.testBit 0] = x % 2 := by
      rw [show bitsToNat [x.testBit 0] = 2 * 0 + (x.testBit 0).toNat from rfl, hbit]
      omega
    rw [hb2]
    simp only [List.length_cons, List.length_nil, pow_one]
    omega

theorem fieldBits_length (a b c d : Nat) : (fieldBits a b c d).length = 68 := by
  simp [fieldBits, bytes_to_bits_length]

theorem fieldBits_take_24 (a b c d : Nat) : (fieldBits a b c d).take 24 = bytes_to_bits a 24 := by
  rw [fieldBits, List.append_assoc, List.append_assoc, List.take_left' (bytes_to_bits_length a 24)]

theorem fieldBits_drop_24 (a b c d : Nat) :
    (fieldBits a b c d).drop 24 = bytes_to_bits b 24 ++ (bytes_to_bits c 10 ++ bytes_to_bits d 10) := by
  rw [fieldBits, List.append_assoc, List.append_assoc, List.drop_left' (bytes_to_bits_length a 24)]

theorem fieldBits_drop_48 (a b c d : Nat) :
    (fieldBits a b c d).drop 48 = bytes_to_bits c 10 ++ bytes_to_bits d 10 := by
  rw [show (48 : Nat) = 24 + 24 from rfl, ← List.drop_drop, fieldBits_drop_24,
    List.drop_left' (bytes_to_bits_length b 24)]

theorem fieldBits_drop_58 (a b c d : Nat) :
    (fieldBits a b c d).drop 58 = bytes_to_bits d 10 := by
  rw [show (58 : Nat) = 48 + 10 from rfl, ← List.drop_drop, fieldBits_drop_48,
    List.drop_left' (bytes_to_bits_length c 10)]

/-- Constructing a valid prefix succeeds, yields 80 bases, and parsing it with
any payload appended recovers exactly the five fields and that payload. -/
theorem parsePfx_createPfx (ci tc : Nat) (ty : Char) (si ts : Nat) (payload : List Char)
    (hty : ty = 'H' ∨ ty = 'D' ∨ ty = 'P')
    (hci : ci < 2 ^ 24) (htc : tc < 2 ^ 24) (hsi : si < 2 ^ 10) (hts : ts < 2 ^ 10) :
    ∃ pfx, createPfx ci tc ty si ts = some pfx ∧ pfx.length = 80 ∧
      parsePfx (pfx ++ payload) =
        some ⟨ty, ci, tc, si, ts, payload⟩ := by
  obtain ⟨tcode, htcode, hdecode⟩ :
      ∃ tcode, TYPE_CODE ty = some tcode ∧ tcode = (if ty = 'H' then ['A','A'] else if ty = 'D' then ['C','C'] else ['G','G']) := by
    rcases hty with h | h | h <;> subst h <;> exact ⟨_, rfl, rfl⟩
  set fb := fieldBits ci tc si ts with hfb
  set cb := bytes_to_bits (crc8 (bits_to_bytes fb)) 8 with hcb
  have hpfx : createPfx ci tc ty si ts =
      some (['A', 'G'] ++ tcode ++ bin_to_ct fb ++ bin_to_ct cb) := by
    rw [createPfx, htcode]
    simp only [Option.bind_eq_bind, Option.some_bind]
    rw [if_pos ⟨hci, htc⟩, if_pos ⟨hsi, hts⟩]
    rfl
  have htclen : tcode.length = 2 := by
    rcases hty with h | h | h <;> subst h <;> simp at hdecode <;> simp [hdecode]
  have hfblen : (bin_to_ct fb).length = 68 := by rw [bin_to_ct_length, hfb, fieldBits_length]
  have hcblen : (bin_to_ct cb).length = 8 := by rw [bin_to_ct_length, hcb, bytes_to_bits_length]
  set pfx := ['A', 'G'] ++ tcode ++ bin_to_ct fb ++ bin_to_ct cb with hpfxdef
  have hlen : pfx.length = 80 := by
    simp only [hpfxdef, List.length_append, htclen, hfblen, hcblen]
    rfl
  refine ⟨pfx, hpfx, hlen, ?_⟩
  -- normalize to right-nested appends for slicing
  have hshape : pfx ++ payload =
      ['A', 'G'] ++ (tcode ++ (bin_to_ct fb ++ (bin_to_ct cb ++ payload))) := by
    simp [hpfxdef, List.append_assoc]
  have hdrop2 : (pfx ++ payload).drop 2 = tcode ++ (bin_to_ct fb ++ (bin_to_ct cb ++ payload)) := by
    rw [hshape, List.drop_left' (show (['A','G'] : List Char).length = 2 from rfl)]
  have hdrop4 : (pfx ++ payload).drop 4 = bin_to_ct fb ++ (bin_to_ct cb ++ payload) := by
    rw [show (4 : Nat) = 2 + 2 from rfl, ← List.drop_drop, hdrop2, List.drop_left' htclen]
  have hdrop72 : (pfx ++ payload).drop 72 = bin_to_ct cb ++ payload := by
    rw [show (72 : Nat) = 4 + 68 from rfl, ← List.drop_drop, hdrop4, List.drop_left' hfblen]
  have hdrop80 : (pfx ++ payload).drop 80 = payload := by
    rw [show (80 : Nat) = 72 + 8 from rfl, ← List.drop_drop, hdrop72, List.drop_left' hcblen]
  have htotlen : ¬((pfx ++ payload).length < 80) := by
    rw [List.length_append, hlen]
    omega
  have htake2 : (pfx ++ payload).take 2 = ['A', 'G'] := by
    rw [hshape, List.take_left' (show (['A','G'] : List Char).length = 2 from rfl)]
  have htydec : TYPE_DECODE (((pfx ++ payload).drop 2).take 2) = some ty := by
    rw [hdrop2, List.take_left' htclen]
    rcases hty with h | h | h <;> subst h <;> simp at hdecode <;> rw [hdecode] <;> rfl
  have hfieldsct : (((pfx ++ payload).drop 4).take 68) = bin_to_ct fb := by
    rw [hdrop4, List.take_left' hfblen]
  have hcrcct : (((pfx ++ payload).drop 72).take 8) = bin_to_ct cb := by
    rw [hdrop72, List.take_left' hcblen]
  rw [parsePfx, if_neg htotlen, if_neg (by rw [htake2]; exact fun h => h rfl), htydec,
    hfieldsct, hcrcct, ct_to_bin_bin_to_ct, ct_to_bin_bin_to_ct]
  dsimp only
  rw [← hcb, if_neg (fun h => h rfl)]
  have h24 : (fb.take 24) = bytes_to_bits ci 24 := fieldBits_take_24 ci tc si ts
  have h2424 : ((fb.drop 24).take 24) = bytes_to_bits tc 24 := by
    rw [hfb, fieldBits_drop_24, List.take_left' (bytes_to_bits_length tc 24)]
  have h48 : ((fb.drop 48).take 10) = bytes_to_bits si 10 := by
    rw [hfb, fieldBits_drop_48, List.take_left' (bytes_to_bits_length si 10)]
  have h58 : ((fb.drop 58).take 10) = bytes_to_bits ts 10 := by
    rw [hfb, fieldBits_drop_58, List.take_of_length_le (le_of_eq (bytes_to_bits_length ts 10))]
  rw [h24, h2424, h48, h58, hdrop80,
    bitsToNat_bytes_to_bits 24 ci hci, bitsToNat_bytes_to_bits 24 tc htc,
    bitsToNat_bytes_to_bits 10 si hsi, bitsToNat_bytes_to_bits 10 ts hts]

/-- Claim C3 — prefix round-trip: for valid field tuples, `_create_prefix`
returns an 80-base string, and `_parse_prefix` of that string returns exactly
the tuple, with an empty payload. -/
theorem claim_c3_prefix_roundtrip (ci tc : Nat) (ty : Char) (si ts : Nat)
    (hty : ty = 'H' ∨ ty = 'D' ∨ ty = 'P')
    (hci : ci < 2 ^ 24) (htc : tc < 2 ^ 24) (hsi : si < 2 ^ 10) (hts : ts < 2 ^ 10) :
    ∃ pfx, createPfx ci tc ty si ts = some pfx ∧ pfx.length = 80 ∧
      parsePfx pfx = some ⟨ty, ci, tc, si, ts, []⟩ := by
  obtain ⟨pfx, h1, h2, h3⟩ := parsePfx_createPfx ci tc ty si ts [] hty hci htc hsi hts
  rw [List.append_nil] at h3
  exact ⟨pfx, h1, h2, h3⟩

/-- Witness for C3 at `(chunk_idx, total_chunks, seq_type, seq_idx, total_seqs)
= (3, 7, 'D', 2, 5)`. -/
theorem claim_c3_witness :
    ∃ pfx, createPfx 3 7 'D' 2 5 = some pfx ∧ pfx.length = 80 ∧
      parsePfx pfx = some ⟨'D', 3, 7, 2, 5, []⟩ :=
  claim_c3_prefix_roundtrip 3 7 'D' 2 5 (by decide) (by decide) (by decide) (by decide)
    (by decide)

/-! ### Consensus characterization -/

theorem firstSeenGo_fuel : ∀ (f1 f2 : Nat) (l : List Char), l.length ≤ f1 → l.length ≤ f2 →
    firstSeenGo f1 l = firstSeenGo f2 l := by
  intro f1
  induction f1 with
  | zero =>
    intro f2 l h1 _
    have h0 : l = [] := List.length_eq_zero.mp (Nat.le_zero.mp h1)
    subst h0
    cases f2 <;> rfl
  | succ f ih =>
    intro f2 l h1 h2
    cases l with
    | nil => cases f2 <;> rfl
    | cons c rest =>
      cases f2 with
      | zero => simp only [List.length_cons] at h2; omega
      | succ f2 =>
        show c :: firstSeenGo f (rest.filter (fun x => x ≠ c)) =
          c :: firstSeenGo f2 (rest.filter (fun x => x ≠ c))
        congr 1
        apply ih
        · have := List.length_filter_le (fun x => x ≠ c) rest
          simp only [List.length_cons] at h1
          omega
        · have := List.length_filter_le (fun x => x ≠ c) rest
          simp only [List.length_cons] at h2
          omega

theorem firstSeen_cons (c : Char) (rest : List Char) :
    firstSeen (c :: rest) = c :: firstSeen (rest.filter (fun x => x ≠ c)) := by
  show c :: firstSeenGo rest.length (rest.filter (fun x => x ≠ c)) =
    c :: firstSeenGo (rest.filter (fun x => x ≠ c)).length (rest.filter (fun x => x ≠ c))
  congr 1
  exact firstSeenGo_fuel _ _ _ (List.length_filter_le _ _) (le_refl _)

theorem mem_firstSeen_aux (a : Char) : ∀ (n : Nat) (l : List Char), l.length ≤ n →
    (a ∈ firstSeen l ↔ a ∈ l) := by
  intro n
  induction n with
  | zero =>
    intro l hl
    have h0 : l = [] := List.length_eq_zero.mp (Nat.le_zero.mp hl)
    subst h0
    simp [show firstSeen ([] : List Char) = [] from rfl]
  | succ n ih =>
    intro l hl
    cases l with
    | nil => simp [show firstSeen ([] : List Char) = [] from rfl]
    | cons c rest =>
      rw [firstSeen_cons]
      by_cases hac : a = c
      · subst hac; simp
      · have hflt : (rest.filter (fun x => x ≠ c)).length ≤ n := by
          have := List.length_filter_le (fun x => x ≠ c) rest
          simp only [List.length_cons] at hl
          omega
        rw [List.mem_cons, ih _ hflt]
        simp [hac, List.mem_filter]

theorem mem_firstSeen (a : Char) (l : List Char) : a ∈ firstSeen l ↔ a ∈ l :=
  mem_firstSeen_aux a l.length l (le_refl _)

/-- `find?` only inspects values, so removing all copies of a value that fails
the predicate does not change the first hit. -/
theorem find?_filter_ne (p : Char → Bool) (c : Char) (hc : p c = false) :
    ∀ l : List Char, (l.filter (fun x => x ≠ c)).find? p = l.find? p := by
  intro l
  induction l with
  | nil => rfl
  | cons x xs ih =>
    by_cases hxc : x = c
    · subst hxc
      rw [List.filter_cons_of_neg (by simp), List.find?_cons_of_neg _ (by simp [hc])]
      exact ih
    · rw [List.filter_cons_of_pos (by simp [hxc])]
      cases hpx : p x with
      | true => rw [List.find?_cons_of_pos _ hpx, List.find?_cons_of_pos _ hpx]
      | false =>
        rw [List.find?_cons_of_neg _ (by simp [hpx]), List.find?_cons_of_neg _ (by simp [hpx])]
        exact ih

theorem find?_firstSeen_aux (p : Char → Bool) : ∀ (n : Nat) (l : List Char), l.length ≤ n →
    (firstSeen l).find? p = l.find? p := by
  intro n
  induction n with
  | zero =>
    intro l hl
    have h0 : l = [] := List.length_eq_zero.mp (Nat.le_zero.mp hl)
    subst h0
    simp [show firstSeen ([] : List Char) = [] from rfl]
  | succ n ih =>
    intro l hl
    cases l with
    | nil => simp [show firstSeen ([] : List Char) = [] from rfl]
    | cons c rest =>
      rw [firstSeen_cons]
      have hflt : (rest.filter (fun x => x ≠ c)).length ≤ n := by
        have := List.length_filter_le (fun x => x ≠ c) rest
        simp only [List.length_cons] at hl
        omega
      cases hpc : p c with
      | true => rw [List.find?_cons_of_pos _ hpc, List.find?_cons_of_pos _ hpc]
      | false =>
        rw [List.find?_cons_of_neg _ (by simp [hpc]), List.find?_cons_of_neg _ (by simp [hpc]),
          ih _ hflt, find?_filter_ne p c hpc]

/-- The first hit of a value-predicate in a list equals its first hit in the
list of first occurrences. -/
theorem find?_firstSeen (p : Char → Bool) (l : List Char) :
    (firstSeen l).find? p = l.find? p :=
  find?_firstSeen_aux p l.length l (le_refl _)

theorem mostCommon_fold_mem (col : List Char) :
    ∀ (cands : List Char) (d : Char),
      cands.foldl (fun best c => if col.count best < col.count c then c else best) d ∈ d :: cands := by
  intro cands
  induction cands with
  | nil => intro d; simp
  | cons c cs ih =>
    intro d
    rw [List.foldl_cons]
    by_cases hdc : col.count d < col.count c
    · rw [if_pos hdc]
      rcases List.mem_cons.mp (ih c) with h | h
      · simp [h]
      · simp [h]
    · rw [if_neg hdc]
      rcases List.mem_cons.mp (ih d) with h | h
      · simp [h]
      · simp [h]

theorem mostCommon_fold_le (col : List Char) :
    ∀ (cands : List Char) (d : Char), ∀ x ∈ d :: cands,
      col.count x ≤
        col.count (cands.foldl (fun best c => if col.count best < col.count c then c else best) d) := by
  intro cands
  induction cands with
  | nil =>
    intro d x hx
    rcases List.mem_cons.mp hx with h | h
    · subst h; rfl
    · simp at h
  | cons c cs ih =>
    intro d x hx
    rw [List.foldl_cons]
    set d' := if col.count d < col.count c then c else d with hd'
    have hd'le : col.count d ≤ col.count d' ∧ col.count c ≤ col.count d' := by
      by_cases hdc : col.count d < col.count c
      · rw [hd', if_pos hdc]; omega
      · rw [hd', if_neg hdc]; omega
    rcases List.mem_cons.mp hx with h | h
    · subst h
      exact le_trans hd'le.1 (ih d' d' (List.mem_cons_self d' cs))
    · rcases List.mem_cons.mp h with h2 | h2
      · subst h2
        exact le_trans hd'le.2 (ih d' d' (List.mem_cons_self d' cs))
      · exact ih d' x (List.mem_cons_of_mem d' h2)

/-- The strict-inequality fold keeps the first maximal element: `find?` over the
candidate list with predicate "has the fold's count" returns the fold result. -/
theorem mostCommon_fold_find (col : List Char) :
    ∀ (cands : List Char) (d : Char),
      (d :: cands).find? (fun x => col.count x =
        col.count (cands.foldl (fun best c => if col.count best < col.count c then c else best) d))
        = some (cands.foldl (fun best c => if col.count best < col.count c then c else best) d) := by
  intro cands
  induction cands with
  | nil =>
    intro d
    simp
  | cons c cs ih =>
    intro d
    by_cases hdc : col.count d < col.count c
    · rw [List.foldl_cons, if_pos hdc]
      have hcle : col.count c ≤
          col.count (cs.foldl (fun best c => if col.count best < col.count c then c else best) c) :=
        mostCommon_fold_le col cs c c (List.mem_cons_self c cs)
      rw [List.find?_cons_of_neg _ (by simp only [decide_eq_true_eq]; omega)]
      exact ih c
    · rw [List.foldl_cons, if_neg hdc]
      have hih := ih d
      have hdle : col.count d ≤
          col.count (cs.foldl (fun best c => if col.count best < col.count c then c else best) d) :=
        mostCommon_fold_le col cs d d (List.mem_cons_self d cs)
      by_cases hpd : col.count d =
          col.count (cs.foldl (fun best c => if col.count best < col.count c then c else best) d)
      · have hfd : (d :: cs).find? (fun x => decide (col.count x =
            col.count (cs.foldl (fun best c => if col.count best < col.count c then c else best) d)))
              = some d :=
          List.find?_cons_of_pos _ (by simp [hpd])
        have hrd : cs.foldl (fun best c => if col.count best < col.count c then c else best) d = d := by
          rw [hih] at hfd
          injection hfd
        rw [List.find?_cons_of_pos _ (by simp [hpd]), hrd]
      · have hdlt : col.count d <
            col.count (cs.foldl (fun best c => if col.count best < col.count c then c else best) d) := by
          omega
        rw [List.find?_cons_of_neg _ (by simp only [decide_eq_true_eq]; omega),
          List.find?_cons_of_neg _ (by simp only [decide_eq_true_eq]; omega)]
        rw [List.find?_cons_of_neg _ (by simp only [decide_eq_true_eq]; omega)] at hih
        exact hih

theorem foldl_max_init_le {α : Type} (f : α → Nat) :
    ∀ (l : List α) (a : Nat), a ≤ l.foldl (fun m c => max m (f c)) a := by
  intro l
  induction l with
  | nil => intro a; exact le_refl a
  | cons x xs ih =>
    intro a
    rw [List.foldl_cons]
    exact le_trans (le_max_left a (f x)) (ih (max a (f x)))

theorem foldl_max_le_of_mem {α : Type} (f : α → Nat) :
    ∀ (l : List α) (a : Nat), ∀ x ∈ l, f x ≤ l.foldl (fun m c => max m (f c)) a := by
  intro l
  induction l with
  | nil => intro a x hx; simp at hx
  | cons y ys ih =>
    intro a x hx
    rw [List.foldl_cons]
    rcases List.mem_cons.mp hx with h | h
    · subst h
      exact le_trans (le_max_right a (f x)) (foldl_max_init_le f ys (max a (f x)))
    · exact ih (max a (f y)) x h

theorem foldl_max_le_bound {α : Type} (f : α → Nat) :
    ∀ (l : List α) (a B : Nat), a ≤ B → (∀ x ∈ l, f x ≤ B) →
      l.foldl (fun m c => max m (f c)) a ≤ B := by
  intro l
  induction l with
  | nil => intro a B ha _; exact ha
  | cons y ys ih =>
    intro a B ha hl
    rw [List.foldl_cons]
    exact ih (max a (f y)) B (max_le ha (hl y (List.mem_cons_self y ys)))
      (fun x hx => hl x (List.mem_cons_of_mem y hx))

/-- For a nonempty column, the source's `Counter(col).most_common(1)[0][0]`
equals the first element of the column (in column order) whose count is
maximal: majority vote with first-seen tie-break. -/
theorem mostCommon_spec (col : List Char) (hne : col ≠ []) :
    col.find? (fun c => col.count c = maxCount col) = some (mostCommon col) := by
  obtain ⟨d, ds, hds⟩ : ∃ d ds, firstSeen col = d :: ds := by
    cases hcol : col with
    | nil => exact absurd hcol hne
    | cons c rest => exact ⟨c, _, firstSeen_cons c rest⟩
  have hmc : mostCommon col =
      ds.foldl (fun best c => if col.count best < col.count c then c else best) d := by
    rw [mostCommon, hds]
  set r := ds.foldl (fun best c => if col.count best < col.count c then c else best) d with hr
  have hrmem : r ∈ col := by
    have := mostCommon_fold_mem col ds d
    rw [← hr, ← hds] at this
    exact (mem_firstSeen r col).mp this
  have hrle : ∀ x ∈ col, col.count x ≤ col.count r := by
    intro x hx
    have := mostCommon_fold_le col ds d x (by rw [← hds]; exact (mem_firstSeen x col).mpr hx)
    exact this
  have hmax : maxCount col = col.count r := by
    apply le_antisymm
    · exact foldl_max_le_bound (fun c => col.count c) col 0 (col.count r) (Nat.zero_le _) hrle
    · exact foldl_max_le_of_mem (fun c => col.count c) col 0 r hrmem
  have hfind : col.find? (fun x => col.count x = col.count r) = some r := by
    rw [← find?_firstSeen, hds]
    exact mostCommon_fold_find col ds d
  have hpeq : (fun c => decide (col.count c = maxCount col)) =
      (fun x => decide (col.count x = col.count r)) := by
    funext c
    rw [hmax]
  rw [hmc, hpeq, hfind]

/-- Claim C9 — the source's `consensus` agrees with the spec's definition
(empty list, singleton, and per-column first-seen majority vote), and every
column `i < L` is nonempty, so the vote runs for each `i ∈ 0..L-1`. -/
theorem claim_c9_consensus :
    (∀ reads, consensus reads = consensusSpec reads) ∧
      (∀ reads : List (List Char), 2 ≤ reads.length → ∀ i < maxLen reads,
        reads.filterMap (fun s => s[i]?) ≠ []) := by
  constructor
  · intro reads
    match reads with
    | [] => rfl
    | [r] => rfl
    | r1 :: r2 :: rest =>
      show (List.range (maxLen (r1 :: r2 :: rest))).filterMap (fun i =>
          let col := (r1 :: r2 :: rest).filterMap (fun s => s[i]?)
          if col = [] then none else some (mostCommon col)) =
        (List.range (maxLen (r1 :: r2 :: rest))).filterMap (fun i =>
          let col := (r1 :: r2 :: rest).filterMap (fun s => s[i]?)
          col.find? (fun c => col.count c = maxCount col))
      apply List.filterMap_congr
      intro i _
      by_cases hcol : (r1 :: r2 :: rest).filterMap (fun s => s[i]?) = []
      · show (if (r1 :: r2 :: rest).filterMap (fun s => s[i]?) = [] then none
            else some (mostCommon ((r1 :: r2 :: rest).filterMap (fun s => s[i]?)))) = _
        rw [if_pos hcol]
        show _ = ((r1 :: r2 :: rest).filterMap (fun s => s[i]?)).find?
          (fun c => ((r1 :: r2 :: rest).filterMap (fun s => s[i]?)).count c =
            maxCount ((r1 :: r2 :: rest).filterMap (fun s => s[i]?)))
        rw [hcol]
        rfl
      · show (if (r1 :: r2 :: rest).filterMap (fun s => s[i]?) = [] then none
            else some (mostCommon ((r1 :: r2 :: rest).filterMap (fun s => s[i]?)))) = _
        rw [if_neg hcol, mostCommon_spec _ hcol]
  · intro reads _ i hi
    -- if every read were no longer than i, the max length would be at most i
    intro hcol
    have hall : ∀ s ∈ reads, s.length ≤ i := by
      intro s hs
      have hnone : s[i]? = none := List.filterMap_eq_nil_iff.mp hcol s hs
      exact List.getElem?_eq_none_iff.mp hnone
    have : maxLen reads ≤ i :=
      foldl_max_le_bound (fun s : List Char => s.length) reads 0 i (Nat.zero_le i) hall
    omega

/-- Witness for C9: a concrete three-read vote with ties and ragged lengths. -/
theorem claim_c9_witness :
    consensus [['A', 'C'], ['A', 'G'], ['G', 'G', 'T']] =
      consensusSpec [['A', 'C'], ['A', 'G'], ['G', 'G', 'T']] ∧
    [['A', 'C'], ['A', 'G'], ['G', 'G', 'T']].filterMap (fun s => s[2]?) ≠ [] :=
  ⟨claim_c9_consensus.1 _,
   claim_c9_consensus.2 [['A', 'C'], ['A', 'G'], ['G', 'G', 'T']] (by decide) 2 (by decide)⟩

/-- Claim C6 — parameter validation: the constructor fails iff
`chunk_size + 4 + nsym > 255`, and `_parse_header` rejects any 22-byte header
violating that bound even when its CRC-16 is valid. -/
theorem claim_c6_param_validation :
    (∀ cs r ec s, DNAStorage.init cs r ec s = none ↔ cs + 4 + ec > 255) ∧
    (∀ hdr : List Nat, hdr.length = 22 →
      crc16_ccitt (hdr.take 20) = from_bytes_le ((hdr.drop 20).take 2) →
      from_bytes_le ((hdr.drop 8).take 2) + 4 + hdr.getD 10 0 > 255 →
      parse_header hdr = none) := by
  constructor
  · intro cs r ec s
    rw [DNAStorage.init]
    by_cases h : cs + 4 + ec > 255
    · simp [h]
    · simp [h]
  · intro hdr hlen hcrc hbad
    rw [parse_header, if_neg (by omega), if_neg (by rw [hcrc]; exact fun h => h rfl)]
    dsimp only
    by_cases hcs : from_bytes_le ((hdr.drop 8).take 2) = 0
    · rw [show pydiv (from_bytes_le (hdr.take 8) + from_bytes_le ((hdr.drop 8).take 2) - 1)
          (from_bytes_le ((hdr.drop 8).take 2)) = none from by rw [pydiv, if_pos hcs]]
    · rw [show pydiv (from_bytes_le (hdr.take 8) + from_bytes_le ((hdr.drop 8).take 2) - 1)
          (from_bytes_le ((hdr.drop 8).take 2)) =
        some ((from_bytes_le (hdr.take 8) + from_bytes_le ((hdr.drop 8).take 2) - 1) /
          (from_bytes_le ((hdr.drop 8).take 2))) from by rw [pydiv, if_neg hcs]]
      dsimp only
      rw [if_pos hbad]

set_option maxRecDepth 100000 in
/-- Witness for C6: the spec's S6 parameters `(chunk_size, nsym) = (250, 10)`
fail the constructor, and a CRC-16-valid 22-byte header built from them is
rejected by `_parse_header`. -/
theorem claim_c6_witness :
    DNAStorage.init 250 3 10 120 = none ∧
    parse_header ((create_header 250 10 0 (List.replicate 8 0)).getD []) = none :=
  ⟨(claim_c6_param_validation.1 250 3 10 120).mpr (by decide),
   claim_c6_param_validation.2 ((create_header 250 10 0 (List.replicate 8 0)).getD [])
     (by decide) (by decide) (by decide)⟩

/-! ### Supporting lemmas: chunking, replication, consensus of replicates -/

theorem pychunks_length_aux {α : Type} (k : Nat) : ∀ (n : Nat) (l : List α),
    l.length ≤ n → (pychunks (k + 1) l).length = (l.length + k) / (k + 1) := by
  intro n
  induction n with
  | zero =>
    intro l hl
    have h0 : l = [] := List.length_eq_zero.mp (Nat.le_zero.mp hl)
    subst h0
    rw [pychunks_nil]
    simp [Nat.div_eq_of_lt]
  | succ n ih =>
    intro l hl
    cases l with
    | nil =>
      rw [pychunks_nil]
      simp [Nat.div_eq_of_lt]
    | cons x xs =>
      rw [pychunks_cons, List.length_cons,
        ih _ (by simp only [List.length_drop, List.length_cons] at hl ⊢; omega)]
      rw [List.length_drop, List.length_cons]
      rcases Nat.lt_or_ge (xs.length + 1) (k + 1 + 1) with hc | hc
      · have h1 : xs.length + 1 - (k + 1) = 0 := by omega
        rw [h1]
        have h2 : (0 + k) / (k + 1) = 0 := Nat.div_eq_of_lt (by omega)
        have h3 : (xs.length + 1 + k) / (k + 1) = 1 :=
          Nat.div_eq_of_lt_le (by omega) (by omega)
        omega
      · have h1 : xs.length + 1 - (k + 1) + k = xs.length := by omega
        have h2 : xs.length + 1 + k = (xs.length - 1) + (k + 1) + 1 := by omega
        rw [h1, h2]
        have h3 : ((xs.length - 1) + (k + 1) + 1) / (k + 1) =
            ((xs.length - 1) + 1 + (k + 1)) / (k + 1) := by
          congr 1
          omega
        rw [h3, Nat.add_div_right _ (by omega)]
        have h4 : xs.length - 1 + 1 = xs.length := by omega
        rw [h4]

/-- For a positive chunk width, `pychunks` produces `⌈|l| / k⌉` chunks. -/
theorem pychunks_length {α : Type} (k : Nat) (hk : 1 ≤ k) (l : List α) :
    (pychunks k l).length = (l.length + k - 1) / k := by
  cases k with
  | zero => omega
  | succ k =>
    rw [pychunks_length_aux k l.length l (le_refl _)]
    have h : l.length + (k + 1) - 1 = l.length + k := by omega
    rw [h]

/-- Reassembling the chunks gives back the list. -/
theorem pychunks_flatten {α : Type} (k : Nat) (hk : 1 ≤ k) : ∀ (n : Nat) (l : List α),
    l.length ≤ n → (pychunks k l).flatten = l := by
  intro n
  induction n with
  | zero =>
    intro l hl
    have h0 : l = [] := List.length_eq_zero.mp (Nat.le_zero.mp hl)
    subst h0
    rw [pychunks_nil]
    rfl
  | succ n ih =>
    intro l hl
    cases l with
    | nil => rw [pychunks_nil]; rfl
    | cons x xs =>
      cases k with
      | zero => omega
      | succ k =>
        rw [pychunks_cons, List.flatten_cons,
          ih _ (by simp only [List.length_drop, List.length_cons] at hl ⊢; omega),
          List.take_append_drop]

/-- Each chunk is nonempty, at most `k` long, and drawn from the list. -/
theorem pychunks_mem {α : Type} (k : Nat) : ∀ (n : Nat) (l : List α), l.length ≤ n →
    ∀ c ∈ pychunks k l, c ≠ [] ∧ c.length ≤ k ∧ ∀ x ∈ c, x ∈ l := by
  intro n
  induction n with
  | zero =>
    intro l hl c hc
    have h0 : l = [] := List.length_eq_zero.mp (Nat.le_zero.mp hl)
    subst h0
    rw [pychunks_nil] at hc
    simp at hc
  | succ n ih =>
    intro l hl c hc
    cases l with
    | nil => rw [pychunks_nil] at hc; simp at hc
    | cons x xs =>
      cases k with
      | zero => rw [show pychunks 0 (x :: xs) = [] from rfl] at hc; simp at hc
      | succ k =>
        rw [pychunks_cons] at hc
        rcases List.mem_cons.mp hc with h | h
        · subst h
          refine ⟨by simp, by simp, fun y hy => List.mem_of_mem_take hy⟩
        · obtain ⟨h1, h2, h3⟩ := ih ((x :: xs).drop (k + 1))
            (by simp only [List.length_drop, List.length_cons] at hl ⊢; omega) c h
          exact ⟨h1, h2, fun y hy => List.mem_of_mem_drop (h3 y hy)⟩

/-- Bounding the number of chunks: `|l| ≤ m * k → ⌈|l|/k⌉ ≤ m`. -/
theorem pychunks_length_le {α : Type} (k m : Nat) (hk : 1 ≤ k) (l : List α)
    (h : l.length ≤ m * k) : (pychunks k l).length ≤ m := by
  rw [pychunks_length k hk]
  rcases Nat.eq_zero_or_pos l.length with h0 | h0
  · rw [h0]
    have : (0 + k - 1) / k = 0 := Nat.div_eq_of_lt (by omega)
    omega
  · have : l.length + k - 1 < (m + 1) * k := by
      have : m * k + k = (m + 1) * k := by ring
      omega
    have hdiv := Nat.div_lt_iff_lt_mul (by omega : 0 < k) |>.mpr this
    omega

theorem filterMap_replicate {α β : Type} (f : α → Option β) (x : α) (y : β)
    (h : f x = some y) : ∀ n, (List.replicate n x).filterMap f = List.replicate n y := by
  intro n
  induction n with
  | zero => rfl
  | succ n ih =>
    rw [List.replicate_succ, List.replicate_succ, List.filterMap_cons, h, ih]

theorem filterMap_eq_map_of_some {α β : Type} (f : α → Option β) (g : α → β) :
    ∀ l : List α, (∀ x ∈ l, f x = some (g x)) → l.filterMap f = l.map g := by
  intro l
  induction l with
  | nil => intro _; rfl
  | cons x xs ih =>
    intro h
    rw [List.filterMap_cons, h x (List.mem_cons_self x xs), List.map_cons,
      ih (fun y hy => h y (List.mem_cons_of_mem x hy))]

theorem map_getD_range {α : Type} (d : α) : ∀ l : List α,
    (List.range l.length).map (fun i => l.getD i d) = l := by
  intro l
  induction l with
  | nil => rfl
  | cons x xs ih =>
    rw [List.length_cons, List.range_succ_eq_map, List.map_cons, List.map_map]
    have h1 : (fun i => (x :: xs).getD i d) ∘ Nat.succ = fun i => xs.getD i d := by
      funext i
      rfl
    rw [h1, ih]
    rfl

theorem maxLen_replicate (k : Nat) (x : List Char) (hk : 1 ≤ k) :
    maxLen (List.replicate k x) = x.length := by
  apply le_antisymm
  · exact foldl_max_le_bound (fun s : List Char => s.length) _ 0 x.length (Nat.zero_le _)
      (fun s hs => by rw [List.eq_of_mem_replicate hs])
  · exact foldl_max_le_of_mem (fun s : List Char => s.length) _ 0 x
      (List.mem_replicate.mpr ⟨by omega, rfl⟩)

theorem firstSeen_replicate (k : Nat) (c : Char) (hk : 1 ≤ k) :
    firstSeen (List.replicate k c) = [c] := by
  cases k with
  | zero => omega
  | succ k =>
    rw [List.replicate_succ, firstSeen_cons]
    have h1 : (List.replicate k c).filter (fun x => x ≠ c) = [] := by
      rw [List.filter_eq_nil_iff]
      intro a ha
      rw [List.eq_of_mem_replicate ha]
      simp
    rw [h1, show firstSeen ([] : List Char) = [] from rfl]

theorem mostCommon_replicate (k : Nat) (c : Char) (hk : 1 ≤ k) :
    mostCommon (List.replicate k c) = c := by
  rw [mostCommon, firstSeen_replicate k c hk]
  rfl

/-- Consensus of `k ≥ 1` identical reads is that read. -/
theorem consensus_replicate (k : Nat) (x : List Char) (hk : 1 ≤ k) :
    consensus (List.replicate k x) = x := by
  match k, hk with
  | 1, _ => rfl
  | (k + 2), _ =>
    have hrep : List.replicate (k + 2) x = x :: x :: List.replicate k x := by
      rw [List.replicate_succ, List.replicate_succ]
    rw [hrep]
    show (List.range (maxLen (x :: x :: List.replicate k x))).filterMap (fun i =>
        let col := (x :: x :: List.replicate k x).filterMap (fun s => s[i]?)
        if col = [] then none else some (mostCommon col)) = x
    have hml : maxLen (x :: x :: List.replicate k x) = x.length := by
      rw [← hrep]
      exact maxLen_replicate (k + 2) x (by omega)
    rw [hml]
    have heach : ∀ i ∈ List.range x.length,
        (fun i =>
          let col := (x :: x :: List.replicate k x).filterMap (fun s => s[i]?)
          if col = [] then none else some (mostCommon col)) i = some (x.getD i 'A') := by
      intro i hi
      have hilt : i < x.length := List.mem_range.mp hi
      have hc : (List.replicate (k + 2) x).filterMap (fun s => s[i]?) =
          List.replicate (k + 2) (x.getD i 'A') := by
        apply filterMap_replicate
        rw [List.getElem?_eq_getElem hilt, List.getD_eq_getElem x 'A' hilt]
      rw [hrep] at hc
      simp only [hc]
      rw [if_neg (by simp), mostCommon_replicate (k + 2) _ (by omega)]
    rw [filterMap_eq_map_of_some _ (fun i => x.getD i 'A') (List.range x.length) heach,
      map_getD_range 'A' x]

/-! ### Encoder structure: the explicit shape of `encode_file`'s output -/

theorem crc32_round_lt (c : Nat) (hc : c < 2 ^ 32) : crc32_round c < 2 ^ 32 := by
  rw [crc32_round]
  have hs : c >>> 1 < 2 ^ 32 := by
    rw [Nat.shiftRight_eq_div_pow]
    omega
  split
  · exact Nat.xor_lt_two_pow hs (by norm_num)
  · exact hs

theorem crc32_lt (l : List Nat) (hl : ∀ x ∈ l, x < 256) : crc32 l < 2 ^ 32 := by
  rw [crc32]
  have hfold : ∀ (m : List Nat), (∀ x ∈ m, x < 256) → ∀ c < 2 ^ 32,
      m.foldl (fun c b => (List.range 8).foldl (fun c _ => crc32_round c) (c ^^^ b)) c < 2 ^ 32 := by
    intro m
    induction m with
    | nil => intro _ c hc; exact hc
    | cons b bs ih =>
      intro hm c hc
      rw [List.foldl_cons]
      apply ih (fun x hx => hm x (List.mem_cons_of_mem b hx))
      have hxor : c ^^^ b < 2 ^ 32 :=
        Nat.xor_lt_two_pow hc (lt_trans (hm b (List.mem_cons_self b bs)) (by norm_num))
      have hrounds : ∀ (rs : List Nat) (d : Nat), d < 2 ^ 32 →
          rs.foldl (fun c _ => crc32_round c) d < 2 ^ 32 := by
        intro rs
        induction rs with
        | nil => intro d hd; exact hd
        | cons r rrs ihr =>
          intro d hd
          exact ihr _ (crc32_round_lt d hd)
      exact hrounds _ _ hxor
  exact Nat.xor_lt_two_pow (hfold l hl _ (by norm_num)) (by norm_num)

theorem crc16_round_lt (c : Nat) : crc16_round c < 2 ^ 16 := by
  rw [crc16_round]
  split
  · have := Nat.and_le_right (n := (c <<< 1) ^^^ 0x1021) (m := 0xFFFF)
    omega
  · have := Nat.and_le_right (n := c <<< 1) (m := 0xFFFF)
    omega

theorem crc16_lt (l : List Nat) : crc16_ccitt l < 2 ^ 16 := by
  rw [crc16_ccitt]
  have hfold : ∀ (m : List Nat) (c : Nat), c < 2 ^ 16 →
      m.foldl (fun crc b =>
        (List.range 8).foldl (fun c _ => crc16_round c) (crc ^^^ ((b <<< 8) &&& 0xFFFF))) c
        < 2 ^ 16 := by
    intro m
    induction m with
    | nil => intro c hc; exact hc
    | cons b bs ih =>
      intro c hc
      rw [List.foldl_cons]
      apply ih
      have hand : (b <<< 8) &&& 0xFFFF < 2 ^ 16 := by
        have := Nat.and_le_right (n := b <<< 8) (m := 0xFFFF)
        omega
      have hxor : c ^^^ ((b <<< 8) &&& 0xFFFF) < 2 ^ 16 := Nat.xor_lt_two_pow hc hand
      have hrounds : ∀ (rs : List Nat) (d : Nat), d < 2 ^ 16 →
          rs.foldl (fun c _ => crc16_round c) d < 2 ^ 16 := by
        intro rs
        induction rs with
        | nil => intro d hd; exact hd
        | cons r rrs ihr =>
          intro d hd
          exact ihr _ (crc16_round_lt d)
      exact hrounds _ _ hxor
  exact hfold l _ (by norm_num)

theorem to_bytes_le_spec (x n : Nat) (hx : x < 256 ^ n) :
    to_bytes_le x n = some ((List.range n).map (fun i => x / 256 ^ i % 256)) := by
  rw [to_bytes_le, if_pos hx]

theorem to_bytes_le_length (x n : Nat) (hx : x < 256 ^ n) :
    ((to_bytes_le x n).getD []).length = n := by
  rw [to_bytes_le_spec x n hx]
  simp

theorem to_bytes_le_bytes_lt (x n : Nat) (hx : x < 256 ^ n) :
    ∀ b ∈ (to_bytes_le x n).getD [], b < 256 := by
  rw [to_bytes_le_spec x n hx]
  intro b hb
  simp only [Option.getD_some, List.mem_map] at hb
  obtain ⟨i, _, hi⟩ := hb
  rw [← hi]
  exact Nat.mod_lt _ (by omega)

theorem from_bytes_le_map_range (n : Nat) : ∀ x, x < 256 ^ n →
    from_bytes_le ((List.range n).map (fun i => x / 256 ^ i % 256)) = x := by
  induction n with
  | zero =>
    intro x hx
    interval_cases x
    rfl
  | succ n ih =>
    intro x hx
    rw [List.range_succ_eq_map, List.map_cons, List.map_map]
    have h1 : ((fun i => x / 256 ^ i % 256) ∘ Nat.succ) = fun i => (x / 256) / 256 ^ i % 256 := by
      funext i
      simp only [Function.comp]
      rw [pow_succ, Nat.div_div_eq_div_mul, Nat.mul_comm (256 ^ i) 256,
        ← Nat.div_div_eq_div_mul]
    rw [h1]
    have h2 : from_bytes_le ((x / 256 ^ 0 % 256) ::
        (List.range n).map (fun i => (x / 256) / 256 ^ i % 256)) =
        from_bytes_le ((List.range n).map (fun i => (x / 256) / 256 ^ i % 256)) * 256 +
          x / 256 ^ 0 % 256 := rfl
    rw [h2, ih (x / 256) (by rw [pow_succ] at hx; omega)]
    rw [pow_zero, Nat.div_one]
    omega

theorem from_to_bytes_le (x n : Nat) (hx : x < 256 ^ n) :
    from_bytes_le ((to_bytes_le x n).getD []) = x := by
  rw [to_bytes_le_spec x n hx]
  exact from_bytes_le_map_range n x hx

theorem createPfx_eq (ci tc : Nat) (ty : Char) (si ts : Nat)
    (hty : ty = 'H' ∨ ty = 'D' ∨ ty = 'P')
    (hci : ci < 2 ^ 24) (htc : tc < 2 ^ 24) (hsi : si < 2 ^ 10) (hts : ts < 2 ^ 10) :
    createPfx ci tc ty si ts = some (thePfx ci tc ty si ts) ∧
      (thePfx ci tc ty si ts).length = 80 ∧
      (∀ payload, parsePfx (thePfx ci tc ty si ts ++ payload) =
        some ⟨ty, ci, tc, si, ts, payload⟩) := by
  obtain ⟨pfx, h1, h2, h3⟩ := parsePfx_createPfx ci tc ty si ts [] hty hci htc hsi hts
  have hp : thePfx ci tc ty si ts = pfx := by rw [thePfx, h1]; rfl
  refine ⟨by rw [hp]; exact h1, by rw [hp]; exact h2, ?_⟩
  intro payload
  obtain ⟨pfx', h1', _, h3'⟩ := parsePfx_createPfx ci tc ty si ts payload hty hci htc hsi hts
  rw [h1] at h1'
  cases h1'
  rw [hp]
  exact h3'

/-- `_encode_with_constraints` never fails, and its result is one of the four
Goldman encodings. -/
theorem encode_with_constraints_spec (b : List Nat) :
    ∃ d, encode_with_constraints b = some d ∧
      (bytes_to_dna_goldman b 'A' = some d ∨ bytes_to_dna_goldman b 'C' = some d ∨
       bytes_to_dna_goldman b 'G' = some d ∨ bytes_to_dna_goldman b 'T' = some d) := by
  obtain ⟨dA, hA, _, _, _, _⟩ := bytes_to_dna_goldman_spec b 'A' (by left; rfl)
  obtain ⟨dC, hC, _, _, _, _⟩ := bytes_to_dna_goldman_spec b 'C' (by right; left; rfl)
  obtain ⟨dG, hG, _, _, _, _⟩ := bytes_to_dna_goldman_spec b 'G' (by right; right; left; rfl)
  obtain ⟨dT, hT, _, _, _, _⟩ := bytes_to_dna_goldman_spec b 'T' (by right; right; right; rfl)
  have hbody : encode_with_constraints b =
      (if passes_constraints dA then some dA
       else if passes_constraints dC then some dC
       else if passes_constraints dG then some dG
       else if passes_constraints dT then some dT
       else some dA) := by
    rw [encode_with_constraints, hA, hC, hG, hT]
    rfl
  by_cases h1 : passes_constraints dA
  · exact ⟨dA, by rw [hbody, if_pos h1], Or.inl hA⟩
  · by_cases h2 : passes_constraints dC
    · exact ⟨dC, by rw [hbody, if_neg h1, if_pos h2], Or.inr (Or.inl hC)⟩
    · by_cases h3 : passes_constraints dG
      · exact ⟨dG, by rw [hbody, if_neg h1, if_neg h2, if_pos h3], Or.inr (Or.inr (Or.inl hG))⟩
      · by_cases h4 : passes_constraints dT
        · exact ⟨dT, by rw [hbody, if_neg h1, if_neg h2, if_neg h3, if_pos h4],
            Or.inr (Or.inr (Or.inr hT))⟩
        · exact ⟨dA, by rw [hbody, if_neg h1, if_neg h2, if_neg h3, if_neg h4], Or.inl hA⟩

theorem create_header_spec (cs nsym fs : Nat) (ck8 : List Nat)
    (hcs : cs < 2 ^ 16) (hn : nsym ≤ 255) (hfs : fs < 256 ^ 8) :
    create_header cs nsym fs ck8 =
      some ((to_bytes_le fs 8).getD [] ++ (to_bytes_le cs 2).getD [] ++ [nsym, 0] ++ ck8 ++
        (to_bytes_le (crc16_ccitt ((to_bytes_le fs 8).getD [] ++ (to_bytes_le cs 2).getD [] ++
          [nsym, 0] ++ ck8)) 2).getD []) := by
  have h8 := to_bytes_le_spec fs 8 hfs
  have h2 : to_bytes_le cs 2 = some ((List.range 2).map (fun i => cs / 256 ^ i % 256)) :=
    to_bytes_le_spec cs 2 (by norm_num at hcs ⊢; omega)
  have hcrc : ∀ l : List Nat, to_bytes_le (crc16_ccitt l) 2 =
      some ((List.range 2).map (fun i => crc16_ccitt l / 256 ^ i % 256)) := by
    intro l
    exact to_bytes_le_spec _ 2 (by have := crc16_lt l; norm_num at this ⊢; omega)
  rw [create_header, h8, h2]
  simp only [Option.bind_eq_bind, Option.some_bind]
  rw [if_pos hn, hcrc]
  simp only [Option.some_bind, h8, h2, hcrc, Option.getD_some, Option.pure_def]

theorem sha256_length (msg : List Nat) : (sha256 msg).length = 32 := by
  rw [sha256]
  have hH : (((pychunks 64 (sha256Pad msg))).foldl shaCompressBlock shaH0).length = 8 := by
    have hfold : ∀ (bl : List (List Nat)) (H : List Nat), H.length = 8 →
        (bl.foldl shaCompressBlock H).length = 8 := by
      intro bl
      induction bl with
      | nil => intro H h; exact h
      | cons b bs ih =>
        intro H h
        rw [List.foldl_cons]
        apply ih
        rw [shaCompressBlock, List.length_zipWith, h]
        rfl
    exact hfold _ shaH0 rfl
  have hflat : ∀ l : List Nat,
      ((l.map (fun wrd => [wrd / 16777216 % 256, wrd / 65536 % 256, wrd / 256 % 256,
        wrd % 256])).flatten).length = 4 * l.length := by
    intro l
    induction l with
    | nil => rfl
    | cons x xs ih =>
      rw [List.map_cons, List.flatten_cons, List.length_append, ih]
      simp only [List.length_cons, List.length_nil]
      ring
  rw [hflat, hH]

theorem sha256_bytes_lt (msg : List Nat) : ∀ b ∈ sha256 msg, b < 256 := by
  intro b hb
  rw [sha256] at hb
  simp only [List.mem_flatten, List.mem_map] at hb
  obtain ⟨l, ⟨wrd, _, hw⟩, hbl⟩ := hb
  rw [← hw] at hbl
  simp only [List.mem_cons, List.not_mem_nil, or_false] at hbl
  rcases hbl with h | h | h | h <;> rw [h] <;> exact Nat.mod_lt _ (by omega)

/-- Any of the four Goldman encodings has six bases per byte. -/
theorem ewc_length (b : List Nat) (d : List Char) (_hd : encode_with_constraints b = some d)
    (hopts : bytes_to_dna_goldman b 'A' = some d ∨ bytes_to_dna_goldman b 'C' = some d ∨
      bytes_to_dna_goldman b 'G' = some d ∨ bytes_to_dna_goldman b 'T' = some d) :
    d.length = 6 * b.length := by
  have hlen : ∀ st : Char, isBase st → bytes_to_dna_goldman b st = some d →
      d.length = 6 * b.length := by
    intro st hst h
    obtain ⟨d', h1, _, h3, _, _⟩ := bytes_to_dna_goldman_spec b st hst
    rw [h] at h1
    cases h1
    exact h3
  rcases hopts with h | h | h | h
  · exact hlen 'A' (by left; rfl) h
  · exact hlen 'C' (by right; left; rfl) h
  · exact hlen 'G' (by right; right; left; rfl) h
  · exact hlen 'T' (by right; right; right; rfl) h

theorem buildSegSeqs_spec (ty : Char) (ci tc ts r : Nat)
    (hty : ty = 'H' ∨ ty = 'D' ∨ ty = 'P') (hci : ci < 2 ^ 24) (htc : tc < 2 ^ 24)
    (hts : ts < 2 ^ 10) :
    ∀ (segs : List (List Char)) (si : Nat), si + segs.length ≤ ts →
      buildSegSeqs ty ci tc ts r si segs =
        some (((List.enumFrom si segs).map
          (fun is => List.replicate r (thePfx ci tc ty is.1 ts ++ is.2))).flatten) := by
  intro segs
  induction segs with
  | nil => intro si _; rfl
  | cons seg rest ih =>
    intro si hsi
    obtain ⟨h1, _, _⟩ := createPfx_eq ci tc ty si ts hty hci htc
      (by simp only [List.length_cons] at hsi; omega) hts
    rw [buildSegSeqs, h1]
    simp only [Option.bind_eq_bind, Option.some_bind]
    rw [ih (si + 1) (by simp only [List.length_cons] at hsi; omega)]
    simp only [Option.some_bind, List.enumFrom_cons, List.map_cons, List.flatten_cons]
    rfl

theorem encodeChunk_eq (P : DNAStorage) (rsParity : List Nat → List Nat) (tc ci : Nat)
    (c : List Nat)
    (hseg : 6 ≤ P.segment_nt)
    (hrs : P.chunk_size + 4 + P.error_correction ≤ 255)
    (hclen : c.length ≤ P.chunk_size)
    (hcb : ∀ x ∈ c, x < 256)
    (hci : ci < 2 ^ 24) (htc : tc < 2 ^ 24)
    (hplen : (rsParity (chunkPayload c)).length = P.error_correction) :
    encodeChunk P rsParity tc ci c = some (chunkBlock P rsParity tc ci c) := by
  have hcrc : to_bytes_le (crc32 c) 4 =
      some ((List.range 4).map (fun i => crc32 c / 256 ^ i % 256)) :=
    to_bytes_le_spec _ 4 (by have := crc32_lt c hcb; norm_num at this ⊢; omega)
  have hpay : chunkPayload c = c ++ (List.range 4).map (fun i => crc32 c / 256 ^ i % 256) := by
    rw [chunkPayload, hcrc]
    rfl
  have hpaylen : (chunkPayload c).length = c.length + 4 := by
    rw [hpay]
    simp
  obtain ⟨ddna, hddna, hdopts⟩ := encode_with_constraints_spec (chunkPayload c)
  obtain ⟨pdna, hpdna, hpopts⟩ := encode_with_constraints_spec (rsParity (chunkPayload c))
  have hdlen : ddna.length = 6 * (chunkPayload c).length :=
    ewc_length (chunkPayload c) ddna hddna hdopts
  have hplen2 : pdna.length = 6 * P.error_correction := by
    rw [← hplen]
    exact ewc_length (rsParity (chunkPayload c)) pdna hpdna hpopts
  -- segment counts
  have hdsegs : (pychunks P.segment_nt ddna).length ≤ (chunkPayload c).length := by
    apply pychunks_length_le P.segment_nt _ (by omega)
    rw [hdlen]
    have : 6 * (chunkPayload c).length ≤ (chunkPayload c).length * P.segment_nt := by
      have := Nat.mul_le_mul_left (chunkPayload c).length hseg
      omega
    omega
  have hpsegs : (pychunks P.segment_nt pdna).length ≤ P.error_correction := by
    apply pychunks_length_le P.segment_nt _ (by omega)
    rw [hplen2]
    have := Nat.mul_le_mul_left P.error_correction hseg
    omega
  have hts : (pychunks P.segment_nt ddna).length + (pychunks P.segment_nt pdna).length < 256 := by
    rw [hpaylen] at hdsegs
    omega
  -- assemble
  rw [encodeChunk, hcrc]
  simp only [Option.bind_eq_bind, Option.some_bind]
  rw [← hpay]
  have htake : (chunkPayload c ++ rsParity (chunkPayload c)).take (chunkPayload c).length =
      chunkPayload c := List.take_left _ _
  have hdrop : (chunkPayload c ++ rsParity (chunkPayload c)).drop (chunkPayload c).length =
      rsParity (chunkPayload c) := List.drop_left _ _
  rw [htake, hdrop, hddna, hpdna]
  simp only [Option.some_bind]
  rw [if_neg (by omega)]
  rw [if_neg (by omega)]
  have hbsD := buildSegSeqs_spec 'D' ci tc
    ((pychunks P.segment_nt ddna).length + (pychunks P.segment_nt pdna).length) P.redundancy
    (Or.inr (Or.inl rfl)) hci htc (by norm_num; omega) (pychunks P.segment_nt ddna) 0
    (by omega)
  have hbsP := buildSegSeqs_spec 'P' ci tc
    ((pychunks P.segment_nt ddna).length + (pychunks P.segment_nt pdna).length) P.redundancy
    (Or.inr (Or.inr rfl)) hci htc (by norm_num; omega) (pychunks P.segment_nt pdna)
    (pychunks P.segment_nt ddna).length (by omega)
  rw [hbsD]
  simp only [Option.some_bind]
  rw [hbsP]
  simp only [Option.some_bind]
  rw [chunkBlock]
  simp only [hddna, hpdna, Option.getD_some]
  rfl

theorem encodeChunks_eq (P : DNAStorage) (rsParity : List Nat → List Nat) (tc : Nat)
    (hseg : 6 ≤ P.segment_nt) (hrs : P.chunk_size + 4 + P.error_correction ≤ 255)
    (htc : tc < 2 ^ 24) :
    ∀ (cl : List (List Nat)) (s : Nat),
      (∀ c ∈ cl, c.length ≤ P.chunk_size ∧ ∀ x ∈ c, x < 256) →
      (∀ c ∈ cl, (rsParity (chunkPayload c)).length = P.error_correction) →
      s + cl.length ≤ 2 ^ 24 → 1 ≤ s →
      encodeChunks P rsParity tc s cl =
        some (((List.enumFrom s cl).map
          (fun p => chunkBlock P rsParity tc p.1 p.2)).flatten) := by
  intro cl
  induction cl with
  | nil => intro s _ _ _ _; rfl
  | cons c rest ih =>
    intro s hc hp hb hs
    rw [encodeChunks, encodeChunk_eq P rsParity tc s c hseg hrs
      (hc c (List.mem_cons_self c rest)).1 (hc c (List.mem_cons_self c rest)).2
      (by simp only [List.length_cons] at hb; omega) htc
      (hp c (List.mem_cons_self c rest))]
    simp only [Option.bind_eq_bind, Option.some_bind]
    rw [ih (s + 1) (fun x hx => hc x (List.mem_cons_of_mem c hx))
      (fun x hx => hp x (List.mem_cons_of_mem c hx))
      (by simp only [List.length_cons] at hb; omega) (by omega)]
    simp only [Option.some_bind, List.enumFrom_cons, List.map_cons, List.flatten_cons]
    rfl

/-- The structural description of the encoder: under valid parameters and the
spec's size limit, `encode_file` succeeds and emits exactly `2*redundancy`
header oligos followed by the per-chunk blocks. -/
theorem encode_file_eq (P : DNAStorage) (rsParity : List Nat → List Nat) (data : List Nat)
    (hcs : 1 ≤ P.chunk_size)
    (hrs : P.chunk_size + 4 + P.error_correction ≤ 255)
    (hseg : 6 ≤ P.segment_nt)
    (hD : data.length ≤ 2 ^ 20)
    (hDb : ∀ x ∈ data, x < 256)
    (hplen : ∀ p : List Nat, (rsParity p).length = P.error_correction) :
    encode_file P rsParity data = some (encodedOligos P rsParity data) := by
  have hcs16 : P.chunk_size < 2 ^ 16 := by omega
  have hn255 : P.error_correction ≤ 255 := by omega
  have hfs : data.length < 256 ^ 8 := by
    have : (2 : Nat) ^ 20 < 256 ^ 8 := by norm_num
    omega
  have hch := create_header_spec P.chunk_size P.error_correction data.length
    ((sha256 data).take 8) hcs16 hn255 hfs
  obtain ⟨hdna, hhdna, _, _, _, _⟩ := bytes_to_dna_goldman_spec
    ((create_header P.chunk_size P.error_correction data.length
      ((sha256 data).take 8)).getD []) 'A' (by left; rfl)
  have hceil : ∀ a b : Nat, 1 ≤ b → (a + b - 1) / b ≤ a := by
    intro a b hb
    rcases Nat.eq_zero_or_pos a with h0 | h0
    · subst h0
      rw [Nat.zero_add, Nat.div_eq_of_lt (by omega)]
    · have hab : a ≤ a * b := Nat.le_mul_of_pos_right a hb
      have hlt : a + b - 1 < (a + 1) * b := by
        have hexp : (a + 1) * b = a * b + b := by ring
        omega
      have := (Nat.div_lt_iff_lt_mul (by omega : 0 < b)).mpr hlt
      omega
  have hnc : (data.length + P.chunk_size - 1) / P.chunk_size ≤ data.length :=
    hceil data.length P.chunk_size hcs
  have hnc24 : (data.length + P.chunk_size - 1) / P.chunk_size < 2 ^ 24 := by
    have : (2 : Nat) ^ 20 < 2 ^ 24 := by norm_num
    omega
  obtain ⟨hpfx1, _, _⟩ := createPfx_eq 0 ((data.length + P.chunk_size - 1) / P.chunk_size)
    'H' 0 1 (by left; rfl) (by norm_num) hnc24 (by norm_num) (by norm_num)
  have hclen : (pychunks P.chunk_size data).length ≤ data.length := by
    apply pychunks_length_le P.chunk_size data.length hcs
    exact Nat.le_mul_of_pos_right _ (by omega)
  have htc24 : (pychunks P.chunk_size data).length < 2 ^ 24 := by
    have : (2 : Nat) ^ 20 < 2 ^ 24 := by norm_num
    omega
  have hmem := pychunks_mem P.chunk_size data.length data (le_refl _)
  have hec := encodeChunks_eq P rsParity (pychunks P.chunk_size data).length hseg hrs htc24
    (pychunks P.chunk_size data) 1
    (fun c hc => ⟨(hmem c hc).2.1, fun x hx => hDb x ((hmem c hc).2.2 x hx)⟩)
    (fun c _ => hplen (chunkPayload c))
    (by omega) (le_refl 1)
  have hgetd : (create_header P.chunk_size P.error_correction data.length
      ((sha256 data).take 8)).getD [] =
      ((to_bytes_le data.length 8).getD [] ++ (to_bytes_le P.chunk_size 2).getD [] ++
        [P.error_correction, 0] ++ (sha256 data).take 8 ++
        (to_bytes_le (crc16_ccitt ((to_bytes_le data.length 8).getD [] ++
          (to_bytes_le P.chunk_size 2).getD [] ++ [P.error_correction, 0] ++
          (sha256 data).take 8)) 2).getD []) := by
    rw [hch]
    rfl
  rw [encode_file, hch]
  simp only [Option.bind_eq_bind, Option.some_bind]
  rw [← hgetd, hhdna]
  simp only [Option.some_bind]
  rw [show pydiv (data.length + P.chunk_size - 1) P.chunk_size =
    some ((data.length + P.chunk_size - 1) / P.chunk_size) from by
      rw [pydiv, if_neg (by omega)]]
  simp only [Option.some_bind]
  rw [hpfx1]
  simp only [Option.some_bind]
  rw [hec]
  simp only [Option.some_bind]
  rw [encodedOligos, headerSeq]
  simp only [hhdna, Option.getD_some]
  rfl

/-- The segment-count bound of one chunk, `total_seqs < 256`. -/
theorem chunk_ts_lt (P : DNAStorage) (rsParity : List Nat → List Nat) (c : List Nat)
    (hseg : 6 ≤ P.segment_nt)
    (hrs : P.chunk_size + 4 + P.error_correction ≤ 255)
    (hclen : c.length ≤ P.chunk_size)
    (hcb : ∀ x ∈ c, x < 256)
    (hplen : (rsParity (chunkPayload c)).length = P.error_correction) :
    (pychunks P.segment_nt ((encode_with_constraints (chunkPayload c)).getD [])).length +
      (pychunks P.segment_nt
        ((encode_with_constraints (rsParity (chunkPayload c))).getD [])).length < 256 := by
  obtain ⟨ddna, hddna, hdopts⟩ := encode_with_constraints_spec (chunkPayload c)
  obtain ⟨pdna, hpdna, hpopts⟩ := encode_with_constraints_spec (rsParity (chunkPayload c))
  have hpaylen : (chunkPayload c).length = c.length + 4 := by
    rw [chunkPayload, List.length_append,
      to_bytes_le_length _ 4 (by have := crc32_lt c hcb; norm_num at this ⊢; omega)]
  rw [hddna, hpdna]
  simp only [Option.getD_some]
  have hdlen : ddna.length = 6 * (chunkPayload c).length := ewc_length _ _ hddna hdopts
  have hplen2 : pdna.length = 6 * P.error_correction := by
    rw [← hplen]
    exact ewc_length _ _ hpdna hpopts
  have hdsegs : (pychunks P.segment_nt ddna).length ≤ (chunkPayload c).length := by
    apply pychunks_length_le P.segment_nt _ (by omega)
    rw [hdlen]
    have := Nat.mul_le_mul_left (chunkPayload c).length hseg
    omega
  have hpsegs : (pychunks P.segment_nt pdna).length ≤ P.error_correction := by
    apply pychunks_length_le P.segment_nt _ (by omega)
    rw [hplen2]
    have := Nat.mul_le_mul_left P.error_correction hseg
    omega
  omega

theorem mem_enumFrom_bounds {α : Type} (s : Nat) (l : List α) (x : Nat × α)
    (h : x ∈ List.enumFrom s l) : s ≤ x.1 ∧ x.1 < s + l.length := by
  have h1 : x.1 ∈ (List.enumFrom s l).map Prod.fst := List.mem_map_of_mem Prod.fst h
  rw [List.enumFrom_map_fst, List.mem_range'] at h1
  obtain ⟨i, hi, hx⟩ := h1
  omega

theorem filterMap_flatten_map {α β γ : Type} (f : β → Option γ) (g : α → List β)
    (l : List α) :
    ((l.map g).flatten).filterMap f = (l.map (fun a => (g a).filterMap f)).flatten := by
  rw [List.filterMap_flatten, List.map_map]
  rfl

/-- Parsing one chunk's block yields exactly its `chunkInfos`. -/
theorem chunkBlock_parse (P : DNAStorage) (rsParity : List Nat → List Nat) (tc ci : Nat)
    (c : List Nat)
    (hseg : 6 ≤ P.segment_nt)
    (hrs : P.chunk_size + 4 + P.error_correction ≤ 255)
    (hclen : c.length ≤ P.chunk_size)
    (hcb : ∀ x ∈ c, x < 256)
    (hci : ci < 2 ^ 24) (htc : tc < 2 ^ 24)
    (hplen : (rsParity (chunkPayload c)).length = P.error_correction) :
    (chunkBlock P rsParity tc ci c).filterMap parsePfx = chunkInfos P rsParity tc ci c := by
  have hts := chunk_ts_lt P rsParity c hseg hrs hclen hcb hplen
  rw [chunkBlock, chunkInfos]
  rw [List.filterMap_append, filterMap_flatten_map, filterMap_flatten_map]
  have hseggen : ∀ (ty : Char), ty = 'D' ∨ ty = 'P' →
      ∀ (is : Nat × List Char), is.1 <
        (pychunks P.segment_nt ((encode_with_constraints (chunkPayload c)).getD [])).length +
        (pychunks P.segment_nt ((encode_with_constraints (rsParity (chunkPayload c))).getD [])).length →
      (List.replicate P.redundancy (thePfx ci tc ty is.1
        ((pychunks P.segment_nt ((encode_with_constraints (chunkPayload c)).getD [])).length +
         (pychunks P.segment_nt ((encode_with_constraints (rsParity (chunkPayload c))).getD [])).length)
          ++ is.2)).filterMap parsePfx =
        List.replicate P.redundancy (⟨ty, ci, tc, is.1,
          (pychunks P.segment_nt ((encode_with_constraints (chunkPayload c)).getD [])).length +
          (pychunks P.segment_nt ((encode_with_constraints (rsParity (chunkPayload c))).getD [])).length,
          is.2⟩ : PrefixInfo) := by
    intro ty hty is hlt
    obtain ⟨_, _, hparse⟩ := createPfx_eq ci tc ty is.1
      ((pychunks P.segment_nt ((encode_with_constraints (chunkPayload c)).getD [])).length +
       (pychunks P.segment_nt ((encode_with_constraints (rsParity (chunkPayload c))).getD [])).length)
      (Or.inr hty) hci htc (by norm_num; omega) (by norm_num; omega)
    exact filterMap_replicate parsePfx _ _ (hparse is.2) P.redundancy
  congr 1
  · apply congrArg
    apply List.map_congr_left
    intro is his
    apply hseggen 'D' (Or.inl rfl) is
    have hb := mem_enumFrom_bounds 0 _ is his
    omega
  · apply congrArg
    apply List.map_congr_left
    intro is his
    apply hseggen 'P' (Or.inr rfl) is
    have hb := mem_enumFrom_bounds _ _ is his
    omega

/-- Every parsed record of a chunk block is a D or P record for that chunk
with the block's `total_seqs`. -/
theorem chunkInfos_mem (P : DNAStorage) (rsParity : List Nat → List Nat) (tc ci : Nat)
    (c : List Nat) : ∀ p ∈ chunkInfos P rsParity tc ci c,
      (p.seq_type = 'D' ∨ p.seq_type = 'P') ∧ p.chunk_idx = ci ∧
      p.total_seqs =
        (pychunks P.segment_nt ((encode_with_constraints (chunkPayload c)).getD [])).length +
        (pychunks P.segment_nt ((encode_with_constraints (rsParity (chunkPayload c))).getD [])).length := by
  intro p hp
  rw [chunkInfos] at hp
  rcases List.mem_append.mp hp with h | h <;>
  · simp only [List.mem_flatten, List.mem_map] at h
    obtain ⟨l, ⟨is, _, hl⟩, hpl⟩ := h
    rw [← hl] at hpl
    have := List.eq_of_mem_replicate hpl
    subst this
    simp

/-- The header oligo of the encoder output, and the parse of the full output:
`2*redundancy` header records followed by the chunk records. -/
theorem parse_all_encoded (P : DNAStorage) (rsParity : List Nat → List Nat) (data : List Nat)
    (hcs : 1 ≤ P.chunk_size)
    (hrs : P.chunk_size + 4 + P.error_correction ≤ 255)
    (hseg : 6 ≤ P.segment_nt)
    (hD : data.length ≤ 2 ^ 20)
    (hDb : ∀ x ∈ data, x < 256)
    (hplen : ∀ p : List Nat, (rsParity p).length = P.error_correction) :
    parse_all (encodedOligos P rsParity data) =
      List.replicate (P.redundancy * 2)
        (⟨'H', 0, (data.length + P.chunk_size - 1) / P.chunk_size, 0, 1,
          (bytes_to_dna_goldman ((create_header P.chunk_size P.error_correction data.length
            ((sha256 data).take 8)).getD []) 'A').getD []⟩ : PrefixInfo) ++
      ((List.enumFrom 1 (pychunks P.chunk_size data)).map
        (fun p => chunkInfos P rsParity (pychunks P.chunk_size data).length p.1 p.2)).flatten := by
  have hnc24 : (data.length + P.chunk_size - 1) / P.chunk_size < 2 ^ 24 := by
    have hceil : ∀ a b : Nat, 1 ≤ b → (a + b - 1) / b ≤ a := by
      intro a b hb
      rcases Nat.eq_zero_or_pos a with h0 | h0
      · subst h0
        rw [Nat.zero_add, Nat.div_eq_of_lt (by omega)]
      · have hab : a ≤ a * b := Nat.le_mul_of_pos_right a hb
        have hlt : a + b - 1 < (a + 1) * b := by
          have hexp : (a + 1) * b = a * b + b := by ring
          omega
        have := (Nat.div_lt_iff_lt_mul (by omega : 0 < b)).mpr hlt
        omega
    have := hceil data.length P.chunk_size hcs
    have : (2 : Nat) ^ 20 < 2 ^ 24 := by norm_num
    omega
  obtain ⟨_, _, hparseH⟩ := createPfx_eq 0 ((data.length + P.chunk_size - 1) / P.chunk_size)
    'H' 0 1 (by left; rfl) (by norm_num) hnc24 (by norm_num) (by norm_num)
  have hclen : (pychunks P.chunk_size data).length ≤ data.length :=
    pychunks_length_le P.chunk_size data.length hcs data (Nat.le_mul_of_pos_right _ (by omega))
  have htc24 : (pychunks P.chunk_size data).length < 2 ^ 24 := by
    have : (2 : Nat) ^ 20 < 2 ^ 24 := by norm_num
    omega
  have hmem := pychunks_mem P.chunk_size data.length data (le_refl _)
  rw [parse_all, encodedOligos, List.filterMap_append]
  congr 1
  · rw [headerSeq]
    exact filterMap_replicate parsePfx _ _ (hparseH _) _
  · rw [filterMap_flatten_map]
    apply congrArg
    apply List.map_congr_left
    intro is his
    have hbound := mem_enumFrom_bounds 1 _ is his
    have hmem2 : is.2 ∈ pychunks P.chunk_size data := List.snd_mem_of_mem_enumFrom his
    exact chunkBlock_parse P rsParity (pychunks P.chunk_size data).length is.1 is.2 hseg hrs
      (hmem is.2 hmem2).2.1 (fun x hx => hDb x ((hmem is.2 hmem2).2.2 x hx))
      (by omega) htc24 (hplen (chunkPayload is.2))

/-- Parsing the header the encoder built recovers its fields. -/
theorem parse_header_of_create (cs nsym fs : Nat) (ck8 : List Nat)
    (hcs1 : 1 ≤ cs) (hcs16 : cs < 2 ^ 16) (hrs : cs + 4 + nsym ≤ 255)
    (hfs : fs < 256 ^ 8) (hck : ck8.length = 8) :
    parse_header ((create_header cs nsym fs ck8).getD []) =
      some ⟨fs, cs, nsym, ck8, (fs + cs - 1) / cs⟩ := by
  have hn255 : nsym ≤ 255 := by omega
  have hch := create_header_spec cs nsym fs ck8 hcs16 hn255 hfs
  set fs8 := (to_bytes_le fs 8).getD [] with hfs8
  set cs2 := (to_bytes_le cs 2).getD [] with hcs2
  set first20 := fs8 ++ cs2 ++ [nsym, 0] ++ ck8 with hfirst20
  set crc2 := (to_bytes_le (crc16_ccitt first20) 2).getD [] with hcrc2
  have hb : (create_header cs nsym fs ck8).getD [] = first20 ++ crc2 := by
    rw [hch]
    rfl
  have hlfs8 : fs8.length = 8 := to_bytes_le_length fs 8 hfs
  have hlcs2 : cs2.length = 2 := to_bytes_le_length cs 2 (by norm_num at hcs16 ⊢; omega)
  have hlcrc2 : crc2.length = 2 :=
    to_bytes_le_length _ 2 (by have := crc16_lt first20; norm_num at this ⊢; omega)
  have hl20 : first20.length = 20 := by
    rw [hfirst20]
    simp only [List.length_append, hlfs8, hlcs2, hck]
    rfl
  have hlen : (first20 ++ crc2).length = 22 := by
    rw [List.length_append, hl20, hlcrc2]
  have hshape : first20 ++ crc2 = fs8 ++ (cs2 ++ ([nsym, 0] ++ (ck8 ++ crc2))) := by
    rw [hfirst20]
    simp [List.append_assoc]
  have htake20 : (first20 ++ crc2).take 20 = first20 := List.take_left' hl20
  have hdrop20 : (first20 ++ crc2).drop 20 = crc2 := List.drop_left' hl20
  have hcrcval : from_bytes_le (((first20 ++ crc2).drop 20).take 2) = crc16_ccitt first20 := by
    rw [hdrop20, List.take_of_length_le (le_of_eq hlcrc2), hcrc2]
    exact from_to_bytes_le _ 2 (by have := crc16_lt first20; norm_num at this ⊢; omega)
  have htake8 : (first20 ++ crc2).take 8 = fs8 := by
    rw [hshape]
    exact List.take_left' hlfs8
  have hdrop8 : (first20 ++ crc2).drop 8 = cs2 ++ ([nsym, 0] ++ (ck8 ++ crc2)) := by
    rw [hshape]
    exact List.drop_left' hlfs8
  have hdrop10 : (first20 ++ crc2).drop 10 = [nsym, 0] ++ (ck8 ++ crc2) := by
    rw [show (10 : Nat) = 8 + 2 from rfl, ← List.drop_drop, hdrop8, List.drop_left' hlcs2]
  have hdrop12 : (first20 ++ crc2).drop 12 = ck8 ++ crc2 := by
    rw [show (12 : Nat) = 10 + 2 from rfl, ← List.drop_drop, hdrop10,
      List.drop_left' (show ([nsym, 0] : List Nat).length = 2 from rfl)]
  have hfsval : from_bytes_le ((first20 ++ crc2).take 8) = fs := by
    rw [htake8, hfs8]
    exact from_to_bytes_le fs 8 hfs
  have hcsval : from_bytes_le (((first20 ++ crc2).drop 8).take 2) = cs := by
    rw [hdrop8, List.take_left' hlcs2, hcs2]
    exact from_to_bytes_le cs 2 (by norm_num at hcs16 ⊢; omega)
  have hnsymval : (first20 ++ crc2).getD 10 0 = nsym := by
    rw [List.getD_eq_getElem?_getD]
    have h0 : ((first20 ++ crc2).drop 10)[0]? = some nsym := by
      rw [hdrop10]
      rfl
    rw [List.getElem?_drop] at h0
    simp only [Nat.add_zero] at h0
    rw [h0]
    rfl
  have hckval : ((first20 ++ crc2).drop 12).take 8 = ck8 := by
    rw [hdrop12, List.take_left' hck]
  rw [hb, parse_header, if_neg (by rw [hlen]; omega), if_neg (by rw [hcrcval, htake20]; exact fun h => h rfl)]
  dsimp only
  rw [hfsval, hcsval, hnsymval, hckval,
    show pydiv (fs + cs - 1) cs = some ((fs + cs - 1) / cs) from by rw [pydiv, if_neg (by omega)]]
  dsimp only
  rw [if_neg (by omega)]

theorem header_bytes_lt (cs nsym fs : Nat) (ck8 : List Nat)
    (hcs16 : cs < 2 ^ 16) (hn : nsym ≤ 255) (hfs : fs < 256 ^ 8)
    (hck : ∀ b ∈ ck8, b < 256) :
    ∀ b ∈ (create_header cs nsym fs ck8).getD [], b < 256 := by
  have hch := create_header_spec cs nsym fs ck8 hcs16 hn hfs
  rw [hch]
  intro b hb
  simp only [Option.getD_some, List.mem_append, List.mem_cons, List.not_mem_nil,
    or_false] at hb
  rcases hb with ((((h | h) | h | h) | h) | h)
  · exact to_bytes_le_bytes_lt fs 8 hfs b h
  · exact to_bytes_le_bytes_lt cs 2 (by norm_num at hcs16 ⊢; omega) b h
  · omega
  · omega
  · exact hck b h
  · exact to_bytes_le_bytes_lt _ 2
      (by have := crc16_lt ((to_bytes_le fs 8).getD [] ++ (to_bytes_le cs 2).getD [] ++
        [nsym, 0] ++ ck8); norm_num at this ⊢; omega) b h

theorem filter_replicate_pos {α : Type} (p : α → Bool) (x : α) (hp : p x = true) (n : Nat) :
    (List.replicate n x).filter p = List.replicate n x := by
  induction n with
  | zero => rfl
  | succ n ih => rw [List.replicate_succ, List.filter_cons_of_pos hp, ih, ← List.replicate_succ]

/-- Stage B of the decoder, applied to the encoder's output: the header fields
come back. -/
theorem header_stage_encoded (P : DNAStorage) (rsParity : List Nat → List Nat) (data : List Nat)
    (hcs : 1 ≤ P.chunk_size)
    (hrs : P.chunk_size + 4 + P.error_correction ≤ 255)
    (hseg : 6 ≤ P.segment_nt)
    (hr : 1 ≤ P.redundancy)
    (hD : data.length ≤ 2 ^ 20)
    (hDb : ∀ x ∈ data, x < 256)
    (hplen : ∀ p : List Nat, (rsParity p).length = P.error_correction) :
    header_stage (encodedOligos P rsParity data) =
      some ⟨data.length, P.chunk_size, P.error_correction, (sha256 data).take 8,
        (data.length + P.chunk_size - 1) / P.chunk_size⟩ := by
  have hpa := parse_all_encoded P rsParity data hcs hrs hseg hD hDb hplen
  set hdna := (bytes_to_dna_goldman ((create_header P.chunk_size P.error_correction data.length
    ((sha256 data).take 8)).getD []) 'A').getD [] with hhdna
  set hInfo : PrefixInfo := ⟨'H', 0, (data.length + P.chunk_size - 1) / P.chunk_size, 0, 1, hdna⟩
    with hhInfo
  set blocks := ((List.enumFrom 1 (pychunks P.chunk_size data)).map
    (fun p => chunkInfos P rsParity (pychunks P.chunk_size data).length p.1 p.2)).flatten
    with hblocks
  rw [header_stage, hpa]
  have hne : ¬(List.replicate (P.redundancy * 2) hInfo ++ blocks = []) := by
    intro h
    have := congrArg List.length h
    simp only [List.length_append, List.length_replicate, List.length_nil] at this
    omega
  rw [if_neg hne]
  have hfilter : (List.replicate (P.redundancy * 2) hInfo ++ blocks).filter
      (fun p => p.seq_type == 'H' && p.chunk_idx == 0) =
      List.replicate (P.redundancy * 2) hInfo := by
    rw [List.filter_append, filter_replicate_pos _ hInfo (by rw [hhInfo]; rfl) _,
      List.filter_eq_nil_iff.mpr, List.append_nil]
    intro p hp
    rw [hblocks] at hp
    simp only [List.mem_flatten, List.mem_map] at hp
    obtain ⟨l, ⟨is, _, hl⟩, hpl⟩ := hp
    rw [← hl] at hpl
    obtain ⟨hty, _, _⟩ := chunkInfos_mem P rsParity (pychunks P.chunk_size data).length
      is.1 is.2 p hpl
    rcases hty with h | h <;> simp [h]
  rw [hfilter, List.map_replicate]
  have hne2 : ¬(List.replicate (P.redundancy * 2) hInfo.payload = []) := by
    intro h
    have := congrArg List.length h
    simp only [List.length_replicate, List.length_nil] at this
    omega
  rw [if_neg hne2]
  have hcons : consensus (List.replicate (P.redundancy * 2) hInfo.payload) = hdna := by
    rw [consensus_replicate _ _ (by omega)]
  rw [hcons]
  have hbytes : ∀ b ∈ (create_header P.chunk_size P.error_correction data.length
      ((sha256 data).take 8)).getD [], b < 256 :=
    header_bytes_lt P.chunk_size P.error_correction data.length _
      (by omega) (by omega)
      (by
        have h256 : (2 : Nat) ^ 20 < 256 ^ 8 := by norm_num
        omega)
      (fun b hb => sha256_bytes_lt data b (List.mem_of_mem_take hb))
  obtain ⟨d, hd1, _, _, _, _⟩ := bytes_to_dna_goldman_spec
    ((create_header P.chunk_size P.error_correction data.length
      ((sha256 data).take 8)).getD []) 'A' (by left; rfl)
  have hdna_eq : hdna = d := by rw [hhdna, hd1]; rfl
  have hdecode : dna_to_bytes_goldman hdna 'A' =
      some ((create_header P.chunk_size P.error_correction data.length
        ((sha256 data).take 8)).getD []) := by
    rw [hdna_eq]
    exact dna_to_bytes_goldman_of_encode _ 'A' d (by left; rfl) hbytes hd1
  rw [hdecode]
  exact parse_header_of_create P.chunk_size P.error_correction data.length _
    hcs (by omega) hrs
    (by
      have h256 : (2 : Nat) ^ 20 < 256 ^ 8 := by norm_num
      omega)
    (by rw [List.length_take, sha256_length]; rfl)

theorem applyAll_nil (acc : Option ChunkEntry) : applyAll acc [] = acc := by
  cases acc <;> rfl

theorem applyAll_none_cons (p : PrefixInfo) (rest : List PrefixInfo) :
    applyAll none (p :: rest) =
      applyAll (some (stepEntry p ⟨p.total_seqs, [], []⟩)) rest := rfl

theorem applyAll_some_cons (e : ChunkEntry) (p : PrefixInfo) (rest : List PrefixInfo) :
    applyAll (some e) (p :: rest) = applyAll (some (stepEntry p e)) rest := rfl

theorem applyAll_append (l1 l2 : List PrefixInfo) : ∀ acc : Option ChunkEntry,
    applyAll acc (l1 ++ l2) = applyAll (applyAll acc l1) l2 := by
  induction l1 with
  | nil =>
    intro acc
    rw [List.nil_append, applyAll_nil]
  | cons p rest ih =>
    intro acc
    cases acc with
    | none => rw [List.cons_append, applyAll_none_cons, applyAll_none_cons, ih]
    | some e => rw [List.cons_append, applyAll_some_cons, applyAll_some_cons, ih]

theorem lookupMap_updateMap (p : PrefixInfo) : ∀ (m : List (Nat × ChunkEntry)) (k : Nat),
    lookupMap (updateMap m p) k =
      if k = p.chunk_idx then
        some (stepEntry p ((lookupMap m p.chunk_idx).getD ⟨p.total_seqs, [], []⟩))
      else lookupMap m k := by
  intro m
  induction m with
  | nil =>
    intro k
    rw [updateMap]
    by_cases hk : k = p.chunk_idx
    · rw [if_pos hk]
      have hL : lookupMap [(p.chunk_idx, stepEntry p ⟨p.total_seqs, [], []⟩)] k =
          some (stepEntry p ⟨p.total_seqs, [], []⟩) := by
        rw [lookupMap, if_pos hk.symm]
      rw [hL]
      rfl
    · rw [if_neg hk]
      have hL : lookupMap [(p.chunk_idx, stepEntry p ⟨p.total_seqs, [], []⟩)] k = none := by
        rw [lookupMap, if_neg (fun h => hk h.symm), lookupMap]
      rw [hL, lookupMap]
  | cons x rest ih =>
    intro k
    obtain ⟨ci0, e0⟩ := x
    rw [updateMap]
    by_cases h0 : ci0 = p.chunk_idx
    · rw [if_pos h0]
      subst h0
      have hA : lookupMap ((p.chunk_idx, stepEntry p e0) :: rest) k =
          if p.chunk_idx = k then some (stepEntry p e0) else lookupMap rest k := by rw [lookupMap]
      have hB : lookupMap ((p.chunk_idx, e0) :: rest) p.chunk_idx = some e0 := by
        rw [lookupMap, if_pos rfl]
      have hC : lookupMap ((p.chunk_idx, e0) :: rest) k =
          if p.chunk_idx = k then some e0 else lookupMap rest k := by rw [lookupMap]
      rw [hA, hB, hC]
      by_cases hk : k = p.chunk_idx
      · rw [if_pos hk.symm, if_pos hk]
        rfl
      · rw [if_neg (fun h => hk h.symm), if_neg hk, if_neg (fun h => hk h.symm)]
    · rw [if_neg h0]
      have hA : lookupMap ((ci0, e0) :: updateMap rest p) k =
          if ci0 = k then some e0 else lookupMap (updateMap rest p) k := by rw [lookupMap]
      have hB : lookupMap ((ci0, e0) :: rest) p.chunk_idx = lookupMap rest p.chunk_idx := by
        rw [lookupMap, if_neg h0]
      have hC : lookupMap ((ci0, e0) :: rest) k =
          if ci0 = k then some e0 else lookupMap rest k := by rw [lookupMap]
      rw [hA, hB, hC, ih k]
      by_cases hk : ci0 = k
      · rw [if_pos hk, if_neg (by omega), if_pos hk]
      · rw [if_neg hk, if_neg hk]

theorem buildChunksMap_lookup_aux : ∀ (l : List PrefixInfo) (m : List (Nat × ChunkEntry)) (ci : Nat),
    lookupMap (l.foldl (fun m p => if p.seq_type = 'H' then m else updateMap m p) m) ci =
      applyAll (lookupMap m ci) (selChunk ci l) := by
  intro l
  induction l with
  | nil =>
    intro m ci
    rw [List.foldl_nil, selChunk, List.filter_nil, applyAll_nil]
  | cons p rest ih =>
    intro m ci
    rw [List.foldl_cons, selChunk, List.filter_cons]
    by_cases hH : p.seq_type = 'H'
    · rw [if_pos hH]
      have hpred : (!(p.seq_type == 'H') && p.chunk_idx == ci) = false := by
        rw [hH]
        rfl
      rw [hpred, if_neg (by simp)]
      exact ih m ci
    · rw [if_neg hH]
      by_cases hci : p.chunk_idx = ci
      · have hpred : (!(p.seq_type == 'H') && p.chunk_idx == ci) = true := by
          simp [hH, hci]
        rw [hpred, if_pos rfl]
        rw [ih (updateMap m p) ci, lookupMap_updateMap p m ci, if_pos hci.symm]
        subst hci
        cases hlm : lookupMap m p.chunk_idx with
        | none => rw [applyAll_none_cons]; rfl
        | some e => rw [applyAll_some_cons]; rfl
      · have hpred : (!(p.seq_type == 'H') && p.chunk_idx == ci) = false := by
          simp [hci]
        rw [hpred, if_neg (by simp)]
        rw [ih (updateMap m p) ci, lookupMap_updateMap p m ci, if_neg (fun h => hci h.symm)]
        rfl

/-- The decoder's chunk map, looked up at `ci`, is the sequential grouping of
the non-header records with chunk index `ci`. -/
theorem buildChunksMap_lookup (parsed : List PrefixInfo) (ci : Nat) :
    lookupMap (buildChunksMap parsed) ci = applyAll none (selChunk ci parsed) := by
  rw [buildChunksMap, buildChunksMap_lookup_aux parsed [] ci]
  rfl

/-! ### Decoder grouping: the entry built from one chunk's records -/

theorem stepEntry_D (p : PrefixInfo) (hty : p.seq_type = 'D') (ets : Nat)
    (edata epar : List (Nat × List (List Char))) :
    stepEntry p ⟨ets, edata, epar⟩ =
      ⟨max ets p.total_seqs, assocAppend edata p.seq_idx p.payload, epar⟩ := by
  dsimp only [stepEntry]
  rw [if_pos hty]

theorem stepEntry_P (p : PrefixInfo) (hty : ¬p.seq_type = 'D') (ets : Nat)
    (edata epar : List (Nat × List (List Char))) :
    stepEntry p ⟨ets, edata, epar⟩ =
      ⟨max ets p.total_seqs, edata, assocAppend epar p.seq_idx p.payload⟩ := by
  dsimp only [stepEntry]
  rw [if_neg hty]

theorem assocAppend_fresh (k : Nat) (v : List Char) :
    ∀ m : List (Nat × List (List Char)), (∀ q ∈ m, q.1 ≠ k) →
      assocAppend m k v = m ++ [(k, [v])] := by
  intro m
  induction m with
  | nil => intro _; rfl
  | cons q rest ih =>
    intro h
    obtain ⟨k0, vs0⟩ := q
    rw [assocAppend, if_neg (h (k0, vs0) (List.mem_cons_self _ _)), List.cons_append,
      ih (fun x hx => h x (List.mem_cons_of_mem _ hx))]

theorem assocAppend_last (k : Nat) (v : List Char) (vs : List (List Char)) :
    ∀ m : List (Nat × List (List Char)), (∀ q ∈ m, q.1 ≠ k) →
      assocAppend (m ++ [(k, vs)]) k v = m ++ [(k, vs ++ [v])] := by
  intro m
  induction m with
  | nil =>
    intro _
    rw [List.nil_append, List.nil_append, assocAppend, if_pos rfl]
  | cons q rest ih =>
    intro h
    obtain ⟨k0, vs0⟩ := q
    rw [List.cons_append, assocAppend, if_neg (h (k0, vs0) (List.mem_cons_self _ _)),
      ih (fun x hx => h x (List.mem_cons_of_mem _ hx)), List.cons_append]

theorem applyAll_rep_D (p : PrefixInfo) (hty : p.seq_type = 'D') :
    ∀ (n : Nat) (m : List (Nat × List (List Char))) (vs : List (List Char))
      (epar : List (Nat × List (List Char))),
      (∀ q ∈ m, q.1 ≠ p.seq_idx) →
      applyAll (some ⟨p.total_seqs, m ++ [(p.seq_idx, vs)], epar⟩) (List.replicate n p) =
        some ⟨p.total_seqs, m ++ [(p.seq_idx, vs ++ List.replicate n p.payload)], epar⟩ := by
  intro n
  induction n with
  | zero =>
    intro m vs epar _
    rw [List.replicate_zero, applyAll_nil, List.replicate_zero, List.append_nil]
  | succ n ih =>
    intro m vs epar hfresh
    rw [List.replicate_succ, applyAll_some_cons, stepEntry_D p hty, Nat.max_self,
      assocAppend_last p.seq_idx p.payload vs m hfresh,
      ih m (vs ++ [p.payload]) epar hfresh, List.append_assoc]
    rfl

theorem applyAll_rep_P (p : PrefixInfo) (hty : ¬p.seq_type = 'D') :
    ∀ (n : Nat) (m : List (Nat × List (List Char))) (vs : List (List Char))
      (edata : List (Nat × List (List Char))),
      (∀ q ∈ m, q.1 ≠ p.seq_idx) →
      applyAll (some ⟨p.total_seqs, edata, m ++ [(p.seq_idx, vs)]⟩) (List.replicate n p) =
        some ⟨p.total_seqs, edata, m ++ [(p.seq_idx, vs ++ List.replicate n p.payload)]⟩ := by
  intro n
  induction n with
  | zero =>
    intro m vs edata _
    rw [List.replicate_zero, applyAll_nil, List.replicate_zero, List.append_nil]
  | succ n ih =>
    intro m vs edata hfresh
    rw [List.replicate_succ, applyAll_some_cons, stepEntry_P p hty, Nat.max_self,
      assocAppend_last p.seq_idx p.payload vs m hfresh,
      ih m (vs ++ [p.payload]) edata hfresh, List.append_assoc]
    rfl

theorem applyAll_rep_D_fresh (p : PrefixInfo) (hty : p.seq_type = 'D') (n : Nat) (hn : 1 ≤ n)
    (ets : Nat) (hts : ets = p.total_seqs) (edata epar : List (Nat × List (List Char)))
    (hfresh : ∀ q ∈ edata, q.1 ≠ p.seq_idx) :
    applyAll (some ⟨ets, edata, epar⟩) (List.replicate n p) =
      some ⟨p.total_seqs, edata ++ [(p.seq_idx, List.replicate n p.payload)], epar⟩ := by
  subst hts
  obtain ⟨m, rfl⟩ : ∃ m, n = m + 1 := ⟨n - 1, by omega⟩
  rw [List.replicate_succ, applyAll_some_cons, stepEntry_D p hty, Nat.max_self,
    assocAppend_fresh p.seq_idx p.payload edata hfresh,
    applyAll_rep_D p hty m edata [p.payload] epar hfresh]
  rfl

theorem applyAll_rep_P_fresh (p : PrefixInfo) (hty : ¬p.seq_type = 'D') (n : Nat) (hn : 1 ≤ n)
    (ets : Nat) (hts : ets = p.total_seqs) (edata epar : List (Nat × List (List Char)))
    (hfresh : ∀ q ∈ epar, q.1 ≠ p.seq_idx) :
    applyAll (some ⟨ets, edata, epar⟩) (List.replicate n p) =
      some ⟨p.total_seqs, edata, epar ++ [(p.seq_idx, List.replicate n p.payload)]⟩ := by
  subst hts
  obtain ⟨m, rfl⟩ : ∃ m, n = m + 1 := ⟨n - 1, by omega⟩
  rw [List.replicate_succ, applyAll_some_cons, stepEntry_P p hty, Nat.max_self,
    assocAppend_fresh p.seq_idx p.payload epar hfresh,
    applyAll_rep_P p hty m epar [p.payload] edata hfresh]
  rfl

theorem applyAll_Dloop (ci tc ts r : Nat) (hr : 1 ≤ r) :
    ∀ (segs : List (List Char)) (s : Nat) (edata epar : List (Nat × List (List Char))),
      (∀ q ∈ edata, q.1 < s) →
      applyAll (some ⟨ts, edata, epar⟩)
        (((List.enumFrom s segs).map
          (fun is => List.replicate r (⟨'D', ci, tc, is.1, ts, is.2⟩ : PrefixInfo))).flatten) =
        some ⟨ts, edata ++ (List.enumFrom s segs).map (fun is => (is.1, List.replicate r is.2)),
          epar⟩ := by
  intro segs
  induction segs with
  | nil =>
    intro s edata epar _
    rw [List.enumFrom_nil, List.map_nil, List.flatten_nil, applyAll_nil, List.map_nil,
      List.append_nil]
  | cons seg rest ih =>
    intro s edata epar hkeys
    rw [List.enumFrom_cons, List.map_cons, List.flatten_cons]
    dsimp only
    rw [applyAll_append,
      applyAll_rep_D_fresh (⟨'D', ci, tc, s, ts, seg⟩ : PrefixInfo) rfl r hr ts rfl edata epar
        (fun q hq => by
          show q.1 ≠ s
          have := hkeys q hq
          omega)]
    dsimp only
    rw [ih (s + 1) (edata ++ [(s, List.replicate r seg)]) epar
        (by
          intro q hq
          rcases List.mem_append.mp hq with h | h
          · have := hkeys q h
            omega
          · rw [List.mem_singleton] at h
            subst h
            show s < s + 1
            omega),
      List.append_assoc]
    rfl

theorem applyAll_Ploop (ci tc ts r : Nat) (hr : 1 ≤ r) :
    ∀ (segs : List (List Char)) (s : Nat) (edata epar : List (Nat × List (List Char))),
      (∀ q ∈ epar, q.1 < s) →
      applyAll (some ⟨ts, edata, epar⟩)
        (((List.enumFrom s segs).map
          (fun is => List.replicate r (⟨'P', ci, tc, is.1, ts, is.2⟩ : PrefixInfo))).flatten) =
        some ⟨ts, edata,
          epar ++ (List.enumFrom s segs).map (fun is => (is.1, List.replicate r is.2))⟩ := by
  intro segs
  induction segs with
  | nil =>
    intro s edata epar _
    rw [List.enumFrom_nil, List.map_nil, List.flatten_nil, applyAll_nil, List.map_nil,
      List.append_nil]
  | cons seg rest ih =>
    intro s edata epar hkeys
    rw [List.enumFrom_cons, List.map_cons, List.flatten_cons]
    dsimp only
    rw [applyAll_append,
      applyAll_rep_P_fresh (⟨'P', ci, tc, s, ts, seg⟩ : PrefixInfo)
        (fun h => absurd (show ('P' : Char) = 'D' from h) (by decide)) r hr ts rfl
        edata epar
        (fun q hq => by
          show q.1 ≠ s
          have := hkeys q hq
          omega)]
    dsimp only
    rw [ih (s + 1) edata (epar ++ [(s, List.replicate r seg)])
        (by
          intro q hq
          rcases List.mem_append.mp hq with h | h
          · have := hkeys q h
            omega
          · rw [List.mem_singleton] at h
            subst h
            show s < s + 1
            omega),
      List.append_assoc]
    rfl

theorem applyAll_none_Dloop (ci tc ts r : Nat) (hr : 1 ≤ r) (segs : List (List Char))
    (hsegs : segs ≠ []) (l2 : List PrefixInfo) :
    applyAll none ((((List.enumFrom 0 segs).map
        (fun is => List.replicate r (⟨'D', ci, tc, is.1, ts, is.2⟩ : PrefixInfo))).flatten) ++ l2) =
      applyAll (some ⟨ts, (List.enumFrom 0 segs).map (fun is => (is.1, List.replicate r is.2)),
        []⟩) l2 := by
  cases segs with
  | nil => exact absurd rfl hsegs
  | cons d0 drest =>
    have h1 : applyAll none ((((List.enumFrom 0 (d0 :: drest)).map
        (fun is => List.replicate r (⟨'D', ci, tc, is.1, ts, is.2⟩ : PrefixInfo))).flatten) ++ l2) =
        applyAll (some ⟨ts, [], []⟩) ((((List.enumFrom 0 (d0 :: drest)).map
        (fun is => List.replicate r (⟨'D', ci, tc, is.1, ts, is.2⟩ : PrefixInfo))).flatten) ++ l2) := by
      obtain ⟨rr, rfl⟩ : ∃ rr, r = rr + 1 := ⟨r - 1, by omega⟩
      rw [List.enumFrom_cons, List.map_cons, List.flatten_cons]
      dsimp only
      rw [List.replicate_succ, List.cons_append, List.cons_append, applyAll_none_cons,
        applyAll_some_cons]
    rw [h1, applyAll_append,
      applyAll_Dloop ci tc ts r hr (d0 :: drest) 0 [] []
        (fun q hq => absurd hq (List.not_mem_nil q)),
      List.nil_append]

/-- Folding one chunk's records into an empty accumulator yields the entry with
`total_seqs = ts`, the data dict keyed `0..|dsegs|-1` and the parity dict keyed
`|dsegs|..|dsegs|+|psegs|-1`, each value the `redundancy` replicates of the
segment. -/
theorem applyAll_chunkInfos (P : DNAStorage) (rsParity : List Nat → List Nat) (tc ci : Nat)
    (c : List Nat) (hr : 1 ≤ P.redundancy) (hseg : 1 ≤ P.segment_nt)
    (hcb : ∀ x ∈ c, x < 256) :
    applyAll none (chunkInfos P rsParity tc ci c) =
      some ⟨(pychunks P.segment_nt ((encode_with_constraints (chunkPayload c)).getD [])).length +
          (pychunks P.segment_nt
            ((encode_with_constraints (rsParity (chunkPayload c))).getD [])).length,
        (List.enumFrom 0
            (pychunks P.segment_nt ((encode_with_constraints (chunkPayload c)).getD []))).map
          (fun is => (is.1, List.replicate P.redundancy is.2)),
        (List.enumFrom
            (pychunks P.segment_nt ((encode_with_constraints (chunkPayload c)).getD [])).length
            (pychunks P.segment_nt
              ((encode_with_constraints (rsParity (chunkPayload c))).getD []))).map
          (fun is => (is.1, List.replicate P.redundancy is.2))⟩ := by
  obtain ⟨ddna, hddna, hdopts⟩ := encode_with_constraints_spec (chunkPayload c)
  have hdlen : ddna.length = 6 * (chunkPayload c).length := ewc_length _ _ hddna hdopts
  have hpay4 : (chunkPayload c).length = c.length + 4 := by
    rw [chunkPayload, List.length_append,
      to_bytes_le_length _ 4 (by have := crc32_lt c hcb; norm_num at this ⊢; omega)]
  have hdne : ddna ≠ [] := by
    intro h
    rw [h] at hdlen
    simp only [List.length_nil] at hdlen
    omega
  have hdsegs_ne : pychunks P.segment_nt ddna ≠ [] := by
    intro h
    have hfl := pychunks_flatten P.segment_nt hseg ddna.length ddna (le_refl _)
    rw [h] at hfl
    exact hdne hfl.symm
  have hsplit : chunkInfos P rsParity tc ci c =
      ((List.enumFrom 0 (pychunks P.segment_nt ddna)).map
        (fun is => List.replicate P.redundancy (⟨'D', ci, tc, is.1,
          (pychunks P.segment_nt ddna).length + (pychunks P.segment_nt
            ((encode_with_constraints (rsParity (chunkPayload c))).getD [])).length,
          is.2⟩ : PrefixInfo))).flatten ++
      ((List.enumFrom (pychunks P.segment_nt ddna).length
          (pychunks P.segment_nt
            ((encode_with_constraints (rsParity (chunkPayload c))).getD []))).map
        (fun is => List.replicate P.redundancy (⟨'P', ci, tc, is.1,
          (pychunks P.segment_nt ddna).length + (pychunks P.segment_nt
            ((encode_with_constraints (rsParity (chunkPayload c))).getD [])).length,
          is.2⟩ : PrefixInfo))).flatten := by
    rw [chunkInfos]
    simp only [hddna, Option.getD_some]
  rw [hsplit]
  simp only [hddna, Option.getD_some]
  rw [applyAll_none_Dloop ci tc
      ((pychunks P.segment_nt ddna).length + (pychunks P.segment_nt
        ((encode_with_constraints (rsParity (chunkPayload c))).getD [])).length)
      P.redundancy hr (pychunks P.segment_nt ddna) hdsegs_ne _,
    applyAll_Ploop ci tc
      ((pychunks P.segment_nt ddna).length + (pychunks P.segment_nt
        ((encode_with_constraints (rsParity (chunkPayload c))).getD [])).length)
      P.redundancy hr
      (pychunks P.segment_nt ((encode_with_constraints (rsParity (chunkPayload c))).getD []))
      (pychunks P.segment_nt ddna).length _ []
      (fun q hq => absurd hq (List.not_mem_nil q)),
    List.nil_append]

/-- `sorted` on keys that are already consecutive integers is the identity. -/
theorem sortNats_range' : ∀ (n s : Nat), sortNats (List.range' s n) = List.range' s n := by
  intro n
  induction n with
  | zero => intro s; rfl
  | succ n ih =>
    intro s
    rw [List.range'_succ]
    have h1 : sortNats (s :: List.range' (s + 1) n) =
        insertSorted s (sortNats (List.range' (s + 1) n)) := rfl
    rw [h1, ih (s + 1)]
    cases n with
    | zero => rfl
    | succ m =>
      rw [List.range'_succ, insertSorted, if_pos (by omega)]

theorem map_getD_range_sub {α : Type} (d : α) : ∀ (l : List α) (s : Nat),
    (List.range' s l.length).map (fun i => l.getD (i - s) d) = l := by
  intro l
  induction l with
  | nil => intro s; rfl
  | cons x xs ih =>
    intro s
    rw [List.length_cons, List.range'_succ, List.map_cons]
    rw [Nat.sub_self, List.getD_cons_zero]
    have h1 : (List.range' (s + 1) xs.length).map (fun i => (x :: xs).getD (i - s) d) =
        (List.range' (s + 1) xs.length).map (fun i => xs.getD (i - (s + 1)) d) := by
      apply List.map_congr_left
      intro i hi
      rw [List.mem_range'_1] at hi
      have h2 : i - s = (i - (s + 1)) + 1 := by omega
      rw [h2, List.getD_cons_succ]
    rw [h1, ih (s + 1)]

/-- Looking up key `i` in the dict built from `enumerate(segs, start=s)` gives
the replicate list of segment `i - s`. -/
theorem assocLookup_enum (r : Nat) : ∀ (segs : List (List Char)) (s i : Nat),
    s ≤ i → i < s + segs.length →
    assocLookup ((List.enumFrom s segs).map (fun is => (is.1, List.replicate r is.2))) i =
      List.replicate r (segs.getD (i - s) []) := by
  intro segs
  induction segs with
  | nil =>
    intro s i h1 h2
    simp only [List.length_nil] at h2
    omega
  | cons seg rest ih =>
    intro s i h1 h2
    rw [List.enumFrom_cons, List.map_cons]
    dsimp only
    by_cases hi : s = i
    · rw [assocLookup, if_pos hi]
      subst hi
      rw [Nat.sub_self, List.getD_cons_zero]
    · rw [assocLookup, if_neg hi,
        ih (s + 1) i (by omega) (by simp only [List.length_cons] at h2; omega)]
      have h3 : i - s = (i - (s + 1)) + 1 := by omega
      rw [h3, List.getD_cons_succ]

/-- Evaluating the per-chunk reconstruction on the entry produced by grouping a
clean chunk: consensus collapses the replicates, the segments reassemble, the
Goldman and RS decodes return the payload, and the CRC-32 check passes. -/
theorem processChunk_eval (rsDecode : Nat → List Nat → Option (List Nat)) (nsym r ts : Nat)
    (hr : 1 ≤ r) (dsegs psegs : List (List Char)) (c pb : List Nat)
    (hcb : ∀ x ∈ c, x < 256)
    (hdne : dsegs.flatten ≠ [])
    (hdOpt : dna_to_bytes_goldman dsegs.flatten 'A' = some (chunkPayload c))
    (hpOpt : (if psegs.flatten = [] then some [] else dna_to_bytes_goldman psegs.flatten 'A') =
      some pb)
    (hrsd : rsDecode nsym (chunkPayload c ++ pb) = some (chunkPayload c)) :
    processChunk rsDecode nsym
      ⟨ts, (List.enumFrom 0 dsegs).map (fun is => (is.1, List.replicate r is.2)),
        (List.enumFrom dsegs.length psegs).map (fun is => (is.1, List.replicate r is.2))⟩ =
      some c := by
  have hcrclt : crc32 c < 256 ^ 4 := by
    have := crc32_lt c hcb
    norm_num at this ⊢
    omega
  have hcrc4 : ((to_bytes_le (crc32 c) 4).getD []).length = 4 :=
    to_bytes_le_length _ 4 hcrclt
  have hlen : (chunkPayload c).length = c.length + 4 := by
    rw [chunkPayload, List.length_append, hcrc4]
  have hkeysD : (((List.enumFrom 0 dsegs).map
      (fun is => (is.1, List.replicate r is.2))).map Prod.fst) =
      List.range' 0 dsegs.length := by
    rw [List.map_map]
    have h : (Prod.fst ∘ fun is : Nat × List Char => (is.1, List.replicate r is.2)) =
        Prod.fst := rfl
    rw [h, List.enumFrom_map_fst]
  have hkeysP : (((List.enumFrom dsegs.length psegs).map
      (fun is => (is.1, List.replicate r is.2))).map Prod.fst) =
      List.range' dsegs.length psegs.length := by
    rw [List.map_map]
    have h : (Prod.fst ∘ fun is : Nat × List Char => (is.1, List.replicate r is.2)) =
        Prod.fst := rfl
    rw [h, List.enumFrom_map_fst]
  have hdata_seq : ((sortNats (((List.enumFrom 0 dsegs).map
      (fun is => (is.1, List.replicate r is.2))).map Prod.fst)).map
        (fun i => consensus (assocLookup ((List.enumFrom 0 dsegs).map
          (fun is => (is.1, List.replicate r is.2))) i))).flatten = dsegs.flatten := by
    rw [hkeysD, sortNats_range' dsegs.length 0]
    congr 1
    have hcg : (List.range' 0 dsegs.length).map
        (fun i => consensus (assocLookup ((List.enumFrom 0 dsegs).map
          (fun is => (is.1, List.replicate r is.2))) i)) =
        (List.range' 0 dsegs.length).map (fun i => dsegs.getD (i - 0) []) := by
      apply List.map_congr_left
      intro i hi
      rw [List.mem_range'_1] at hi
      rw [assocLookup_enum r dsegs 0 i (by omega) (by omega), consensus_replicate r _ hr]
    rw [hcg, map_getD_range_sub]
  have hparity_seq : ((sortNats (((List.enumFrom dsegs.length psegs).map
      (fun is => (is.1, List.replicate r is.2))).map Prod.fst)).map
        (fun i => consensus (assocLookup ((List.enumFrom dsegs.length psegs).map
          (fun is => (is.1, List.replicate r is.2))) i))).flatten = psegs.flatten := by
    rw [hkeysP, sortNats_range' psegs.length dsegs.length]
    congr 1
    have hcg : (List.range' dsegs.length psegs.length).map
        (fun i => consensus (assocLookup ((List.enumFrom dsegs.length psegs).map
          (fun is => (is.1, List.replicate r is.2))) i)) =
        (List.range' dsegs.length psegs.length).map
          (fun i => psegs.getD (i - dsegs.length) []) := by
      apply List.map_congr_left
      intro i hi
      rw [List.mem_range'_1] at hi
      rw [assocLookup_enum r psegs dsegs.length i (by omega) (by omega),
        consensus_replicate r _ hr]
    rw [hcg, map_getD_range_sub]
  rw [processChunk]
  dsimp only
  rw [hdata_seq, hparity_seq, if_neg hdne, hdOpt, hpOpt]
  dsimp only
  rw [hrsd]
  dsimp only [Option.getD_some]
  rw [if_neg (show ¬((chunkPayload c).length < 4) from by rw [hlen]; omega)]
  have hsub : (chunkPayload c).length - 4 = c.length := by
    rw [hlen]
    omega
  have htake : (chunkPayload c).take c.length = c := by
    rw [chunkPayload]
    exact List.take_left' rfl
  have hdrop : (chunkPayload c).drop c.length = (to_bytes_le (crc32 c) 4).getD [] := by
    rw [chunkPayload]
    exact List.drop_left' rfl
  have hfrom : from_bytes_le ((to_bytes_le (crc32 c) 4).getD []) = crc32 c :=
    from_to_bytes_le _ 4 hcrclt
  rw [hsub, htake, hdrop, hfrom, if_pos rfl]

/-! ### Selecting one chunk's records from the parsed stream -/

theorem selChunk_append (ci : Nat) (l1 l2 : List PrefixInfo) :
    selChunk ci (l1 ++ l2) = selChunk ci l1 ++ selChunk ci l2 := by
  rw [selChunk, selChunk, selChunk, List.filter_append]

theorem selChunk_chunkInfos_self (P : DNAStorage) (rsParity : List Nat → List Nat)
    (tc ci : Nat) (c : List Nat) :
    selChunk ci (chunkInfos P rsParity tc ci c) = chunkInfos P rsParity tc ci c := by
  rw [selChunk, List.filter_eq_self.mpr]
  intro p hp
  obtain ⟨hty, hci, _⟩ := chunkInfos_mem P rsParity tc ci c p hp
  rcases hty with h | h <;> simp [h, hci]

theorem selChunk_chunkInfos_ne (P : DNAStorage) (rsParity : List Nat → List Nat)
    (tc ci cj : Nat) (c : List Nat) (hne : cj ≠ ci) :
    selChunk ci (chunkInfos P rsParity tc cj c) = [] := by
  rw [selChunk, List.filter_eq_nil_iff.mpr]
  intro p hp
  obtain ⟨_, hci, _⟩ := chunkInfos_mem P rsParity tc cj c p hp
  simp [hci, hne]

theorem selChunk_blocks_lt (P : DNAStorage) (rsParity : List Nat → List Nat) (tc : Nat) :
    ∀ (chunks : List (List Nat)) (s ci : Nat), ci < s →
      selChunk ci (((List.enumFrom s chunks).map
        (fun p => chunkInfos P rsParity tc p.1 p.2)).flatten) = [] := by
  intro chunks
  induction chunks with
  | nil => intro s ci _; rfl
  | cons c rest ih =>
    intro s ci hlt
    rw [List.enumFrom_cons, List.map_cons, List.flatten_cons, selChunk_append]
    dsimp only
    rw [selChunk_chunkInfos_ne P rsParity tc ci s c (by omega), ih (s + 1) ci (by omega)]
    rfl

/-- Selecting chunk `ci` from the concatenated blocks of `enumerate(chunks,
start=s)` isolates exactly the block of chunk `ci`. -/
theorem selChunk_blocks (P : DNAStorage) (rsParity : List Nat → List Nat) (tc : Nat) :
    ∀ (chunks : List (List Nat)) (s ci : Nat), s ≤ ci → ci < s + chunks.length →
      selChunk ci (((List.enumFrom s chunks).map
        (fun p => chunkInfos P rsParity tc p.1 p.2)).flatten) =
        chunkInfos P rsParity tc ci (chunks.getD (ci - s) []) := by
  intro chunks
  induction chunks with
  | nil =>
    intro s ci h1 h2
    simp only [List.length_nil] at h2
    omega
  | cons c rest ih =>
    intro s ci h1 h2
    rw [List.enumFrom_cons, List.map_cons, List.flatten_cons, selChunk_append]
    dsimp only
    by_cases hs : ci = s
    · subst hs
      rw [selChunk_chunkInfos_self, selChunk_blocks_lt P rsParity tc rest (ci + 1) ci (by omega),
        List.append_nil, Nat.sub_self, List.getD_cons_zero]
    · rw [selChunk_chunkInfos_ne P rsParity tc ci s c (fun h => hs h.symm), List.nil_append,
        ih (s + 1) ci (by omega) (by simp only [List.length_cons] at h2; omega)]
      have h3 : ci - s = (ci - (s + 1)) + 1 := by omega
      rw [h3, List.getD_cons_succ]

theorem selChunk_replicate_H (ci n : Nat) (p : PrefixInfo) (hty : p.seq_type = 'H') :
    selChunk ci (List.replicate n p) = [] := by
  rw [selChunk, List.filter_eq_nil_iff.mpr]
  intro q hq
  have := List.eq_of_mem_replicate hq
  subst this
  simp [hty]

/-- Clean-channel decoding of the encoder's output.  The hypothesis `hA` pins
the start base actually chosen by `_encode_with_constraints` to `'A'` for every
chunk — the decoder hard-codes `start='A'`, so this is exactly the condition
under which the round trip can succeed; `hdec` states the Reed–Solomon
decoder's correctness on each clean codeword. -/
theorem decode_sequences_encode_clean (P : DNAStorage) (rsParity : List Nat → List Nat)
    (rsDecode : Nat → List Nat → Option (List Nat)) (data : List Nat)
    (hcs : 1 ≤ P.chunk_size)
    (hrs : P.chunk_size + 4 + P.error_correction ≤ 255)
    (hseg : 6 ≤ P.segment_nt)
    (hr : 1 ≤ P.redundancy)
    (hD : data.length ≤ 2 ^ 20)
    (hDb : ∀ x ∈ data, x < 256)
    (hplen : ∀ p : List Nat, (rsParity p).length = P.error_correction)
    (hA : ∀ c ∈ pychunks P.chunk_size data,
      encode_with_constraints (chunkPayload c) = bytes_to_dna_goldman (chunkPayload c) 'A' ∧
      encode_with_constraints (rsParity (chunkPayload c)) =
        bytes_to_dna_goldman (rsParity (chunkPayload c)) 'A')
    (hpbt : ∀ c ∈ pychunks P.chunk_size data, ∀ x ∈ rsParity (chunkPayload c), x < 256)
    (hdec : ∀ c ∈ pychunks P.chunk_size data,
      rsDecode P.error_correction (chunkPayload c ++ rsParity (chunkPayload c)) =
        some (chunkPayload c)) :
    decode_sequences rsDecode (encodedOligos P rsParity data) = (true, data) := by
  have hpa := parse_all_encoded P rsParity data hcs hrs hseg hD hDb hplen
  have hnc : (data.length + P.chunk_size - 1) / P.chunk_size =
      (pychunks P.chunk_size data).length := (pychunks_length P.chunk_size hcs data).symm
  have hmem := pychunks_mem P.chunk_size data.length data (le_refl _)
  have hstep : ∀ ci, 1 ≤ ci → ci ≤ (pychunks P.chunk_size data).length →
      chunkStep rsDecode P.error_correction
        (buildChunksMap (parse_all (encodedOligos P rsParity data))) ci =
        some ((pychunks P.chunk_size data).getD (ci - 1) []) := by
    intro ci h1 h2
    have hci_lt : ci - 1 < (pychunks P.chunk_size data).length := by omega
    have hcmem : (pychunks P.chunk_size data).getD (ci - 1) [] ∈ pychunks P.chunk_size data := by
      rw [List.getD_eq_getElem _ _ hci_lt]
      exact List.getElem_mem hci_lt
    set c := (pychunks P.chunk_size data).getD (ci - 1) [] with hc
    have hcb : ∀ x ∈ c, x < 256 := fun x hx => hDb x ((hmem c hcmem).2.2 x hx)
    obtain ⟨hAc, hAp⟩ := hA c hcmem
    rw [chunkStep, hpa, buildChunksMap_lookup, selChunk_append,
      selChunk_replicate_H _ _ _ rfl, List.nil_append,
      selChunk_blocks P rsParity (pychunks P.chunk_size data).length
        (pychunks P.chunk_size data) 1 ci h1 (by omega)]
    rw [applyAll_chunkInfos P rsParity (pychunks P.chunk_size data).length ci c hr
      (by omega) hcb]
    dsimp only
    obtain ⟨dd, hdd1, _, hddlen, _, _⟩ :=
      bytes_to_dna_goldman_spec (chunkPayload c) 'A' (by left; rfl)
    have hddE : encode_with_constraints (chunkPayload c) = some dd := by rw [hAc, hdd1]
    have hgetd : (encode_with_constraints (chunkPayload c)).getD [] = dd := by
      rw [hddE]
      rfl
    obtain ⟨dp, hdp1, _, hdplen, _, _⟩ :=
      bytes_to_dna_goldman_spec (rsParity (chunkPayload c)) 'A' (by left; rfl)
    have hdpE : encode_with_constraints (rsParity (chunkPayload c)) = some dp := by
      rw [hAp, hdp1]
    have hgetp : (encode_with_constraints (rsParity (chunkPayload c))).getD [] = dp := by
      rw [hdpE]
      rfl
    rw [hgetd, hgetp]
    have hcrclt : crc32 c < 256 ^ 4 := by
      have := crc32_lt c hcb
      norm_num at this ⊢
      omega
    have hpaylt : ∀ x ∈ chunkPayload c, x < 256 := by
      intro x hx
      rw [chunkPayload] at hx
      rcases List.mem_append.mp hx with h | h
      · exact hcb x h
      · exact to_bytes_le_bytes_lt _ 4 hcrclt x h
    have hpay4 : (chunkPayload c).length = c.length + 4 := by
      rw [chunkPayload, List.length_append, to_bytes_le_length _ 4 hcrclt]
    have hdflat : (pychunks P.segment_nt dd).flatten = dd :=
      pychunks_flatten P.segment_nt (by omega) dd.length dd (le_refl _)
    have hpflat : (pychunks P.segment_nt dp).flatten = dp :=
      pychunks_flatten P.segment_nt (by omega) dp.length dp (le_refl _)
    have hdne : (pychunks P.segment_nt dd).flatten ≠ [] := by
      rw [hdflat]
      intro h
      rw [h] at hddlen
      simp only [List.length_nil] at hddlen
      rw [hpay4] at hddlen
      omega
    exact processChunk_eval rsDecode P.error_correction P.redundancy _ hr
      (pychunks P.segment_nt dd) (pychunks P.segment_nt dp) c (rsParity (chunkPayload c))
      hcb hdne
      (by
        rw [hdflat]
        exact dna_to_bytes_goldman_of_encode _ 'A' dd (by left; rfl) hpaylt hdd1)
      (by
        by_cases hp0 : (pychunks P.segment_nt dp).flatten = []
        · rw [if_pos hp0]
          have hdp0 : dp = [] := by rw [← hpflat, hp0]
          have hplen0 : (rsParity (chunkPayload c)).length = 0 := by
            rw [hdp0] at hdplen
            simp only [List.length_nil] at hdplen
            omega
          rw [List.length_eq_zero.mp hplen0]
        · rw [if_neg hp0, hpflat]
          exact dna_to_bytes_goldman_of_encode _ 'A' dp (by left; rfl) (hpbt c hcmem) hdp1)
      (hdec c hcmem)
  rw [decode_sequences, header_stage_encoded P rsParity data hcs hrs hseg hr hD hDb hplen]
  dsimp only
  have hrec : ((List.range ((data.length + P.chunk_size - 1) / P.chunk_size)).map
      (fun k => k + 1)).filterMap
      (chunkStep rsDecode P.error_correction
        (buildChunksMap (parse_all (encodedOligos P rsParity data)))) =
      pychunks P.chunk_size data := by
    rw [hnc, List.filterMap_map,
      filterMap_eq_map_of_some _ (fun k => (pychunks P.chunk_size data).getD k [])
        (List.range (pychunks P.chunk_size data).length)
        (fun k hk => by
          rw [List.mem_range] at hk
          have h := hstep (k + 1) (by omega) (by omega)
          rw [Nat.add_sub_cancel] at h
          exact h),
      map_getD_range]
  rw [hrec, pychunks_flatten P.chunk_size hcs data.length data (le_refl _), List.take_length,
    decide_eq_true rfl]
  rfl

/-- Every oligo of one chunk's block is an 80-base prefix plus one DNA segment
of at most `segment_nt` bases. -/
theorem chunkBlock_length_le (P : DNAStorage) (rsParity : List Nat → List Nat) (tc ci : Nat)
    (c : List Nat)
    (hseg : 6 ≤ P.segment_nt)
    (hrs : P.chunk_size + 4 + P.error_correction ≤ 255)
    (hclen : c.length ≤ P.chunk_size)
    (hcb : ∀ x ∈ c, x < 256)
    (hci : ci < 2 ^ 24) (htc : tc < 2 ^ 24)
    (hplen : (rsParity (chunkPayload c)).length = P.error_correction) :
    ∀ o ∈ chunkBlock P rsParity tc ci c, o.length ≤ 80 + P.segment_nt := by
  have hts := chunk_ts_lt P rsParity c hseg hrs hclen hcb hplen
  intro o ho
  rw [chunkBlock] at ho
  have hgen : ∀ (ty : Char), ty = 'D' ∨ ty = 'P' →
      ∀ (segs : List (List Char)) (s : Nat) (is : Nat × List Char),
      is ∈ List.enumFrom s segs → (∀ g ∈ segs, g.length ≤ P.segment_nt) →
      s + segs.length ≤
        (pychunks P.segment_nt ((encode_with_constraints (chunkPayload c)).getD [])).length +
        (pychunks P.segment_nt
          ((encode_with_constraints (rsParity (chunkPayload c))).getD [])).length →
      (thePfx ci tc ty is.1
        ((pychunks P.segment_nt ((encode_with_constraints (chunkPayload c)).getD [])).length +
         (pychunks P.segment_nt
           ((encode_with_constraints (rsParity (chunkPayload c))).getD [])).length)
        ++ is.2).length ≤ 80 + P.segment_nt := by
    intro ty hty segs s is his hsegs hbound
    have hb := mem_enumFrom_bounds s segs is his
    have hmem2 : is.2 ∈ segs := List.snd_mem_of_mem_enumFrom his
    obtain ⟨_, hp80, _⟩ := createPfx_eq ci tc ty is.1
      ((pychunks P.segment_nt ((encode_with_constraints (chunkPayload c)).getD [])).length +
       (pychunks P.segment_nt
         ((encode_with_constraints (rsParity (chunkPayload c))).getD [])).length)
      (Or.inr hty) hci htc (by norm_num; omega) (by norm_num; omega)
    rw [List.length_append, hp80]
    have := hsegs is.2 hmem2
    omega
  have hsegsD : ∀ g ∈ pychunks P.segment_nt
      ((encode_with_constraints (chunkPayload c)).getD []), g.length ≤ P.segment_nt :=
    fun g hg => (pychunks_mem P.segment_nt _ _ (le_refl _) g hg).2.1
  have hsegsP : ∀ g ∈ pychunks P.segment_nt
      ((encode_with_constraints (rsParity (chunkPayload c))).getD []),
      g.length ≤ P.segment_nt :=
    fun g hg => (pychunks_mem P.segment_nt _ _ (le_refl _) g hg).2.1
  rcases List.mem_append.mp ho with h | h <;>
    simp only [List.mem_flatten, List.mem_map] at h
  · obtain ⟨l, ⟨is, his, hl⟩, hol⟩ := h
    rw [← hl] at hol
    have := List.eq_of_mem_replicate hol
    subst this
    exact hgen 'D' (Or.inl rfl) _ 0 is his hsegsD (by omega)
  · obtain ⟨l, ⟨is, his, hl⟩, hol⟩ := h
    rw [← hl] at hol
    have := List.eq_of_mem_replicate hol
    subst this
    exact hgen 'P' (Or.inr rfl) _ _ is his hsegsP (by omega)

/-- The header oligo is exactly 212 bases: an 80-base prefix plus the 132-base
Goldman encoding of the 22-byte header. -/
theorem headerSeq_length (P : DNAStorage) (data : List Nat)
    (hcs : 1 ≤ P.chunk_size)
    (hrs : P.chunk_size + 4 + P.error_correction ≤ 255)
    (hD : data.length ≤ 2 ^ 20) :
    (headerSeq P data).length = 212 := by
  have hcs16 : P.chunk_size < 2 ^ 16 := by omega
  have hfs : data.length < 256 ^ 8 := by
    have : (2 : Nat) ^ 20 < 256 ^ 8 := by norm_num
    omega
  have hch := create_header_spec P.chunk_size P.error_correction data.length
    ((sha256 data).take 8) hcs16 (by omega) hfs
  have hck8 : ((sha256 data).take 8).length = 8 := by
    rw [List.length_take, sha256_length]
    rfl
  have hhb22 : ((create_header P.chunk_size P.error_correction data.length
      ((sha256 data).take 8)).getD []).length = 22 := by
    rw [hch]
    simp only [Option.getD_some, List.length_append]
    rw [to_bytes_le_length _ 8 hfs,
      to_bytes_le_length _ 2 (by norm_num at hcs16 ⊢; omega), hck8,
      to_bytes_le_length _ 2 (by
        have := crc16_lt ((to_bytes_le data.length 8).getD [] ++
          (to_bytes_le P.chunk_size 2).getD [] ++ [P.error_correction, 0] ++
          (sha256 data).take 8)
        norm_num at this ⊢
        omega)]
    rfl
  obtain ⟨hdna, hh1, _, hh3, _, _⟩ := bytes_to_dna_goldman_spec
    ((create_header P.chunk_size P.error_correction data.length
      ((sha256 data).take 8)).getD []) 'A' (by left; rfl)
  have hnc24 : (data.length + P.chunk_size - 1) / P.chunk_size < 2 ^ 24 := by
    have hle : (data.length + P.chunk_size - 1) / P.chunk_size ≤ data.length + P.chunk_size - 1 :=
      Nat.div_le_self _ _
    have h1 : P.chunk_size ≤ 251 := by omega
    have h2 : (2 : Nat) ^ 20 + 251 < 2 ^ 24 := by norm_num
    omega
  obtain ⟨_, hp80, _⟩ := createPfx_eq 0 ((data.length + P.chunk_size - 1) / P.chunk_size)
    'H' 0 1 (Or.inl rfl) (by norm_num) hnc24 (by norm_num) (by norm_num)
  rw [headerSeq, List.length_append, hp80, hh1]
  simp only [Option.getD_some]
  rw [hh3, hhb22]

/-- Length bound over the whole encoder output: chunk oligos stay within
`80 + segment_nt`, the header oligo within `80 + 132`. -/
theorem encodedOligos_length_le (P : DNAStorage) (rsParity : List Nat → List Nat)
    (data : List Nat)
    (hcs : 1 ≤ P.chunk_size)
    (hrs : P.chunk_size + 4 + P.error_correction ≤ 255)
    (hseg : 6 ≤ P.segment_nt)
    (hD : data.length ≤ 2 ^ 20)
    (hDb : ∀ x ∈ data, x < 256)
    (hplen : ∀ p : List Nat, (rsParity p).length = P.error_correction) :
    ∀ o ∈ encodedOligos P rsParity data, o.length ≤ 80 + max P.segment_nt 132 := by
  intro o ho
  rw [encodedOligos] at ho
  rcases List.mem_append.mp ho with h | h
  · have := List.eq_of_mem_replicate h
    subst this
    rw [headerSeq_length P data hcs hrs hD]
    have := le_max_right P.segment_nt 132
    omega
  · simp only [List.mem_flatten, List.mem_map] at h
    obtain ⟨blk, ⟨is, his, hblk⟩, hoblk⟩ := h
    rw [← hblk] at hoblk
    have hb := mem_enumFrom_bounds 1 _ is his
    have hmem2 : is.2 ∈ pychunks P.chunk_size data := List.snd_mem_of_mem_enumFrom his
    have hmem := pychunks_mem P.chunk_size data.length data (le_refl _)
    have hclen : (pychunks P.chunk_size data).length ≤ data.length :=
      pychunks_length_le P.chunk_size data.length hcs data (Nat.le_mul_of_pos_right _ (by omega))
    have htc24 : (pychunks P.chunk_size data).length < 2 ^ 24 := by
      have : (2 : Nat) ^ 20 < 2 ^ 24 := by norm_num
      omega
    have hbound := chunkBlock_length_le P rsParity (pychunks P.chunk_size data).length is.1
      is.2 hseg hrs (hmem is.2 hmem2).2.1 (fun x hx => hDb x ((hmem is.2 hmem2).2.2 x hx))
      (by omega) htc24 (hplen (chunkPayload is.2)) o hoblk
    have := le_max_left P.segment_nt 132
    omega

/-! ### Claims C1, C2, C7 -/

/-- Claim C1 (corrected) — round trip over a clean channel.  As stated in the
spec the claim is false: `_encode_with_constraints` may pick a Goldman start
base other than `'A'` to satisfy the GC/run constraints, while
`decode_sequences` hard-codes `start='A'`, so some files fail to decode (see
`claim_c1_counterexample`).  Amended with the hypothesis `hA` that the chosen
start is `'A'` for every chunk of the file — and a correct systematic RS codec
(`hplen`, `hdec`) — encoding succeeds and decoding returns `(true, D)`. -/
theorem claim_c1_round_trip_amended (P : DNAStorage) (rsParity : List Nat → List Nat)
    (rsDecode : Nat → List Nat → Option (List Nat)) (data : List Nat)
    (hcs : 1 ≤ P.chunk_size)
    (hrs : P.chunk_size + 4 + P.error_correction ≤ 255)
    (hseg : 6 ≤ P.segment_nt)
    (hr : 1 ≤ P.redundancy)
    (hD : data.length ≤ 2 ^ 20)
    (hDb : ∀ x ∈ data, x < 256)
    (hplen : ∀ p : List Nat, (rsParity p).length = P.error_correction)
    (hA : ∀ c ∈ pychunks P.chunk_size data,
      encode_with_constraints (chunkPayload c) = bytes_to_dna_goldman (chunkPayload c) 'A' ∧
      encode_with_constraints (rsParity (chunkPayload c)) =
        bytes_to_dna_goldman (rsParity (chunkPayload c)) 'A')
    (hpbt : ∀ c ∈ pychunks P.chunk_size data, ∀ x ∈ rsParity (chunkPayload c), x < 256)
    (hdec : ∀ c ∈ pychunks P.chunk_size data,
      rsDecode P.error_correction (chunkPayload c ++ rsParity (chunkPayload c)) =
        some (chunkPayload c)) :
    encode_file P rsParity data = some (encodedOligos P rsParity data) ∧
    decode_sequences rsDecode (encodedOligos P rsParity data) = (true, data) :=
  ⟨encode_file_eq P rsParity data hcs hrs hseg hD hDb hplen,
   decode_sequences_encode_clean P rsParity rsDecode data hcs hrs hseg hr hD hDb hplen
     hA hpbt hdec⟩

set_option maxRecDepth 1000000 in
/-- Witness for claim C1 (amended): the file `[0]` — whose chunk happens to
Goldman-encode from start `'A'` within the constraints — round-trips under the
default parameters with a correct systematic RS instance. -/
theorem claim_c1_round_trip_amended_witness :
    encode_file defaultParams (rsParityZero 10) [0] =
      some (encodedOligos defaultParams (rsParityZero 10) [0]) ∧
    decode_sequences rsDecodeTrunc (encodedOligos defaultParams (rsParityZero 10) [0]) =
      (true, [0]) :=
  claim_c1_round_trip_amended defaultParams (rsParityZero 10) rsDecodeTrunc [0]
    (by decide) (by decide) (by decide) (by decide) (by decide) (by decide)
    (fun p => rfl) (by decide) (by decide) (by decide)

set_option maxRecDepth 1000000 in
/-- Counterexample to claim C1 as stated: with the default parameters and a
correct systematic RS instance, the one-byte file `[50]` (well under 1 MiB)
encodes successfully, yet `decode_sequences` returns `(false, [])` — the data
chunk's constrained encoding starts from a base other than `'A'` and the
decoder's hard-coded `start='A'` Goldman decode rejects it. -/
theorem claim_c1_counterexample :
    encode_file defaultParams (rsParityZero 10) [50] =
      some (encodedOligos defaultParams (rsParityZero 10) [50]) ∧
    (∀ c ∈ pychunks defaultParams.chunk_size ([50] : List Nat),
      rsDecodeTrunc defaultParams.error_correction
        (chunkPayload c ++ rsParityZero 10 (chunkPayload c)) = some (chunkPayload c)) ∧
    decode_sequences rsDecodeTrunc (encodedOligos defaultParams (rsParityZero 10) [50]) =
      (false, []) :=
  ⟨by decide, by decide, by decide⟩

/-- Claim C2 (corrected) — oligo length bound.  The spec's bound
`80 + segment_nt` fails for the header oligo: its payload is the 132-base
Goldman encoding of the 22-byte header, giving `80 + 132 = 212 > 80 + 120`
bases at the default `segment_nt = 120` (see `claim_c2_counterexample`).  The
amended bound `80 + max segment_nt 132` holds for every emitted oligo; chunk
oligos alone do satisfy `80 + segment_nt` (`chunkBlock_length_le`). -/
theorem claim_c2_oligo_length_amended (P : DNAStorage) (rsParity : List Nat → List Nat)
    (data : List Nat)
    (hcs : 1 ≤ P.chunk_size)
    (hrs : P.chunk_size + 4 + P.error_correction ≤ 255)
    (hseg : 6 ≤ P.segment_nt)
    (hD : data.length ≤ 2 ^ 20)
    (hDb : ∀ x ∈ data, x < 256)
    (hplen : ∀ p : List Nat, (rsParity p).length = P.error_correction) :
    encode_file P rsParity data = some (encodedOligos P rsParity data) ∧
    ∀ o ∈ encodedOligos P rsParity data, o.length ≤ 80 + max P.segment_nt 132 :=
  ⟨encode_file_eq P rsParity data hcs hrs hseg hD hDb hplen,
   encodedOligos_length_le P rsParity data hcs hrs hseg hD hDb hplen⟩

set_option maxRecDepth 1000000 in
/-- Witness for claim C2 (amended) at the default parameters on the file
`[0]`. -/
theorem claim_c2_oligo_length_amended_witness :
    encode_file defaultParams (rsParityZero 10) [0] =
      some (encodedOligos defaultParams (rsParityZero 10) [0]) ∧
    ∀ o ∈ encodedOligos defaultParams (rsParityZero 10) [0],
      o.length ≤ 80 + max defaultParams.segment_nt 132 :=
  claim_c2_oligo_length_amended defaultParams (rsParityZero 10) [0]
    (by decide) (by decide) (by decide) (by decide) (by decide) (fun p => rfl)

set_option maxRecDepth 1000000 in
/-- Counterexample to claim C2 as stated: at the default parameters even the
empty file produces oligos (its six header replicates, 212 bases each) that
exceed `80 + segment_nt = 200` bases. -/
theorem claim_c2_counterexample :
    encode_file defaultParams (rsParityZero 10) [] ≠ none ∧
    ∃ o ∈ (encode_file defaultParams (rsParityZero 10) []).getD [],
      80 + defaultParams.segment_nt < o.length :=
  ⟨by decide, by decide⟩

/-- Claim C7 — no partial output: `decode_sequences` either returns
`(true, buffer)` with `sha256(buffer)[:8]` equal to the parsed header's
`checksum8`, or `(false, b"")`; a failing final SHA-256 gate yields
`(false, b"")` rather than an exception (the embedding is total — no `none`
escape exists at that stage). -/
theorem claim_c7_no_partial_output (rsDecode : Nat → List Nat → Option (List Nat))
    (seqs : List (List Char)) :
    ((decode_sequences rsDecode seqs).1 = false → (decode_sequences rsDecode seqs).2 = []) ∧
    ((decode_sequences rsDecode seqs).1 = true → ∃ hdr, header_stage seqs = some hdr ∧
      (sha256 (decode_sequences rsDecode seqs).2).take 8 = hdr.checksum8) := by
  cases hh : header_stage seqs with
  | none =>
    rw [decode_sequences, hh]
    dsimp only
    exact ⟨fun _ => rfl, fun h => absurd h (by decide)⟩
  | some hdr =>
    rw [decode_sequences, hh]
    dsimp only
    constructor
    · intro hok
      rw [hok]
      rfl
    · intro hok
      refine ⟨hdr, rfl, ?_⟩
      rw [hok]
      exact of_decide_eq_true hok

theorem chunkBlock_eq_groups (P : DNAStorage) (rsParity : List Nat → List Nat) (tc ci : Nat)
    (c : List Nat) :
    chunkBlock P rsParity tc ci c =
      ((chunkGroups P rsParity tc ci c).map (List.replicate P.redundancy)).flatten := by
  rw [chunkBlock, chunkGroups]
  rw [List.map_append, List.flatten_append, List.map_map, List.map_map]
  rfl

theorem flatten_map_group {α β : Type} (g : α → List β) : ∀ L : List (List α),
    ((L.flatten).map g).flatten = (L.map (fun l => ((l.map g).flatten))).flatten := by
  intro L
  induction L with
  | nil => rfl
  | cons l Ls ih =>
    rw [List.flatten_cons, List.map_append, List.flatten_append, ih, List.map_cons,
      List.flatten_cons]

theorem encodedOligos_eq_groups (P : DNAStorage) (rsParity : List Nat → List Nat)
    (data : List Nat) :
    encodedOligos P rsParity data =
      List.replicate (P.redundancy * 2) (headerSeq P data) ++
      (((((List.enumFrom 1 (pychunks P.chunk_size data)).map
          (fun p => chunkGroups P rsParity (pychunks P.chunk_size data).length p.1 p.2)).flatten).map
        (List.replicate P.redundancy)).flatten) := by
  rw [encodedOligos]
  congr 1
  rw [flatten_map_group, List.map_map]
  apply congrArg
  apply List.map_congr_left
  intro p _
  exact chunkBlock_eq_groups P rsParity (pychunks P.chunk_size data).length p.1 p.2

theorem chunkInfos1_mem (P : DNAStorage) (rsParity : List Nat → List Nat) (tc ci : Nat)
    (c : List Nat) : ∀ p ∈ chunkInfos1 P rsParity tc ci c,
      (p.seq_type = 'D' ∨ p.seq_type = 'P') ∧ p.chunk_idx = ci := by
  intro p hp
  rw [chunkInfos1] at hp
  rcases List.mem_append.mp hp with h | h <;>
  · simp only [List.mem_map] at h
    obtain ⟨is, _, hl⟩ := h
    rw [← hl]
    simp

theorem chunkInfos1_nodup (P : DNAStorage) (rsParity : List Nat → List Nat) (tc ci : Nat)
    (c : List Nat) : (chunkInfos1 P rsParity tc ci c).Nodup := by
  rw [chunkInfos1]
  have henum : ∀ (s : Nat) (l : List (List Char)), (List.enumFrom s l).Nodup := by
    intro s l
    apply List.Nodup.of_map Prod.fst
    rw [List.enumFrom_map_fst]
    exact List.nodup_range' _ _
  have hinj : ∀ (ty : Char),
      Function.Injective (fun is : Nat × List Char =>
        (⟨ty, ci, tc, is.1,
          (pychunks P.segment_nt ((encode_with_constraints (chunkPayload c)).getD [])).length +
          (pychunks P.segment_nt
            ((encode_with_constraints (rsParity (chunkPayload c))).getD [])).length,
          is.2⟩ : PrefixInfo)) := by
    intro ty a b hab
    simp only [PrefixInfo.mk.injEq, true_and] at hab
    exact Prod.ext hab.1 hab.2
  apply List.Nodup.append
  · exact List.Nodup.map (hinj 'D') (henum _ _)
  · exact List.Nodup.map (hinj 'P') (henum _ _)
  · rw [List.disjoint_left]
    intro a ha hb
    simp only [List.mem_map] at ha hb
    obtain ⟨is1, _, h1⟩ := ha
    obtain ⟨is2, _, h2⟩ := hb
    rw [← h1] at h2
    simp only [PrefixInfo.mk.injEq] at h2
    exact absurd h2.1 (by decide)

theorem count_flatten_replicate (r : Nat) (a : List Char) : ∀ groups : List (List Char),
    ((groups.map (List.replicate r)).flatten).count a = r * groups.count a := by
  intro groups
  induction groups with
  | nil => simp
  | cons g gs ih =>
    rw [List.map_cons, List.flatten_cons, List.count_append, ih, List.count_replicate]
    by_cases hag : g = a
    · subst hag
      rw [if_pos (by simp), List.count_cons_self]
      ring
    · rw [if_neg (by simp [hag]), List.count_cons_of_ne (fun h => hag h.symm)]
      omega

/-- Each distinct oligo of a chunk parses to its record. -/
theorem chunkGroups_parse (P : DNAStorage) (rsParity : List Nat → List Nat) (tc ci : Nat)
    (c : List Nat)
    (hseg : 6 ≤ P.segment_nt)
    (hrs : P.chunk_size + 4 + P.error_correction ≤ 255)
    (hclen : c.length ≤ P.chunk_size)
    (hcb : ∀ x ∈ c, x < 256)
    (hci : ci < 2 ^ 24) (htc : tc < 2 ^ 24)
    (hplen : (rsParity (chunkPayload c)).length = P.error_correction) :
    (chunkGroups P rsParity tc ci c).map parsePfx =
      (chunkInfos1 P rsParity tc ci c).map some := by
  have hts := chunk_ts_lt P rsParity c hseg hrs hclen hcb hplen
  rw [chunkGroups, chunkInfos1, List.map_append, List.map_append,
    List.map_map, List.map_map, List.map_map, List.map_map]
  have hgen : ∀ (ty : Char), ty = 'D' ∨ ty = 'P' →
      ∀ (is : Nat × List Char), is.1 <
        (pychunks P.segment_nt ((encode_with_constraints (chunkPayload c)).getD [])).length +
        (pychunks P.segment_nt
          ((encode_with_constraints (rsParity (chunkPayload c))).getD [])).length →
      parsePfx (thePfx ci tc ty is.1
        ((pychunks P.segment_nt ((encode_with_constraints (chunkPayload c)).getD [])).length +
         (pychunks P.segment_nt
           ((encode_with_constraints (rsParity (chunkPayload c))).getD [])).length)
          ++ is.2) =
        some (⟨ty, ci, tc, is.1,
          (pychunks P.segment_nt ((encode_with_constraints (chunkPayload c)).getD [])).length +
          (pychunks P.segment_nt
            ((encode_with_constraints (rsParity (chunkPayload c))).getD [])).length,
          is.2⟩ : PrefixInfo) := by
    intro ty hty is hlt
    obtain ⟨_, _, hparse⟩ := createPfx_eq ci tc ty is.1
      ((pychunks P.segment_nt ((encode_with_constraints (chunkPayload c)).getD [])).length +
       (pychunks P.segment_nt
         ((encode_with_constraints (rsParity (chunkPayload c))).getD [])).length)
      (Or.inr hty) hci htc (by norm_num; omega) (by norm_num; omega)
    exact hparse is.2
  congr 1
  · apply List.map_congr_left
    intro is his
    have hb := mem_enumFrom_bounds 0 _ is his
    exact hgen 'D' (Or.inl rfl) is (by omega)
  · apply List.map_congr_left
    intro is his
    have hb := mem_enumFrom_bounds _ _ is his
    exact hgen 'P' (Or.inr rfl) is (by omega)

/-- Parsing all distinct chunk oligos of the file yields their records. -/
theorem groups_parse_all (P : DNAStorage) (rsParity : List Nat → List Nat) (data : List Nat)
    (hcs : 1 ≤ P.chunk_size)
    (hrs : P.chunk_size + 4 + P.error_correction ≤ 255)
    (hseg : 6 ≤ P.segment_nt)
    (hD : data.length ≤ 2 ^ 20)
    (hDb : ∀ x ∈ data, x < 256)
    (hplen : ∀ p : List Nat, (rsParity p).length = P.error_correction) :
    (((List.enumFrom 1 (pychunks P.chunk_size data)).map
      (fun p => chunkGroups P rsParity (pychunks P.chunk_size data).length p.1 p.2)).flatten).map
        parsePfx =
      (((List.enumFrom 1 (pychunks P.chunk_size data)).map
        (fun p => chunkInfos1 P rsParity (pychunks P.chunk_size data).length p.1 p.2)).flatten).map
        some := by
  rw [List.map_flatten, List.map_flatten, List.map_map, List.map_map]
  apply congrArg
  apply List.map_congr_left
  intro p hp
  have hb := mem_enumFrom_bounds 1 _ p hp
  have hmem2 : p.2 ∈ pychunks P.chunk_size data := List.snd_mem_of_mem_enumFrom hp
  have hmem := pychunks_mem P.chunk_size data.length data (le_refl _)
  have hclen := pychunks_length_le P.chunk_size data.length hcs data
    (Nat.le_mul_of_pos_right _ (by omega))
  have htc24 : (pychunks P.chunk_size data).length < 2 ^ 24 := by
    have : (2 : Nat) ^ 20 < 2 ^ 24 := by norm_num
    omega
  exact chunkGroups_parse P rsParity _ p.1 p.2 hseg hrs (hmem p.2 hmem2).2.1
    (fun x hx => hDb x ((hmem p.2 hmem2).2.2 x hx)) (by omega) htc24 (hplen (chunkPayload p.2))

/-- The distinct chunk oligos are pairwise distinct strings. -/
theorem groups_nodup (P : DNAStorage) (rsParity : List Nat → List Nat) (data : List Nat)
    (hcs : 1 ≤ P.chunk_size)
    (hrs : P.chunk_size + 4 + P.error_correction ≤ 255)
    (hseg : 6 ≤ P.segment_nt)
    (hD : data.length ≤ 2 ^ 20)
    (hDb : ∀ x ∈ data, x < 256)
    (hplen : ∀ p : List Nat, (rsParity p).length = P.error_correction) :
    (((List.enumFrom 1 (pychunks P.chunk_size data)).map
      (fun p => chunkGroups P rsParity (pychunks P.chunk_size data).length p.1 p.2)).flatten).Nodup := by
  apply List.Nodup.of_map parsePfx
  rw [groups_parse_all P rsParity data hcs hrs hseg hD hDb hplen]
  apply List.Nodup.map (Option.some_injective PrefixInfo)
  rw [List.nodup_flatten]
  constructor
  · intro l hl
    simp only [List.mem_map] at hl
    obtain ⟨p, _, hp⟩ := hl
    rw [← hp]
    exact chunkInfos1_nodup P rsParity _ p.1 p.2
  · rw [List.pairwise_map]
    have h1 : ((List.enumFrom 1 (pychunks P.chunk_size data)).map Prod.fst).Nodup := by
      rw [List.enumFrom_map_fst]
      exact List.nodup_range' _ _
    have h2 : List.Pairwise (fun a b : Nat × List Nat => a.1 ≠ b.1)
        (List.enumFrom 1 (pychunks P.chunk_size data)) := List.pairwise_map.mp h1
    apply h2.imp
    intro a b hab
    rw [List.disjoint_left]
    intro x hxa hxb
    have ha := (chunkInfos1_mem P rsParity _ a.1 a.2 x hxa).2
    have hb := (chunkInfos1_mem P rsParity _ b.1 b.2 x hxb).2
    exact hab (ha.symm.trans hb)

/-- On a duplicate-free list, a member's count is exactly one (stated for the
`BEq` instance actually used by `List.count` here). -/
theorem count_eq_one_of_mem_lawful {α : Type} [BEq α] [LawfulBEq α] :
    ∀ (l : List α) (a : α), l.Nodup → a ∈ l → l.count a = 1 := by
  intro l
  induction l with
  | nil =>
    intro a _ h
    cases h
  | cons x xs ih =>
    intro a hnod hmem
    rw [List.count_cons]
    rcases List.mem_cons.mp hmem with h | h
    · subst h
      rw [List.count_eq_zero_of_not_mem (List.nodup_cons.mp hnod).1]
      simp
    · have hax : a ≠ x := by
        intro he
        subst he
        exact (List.nodup_cons.mp hnod).1 h
      rw [ih a (List.nodup_cons.mp hnod).2 h, if_neg (by simp [Ne.symm hax])]

/-- Claim C8 — replication counts: `encode_file` emits `2·redundancy` identical
copies of the header oligo at the head of the list, followed by the per-segment
data/parity oligos, each as `redundancy` identical consecutive copies; the
distinct oligos are pairwise distinct strings (their 80-base prefixes differ),
so the header occurs exactly `2·redundancy` times and every data/parity oligo
exactly `redundancy` times. -/
theorem claim_c8_replication (P : DNAStorage) (rsParity : List Nat → List Nat)
    (data : List Nat)
    (hcs : 1 ≤ P.chunk_size)
    (hrs : P.chunk_size + 4 + P.error_correction ≤ 255)
    (hseg : 6 ≤ P.segment_nt)
    (hD : data.length ≤ 2 ^ 20)
    (hDb : ∀ x ∈ data, x < 256)
    (hplen : ∀ p : List Nat, (rsParity p).length = P.error_correction) :
    ∃ groups : List (List Char),
      encode_file P rsParity data =
        some (List.replicate (P.redundancy * 2) (headerSeq P data) ++
          (groups.map (List.replicate P.redundancy)).flatten) ∧
      headerSeq P data ∉ groups ∧
      groups.Nodup ∧
      (List.replicate (P.redundancy * 2) (headerSeq P data) ++
        (groups.map (List.replicate P.redundancy)).flatten).count (headerSeq P data) =
        P.redundancy * 2 ∧
      (∀ g ∈ groups,
        (List.replicate (P.redundancy * 2) (headerSeq P data) ++
          (groups.map (List.replicate P.redundancy)).flatten).count g = P.redundancy) := by
  set groups := ((List.enumFrom 1 (pychunks P.chunk_size data)).map
    (fun p => chunkGroups P rsParity (pychunks P.chunk_size data).length p.1 p.2)).flatten
    with hgroups
  have hnodup : groups.Nodup := by
    rw [hgroups]
    exact groups_nodup P rsParity data hcs hrs hseg hD hDb hplen
  have hnotmem : headerSeq P data ∉ groups := by
    intro hmemhdr
    have h1 : parsePfx (headerSeq P data) ∈ groups.map parsePfx :=
      List.mem_map_of_mem parsePfx hmemhdr
    rw [hgroups, groups_parse_all P rsParity data hcs hrs hseg hD hDb hplen] at h1
    have hnc24 : (data.length + P.chunk_size - 1) / P.chunk_size < 2 ^ 24 := by
      have hle := Nat.div_le_self (data.length + P.chunk_size - 1) P.chunk_size
      have h1' : P.chunk_size ≤ 251 := by omega
      have h2' : (2 : Nat) ^ 20 + 251 < 2 ^ 24 := by norm_num
      omega
    obtain ⟨_, _, hparse⟩ := createPfx_eq 0 ((data.length + P.chunk_size - 1) / P.chunk_size)
      'H' 0 1 (Or.inl rfl) (by norm_num) hnc24 (by norm_num) (by norm_num)
    rw [headerSeq, hparse] at h1
    simp only [List.mem_map] at h1
    obtain ⟨info, hinfo, heq⟩ := h1
    have heq2 : info = ⟨'H', 0, (data.length + P.chunk_size - 1) / P.chunk_size, 0, 1,
        (bytes_to_dna_goldman ((create_header P.chunk_size P.error_correction data.length
          ((sha256 data).take 8)).getD []) 'A').getD []⟩ := Option.some.inj heq
    simp only [List.mem_flatten, List.mem_map] at hinfo
    obtain ⟨l, ⟨p, _, hl⟩, hil⟩ := hinfo
    rw [← hl] at hil
    obtain ⟨hty, _⟩ := chunkInfos1_mem P rsParity _ p.1 p.2 info hil
    rw [heq2] at hty
    dsimp only at hty
    rcases hty with h | h <;> exact absurd h (by decide)
  refine ⟨groups, ?_, hnotmem, hnodup, ?_, ?_⟩
  · rw [encode_file_eq P rsParity data hcs hrs hseg hD hDb hplen,
      encodedOligos_eq_groups P rsParity data, ← hgroups]
  · rw [List.count_append, List.count_replicate_self, count_flatten_replicate,
      List.count_eq_zero_of_not_mem hnotmem]
    omega
  · intro g hg
    have hgne : g ∉ List.replicate (P.redundancy * 2) (headerSeq P data) := by
      intro hmem
      obtain ⟨_, hge⟩ := List.mem_replicate.mp hmem
      rw [hge] at hg
      exact hnotmem hg
    rw [List.count_append, List.count_eq_zero_of_not_mem hgne, count_flatten_replicate,
      count_eq_one_of_mem_lawful groups g hnodup hg]
    omega

set_option maxRecDepth 1000000 in
/-- Witness for claim C8 at the default parameters on the file `[0]`. -/
theorem claim_c8_replication_witness :
    ∃ groups : List (List Char),
      encode_file defaultParams (rsParityZero 10) [0] =
        some (List.replicate (defaultParams.redundancy * 2)
            (headerSeq defaultParams [0]) ++
          (groups.map (List.replicate defaultParams.redundancy)).flatten) ∧
      headerSeq defaultParams [0] ∉ groups ∧
      groups.Nodup ∧
      (List.replicate (defaultParams.redundancy * 2) (headerSeq defaultParams [0]) ++
        (groups.map (List.replicate defaultParams.redundancy)).flatten).count
          (headerSeq defaultParams [0]) = defaultParams.redundancy * 2 ∧
      (∀ g ∈ groups,
        (List.replicate (defaultParams.redundancy * 2) (headerSeq defaultParams [0]) ++
          (groups.map (List.replicate defaultParams.redundancy)).flatten).count g =
          defaultParams.redundancy) :=
  claim_c8_replication defaultParams (rsParityZero 10) [0]
    (by decide) (by decide) (by decide) (by decide) (by decide) (fun p => rfl)

end DNACodec
